import Mathlib

/-!
# dat2inp: the decoding layer of `main.cpp`

A shallow embedding of `extract_string`, `convert<T>`, the loop of `main` over
the files with its field-filling block (lines 194-317) and `generate_inp`, over
a byte-addressed memory.

Conventions of the model (the target is the Windows/x86 build the source names):

* a byte is a natural number below 256; `char` tests use its unsigned value;
* `isspace` is the "C" locale one: space and the five controls 9..13;
* integers are little-endian two's complement, `sizeof(int) = 4`,
  `sizeof(short) = 2`, `sizeof(float) = 4`;
* `IO_Header` is laid out with natural alignment, `sizeof(IO_Header) = 432`;
  the memory that starts at `&io` is one flat array of bytes, so a write or a
  read that leaves a member lands in the bytes that follow it;
* `float` arithmetic is IEEE 754 binary32, one rounding (to nearest, ties to
  even) after each operation.
-/

namespace Dat2Inp

/-! ## Memory -/

/-- Byte-addressed memory, packed in one natural number: the byte at address
`a` is digit `a` of the number in base 256. Every address holds a byte; an
address never written holds what the initial number has there. -/
abbrev Mem := Nat

/-- Load of one byte. -/
def peek (m : Mem) (a : Nat) : Nat := m / 256 ^ a % 256

/-- Store of one byte (the value is reduced to a byte). -/
def poke (m : Mem) (a v : Nat) : Mem := m - peek m a * 256 ^ a + v % 256 * 256 ^ a

/-- Byte `i` of the file buffer; `buffer + i` read as `unsigned char`. An index
outside the list reads 0. -/
def rd (buffer : List Nat) (i : Nat) : Nat := buffer.getD i 0 % 256

/-- Store of a run of bytes from address `a` upwards. -/
def poke_list (m : Mem) (a : Nat) : List Nat → Mem
  | [] => m
  | v :: vs => poke_list (poke m a v) (a + 1) vs

/-- Load of `n` bytes from address `a` upwards. -/
def peek_list (m : Mem) (a : Nat) : Nat → List Nat
  | 0 => []
  | n + 1 => peek m a :: peek_list m (a + 1) n

/-- The C string at address `a`: the bytes before the first NUL, looking at no
more than `fuel` bytes. -/
def cstr (m : Mem) : Nat → Nat → List Nat
  | _, 0 => []
  | a, fuel + 1 => if peek m a = 0 then [] else peek m a :: cstr m (a + 1) fuel

/-! ## The C library functions the source calls -/

/-- The `isspace` of `<cctype>` in the "C" locale. -/
def isspace (c : Nat) : Bool := c == 32 || (decide (9 ≤ c) && decide (c ≤ 13))

/-- The second loop of `strncpy`: `n` NUL bytes from `dest` upwards. -/
def fill_zero (dest : Nat) : Nat → Mem → Mem
  | 0, m => m
  | n + 1, m => fill_zero (dest + 1) n (poke m dest 0)

/-- The `strncpy(dest, src, n)` of `<cstring>`: copies bytes of `src` up to its
first NUL, at most `n` of them, and pads with NUL bytes up to `n` bytes written. -/
def strncpy (src : Nat → Nat) (dest : Nat) : Nat → Mem → Mem
  | 0, m => m
  | n + 1, m =>
    if src 0 = 0 then fill_zero dest (n + 1) m
    else strncpy (fun i => src (i + 1)) (dest + 1) n (poke m dest (src 0))

/-- The `strcpy(dest, src)` of `<cstring>`: the bytes of `src` before its first
NUL, then a NUL. -/
def strcpy (m : Mem) (dest : Nat) (src : List Nat) : Mem :=
  poke_list m dest (src.takeWhile (fun c => c % 256 != 0) ++ [0])

/-! ## extract_string (main.cpp 395-411) -/

/-- The loop `while(--len > 0) { if(isspace(dest[len]) || !dest[len]) dest[len] = 0; else break; }`
entered with `k` the value `--len` has just produced. Returns the final `len`
and the memory. -/
def trim_loop (dest : Nat) : Nat → Mem → Nat × Mem
  | 0, m => (0, m)
  | k + 1, m =>
    if isspace (peek m (dest + (k + 1))) || peek m (dest + (k + 1)) == 0 then
      trim_loop dest k (poke m (dest + (k + 1)) 0)
    else (k + 1, m)

/-- The function `extract_string(buffer + src, dest)`. `len` is an `unsigned char`,
so the first `--len` turns a declared length 0 into 255. -/
def extract_string (buffer : List Nat) (src dest : Nat) (m : Mem) : Mem :=
  let len := rd buffer src
  let m1 := strncpy (fun i => rd buffer (src + 1 + i)) dest len m
  let m2 := poke m1 (dest + len) 0
  let r := trim_loop dest ((len + 255) % 256) m2
  if r.1 = 0 ∧ isspace (peek r.2 dest) = true then poke r.2 dest 0 else r.2

/-! ## convert<T> (main.cpp 58-64) and the loads and stores of the members -/

/-- The number whose base-256 digits, least significant first, are the `n` bytes
of the buffer from index `o` on. -/
def le_value (buffer : List Nat) (o : Nat) : Nat → Nat
  | 0 => 0
  | n + 1 => rd buffer o + 256 * le_value buffer (o + 1) n

/-- Two's complement reading of the low `w` bits of `n`. -/
def to_signed (w n : Nat) : Int :=
  if n % 2 ^ w < 2 ^ (w - 1) then ((n % 2 ^ w : Nat) : Int) else ((n % 2 ^ w : Nat) : Int) - 2 ^ w

/-- The call `convert<int>(buffer + o)`: `memcpy` of 4 bytes into an `int`. -/
def convert_int (buffer : List Nat) (o : Nat) : Int := to_signed 32 (le_value buffer o 4)

/-- The call `convert<short>(buffer + o)`: `memcpy` of 2 bytes into a `short`. -/
def convert_short (buffer : List Nat) (o : Nat) : Int := to_signed 16 (le_value buffer o 2)

/-- The call `convert<float>(buffer + o)`: `memcpy` of 4 bytes into a `float`,
kept as its bit pattern. -/
def convert_float (buffer : List Nat) (o : Nat) : Nat := le_value buffer o 4

/-- Store of the low `n` bytes of `v`, least significant first. -/
def store_le (m : Mem) (a : Nat) : Nat → Nat → Mem
  | 0, _ => m
  | n + 1, v => store_le (poke m a v) (a + 1) n (v / 256)

/-- Assignment to an `int` member at address `a`. -/
def store_int (m : Mem) (a : Nat) (v : Int) : Mem := store_le m a 4 (v % 2 ^ 32).toNat

/-- Assignment to a `short` member at address `a`; an `int` value is narrowed
to its low 16 bits. -/
def store_short (m : Mem) (a : Nat) (v : Int) : Mem := store_le m a 2 (v % 2 ^ 16).toNat

/-- Assignment to a `float` member at address `a`, from its bit pattern. -/
def store_float (m : Mem) (a : Nat) (bits : Nat) : Mem := store_le m a 4 bits

/-- The number whose base-256 digits, least significant first, are the `n` bytes
of memory from address `a` on. -/
def load_le (m : Mem) (a : Nat) : Nat → Nat
  | 0 => 0
  | n + 1 => peek m a + 256 * load_le m (a + 1) n

/-- Value of an `int` member at address `a`. -/
def load_int (m : Mem) (a : Nat) : Int := to_signed 32 (load_le m a 4)

/-- Value of a `short` member at address `a`. -/
def load_short (m : Mem) (a : Nat) : Int := to_signed 16 (load_le m a 2)

/-- Bit pattern of a `float` member at address `a`. -/
def load_float (m : Mem) (a : Nat) : Nat := load_le m a 4

/-! ## float arithmetic (binary32) -/

/-- A binary32 value: a signed zero or normal number `(-1)^neg * mant * 2^exp`
(`mant = 0` for a zero, otherwise `2^23 ≤ mant < 2^24`), an infinity, or NaN. -/
inductive F32 where
  | fin (neg : Bool) (mant : Nat) (exp : Int)
  | inf (neg : Bool)
  | nan
deriving DecidableEq

/-- Number of binary digits of `n`, by halving at most `fuel` times. -/
def bit_length : Nat → Nat → Nat
  | 0, _ => 0
  | fuel + 1, n => if n = 0 then 0 else bit_length fuel (n / 2) + 1

/-- Floor of the binary logarithm of a positive number. -/
def ilog2 (n : Nat) : Nat := bit_length n n - 1

/-- Numerator and denominator of `n / d / 2^e`. -/
def round_scaled (n d : Nat) (e : Int) : Nat × Nat :=
  if 0 ≤ e then (n, d * 2 ^ e.toNat) else (n * 2 ^ (-e).toNat, d)

/-- Round to nearest, ties to even, of the positive rational `n / d` to 24
significant bits: the result is `mant * 2^exp` with `2^23 ≤ mant < 2^24`. -/
def round24 (n d : Nat) : Nat × Int :=
  let e0 : Int := (ilog2 n : Int) - (ilog2 d : Int) - 23
  let s0 := round_scaled n d e0
  let e : Int := if s0.1 / s0.2 < 2 ^ 23 then e0 - 1 else e0
  let s := round_scaled n d e
  let q := s.1 / s.2
  let r := s.1 % s.2
  let q1 := if s.2 < 2 * r ∨ (2 * r = s.2 ∧ q % 2 = 1) then q + 1 else q
  if q1 = 2 ^ 24 then (2 ^ 23, e + 1) else (q1, e)

/-- The value `(-1)^neg * n / d * 2^sh` rounded to binary32 (no overflow or
underflow: the exponents met in `dead_time` stay far inside the normal range). -/
def F32.round (neg : Bool) (n d : Nat) (sh : Int) : F32 :=
  if n = 0 then .fin neg 0 0 else .fin neg (round24 n d).1 ((round24 n d).2 + sh)

/-- Conversion `(float)x` of an `int`. -/
def F32.of_int (x : Int) : F32 := F32.round (decide (x < 0)) x.natAbs 1 0

/-- The integer `mant * 2^(exp - base)` with its sign, for `base ≤ exp`. -/
def F32.scaled (neg : Bool) (mant : Nat) (exp base : Int) : Int :=
  let v : Int := ((mant * 2 ^ (exp - base).toNat : Nat) : Int)
  if neg then -v else v

/-- Subtraction `a - b` of two `float`s. -/
def F32.sub : F32 → F32 → F32
  | .nan, _ => .nan
  | _, .nan => .nan
  | .inf s, .inf t => if s = t then .nan else .inf s
  | .inf s, .fin _ _ _ => .inf s
  | .fin _ _ _, .inf t => .inf (!t)
  | .fin s m e, .fin t k f =>
    if m = 0 ∧ k = 0 then .fin (s && !t) 0 0
    else
      let base := min e f
      let v := F32.scaled s m e base - F32.scaled t k f base
      if v = 0 then .fin false 0 0
      else if 0 ≤ base then F32.round (decide (v < 0)) (v.natAbs * 2 ^ base.toNat) 1 0
      else F32.round (decide (v < 0)) v.natAbs (2 ^ (-base).toNat) 0

/-- Division `a / b` of two `float`s; a division by zero gives an infinity, or
NaN for `0 / 0`. -/
def F32.div : F32 → F32 → F32
  | .nan, _ => .nan
  | _, .nan => .nan
  | .inf _, .inf _ => .nan
  | .inf s, .fin t _ _ => .inf (xor s t)
  | .fin s _ _, .inf t => .fin (xor s t) 0 0
  | .fin s m e, .fin t k f =>
    if k = 0 then (if m = 0 then .nan else .inf (xor s t))
    else F32.round (xor s t) m k (e - f)

/-- Multiplication `a * b` of two `float`s. -/
def F32.mul : F32 → F32 → F32
  | .nan, _ => .nan
  | _, .nan => .nan
  | .inf s, .inf t => .inf (xor s t)
  | .inf s, .fin t k _ => if k = 0 then .nan else .inf (xor s t)
  | .fin s m _, .inf t => if m = 0 then .nan else .inf (xor s t)
  | .fin s m e, .fin t k f => F32.round (xor s t) (m * k) 1 (e + f)

/-- The 32-bit pattern of a binary32 value; the NaN is the default quiet NaN of
x86, `0xFFC00000`. -/
def F32.bits : F32 → Nat
  | .nan => 0xFFC00000
  | .inf s => (if s then 2 ^ 31 else 0) + 0x7F800000
  | .fin s m e =>
    (if s then 2 ^ 31 else 0) + (if m = 0 then 0 else (e + 150).toNat * 2 ^ 23 + (m - 2 ^ 23))

/-- Whether a `float` is a finite number. -/
def F32.is_finite : F32 → Bool
  | .fin _ _ _ => true
  | _ => false

/-- The value of a finite `float` as a rational number (0 for the others). -/
def F32.to_rat : F32 → ℚ
  | .fin s m e => (if s then -1 else 1) * (m : ℚ) * (2 : ℚ) ^ e
  | _ => 0

/-- Lines 247-249 of main.cpp: `dead_time = (float)real_time - live_time;
dead_time /= (float)live_time; dead_time *= 100.0f;`. -/
def dead_time (real_time live_time : Int) : F32 :=
  F32.mul (F32.div (F32.sub (F32.of_int real_time) (F32.of_int live_time))
    (F32.of_int live_time)) (F32.of_int 100)

/-! ## IO_Header (main.h 36-106)

Offsets of the members from `&io`, with natural alignment. -/

namespace IO_Header

abbrev spectrum_identifier : Nat := 0
abbrev sample_identifier : Nat := 6
abbrev project : Nat := 48
abbrev sample_location : Nat := 54
abbrev latitude : Nat := 88
abbrev latitude_unit : Nat := 92
abbrev longitude : Nat := 96
abbrev longitude_unit : Nat := 100
abbrev sample_height : Nat := 104
abbrev sample_weight : Nat := 108
abbrev sample_density : Nat := 112
abbrev sample_volume : Nat := 116
abbrev sample_uncertainty : Nat := 120
abbrev sample_quantity : Nat := 124
abbrev sample_unit : Nat := 128
abbrev detector_identifier : Nat := 132
abbrev year : Nat := 136
abbrev beaker_identifier : Nat := 140
abbrev sampling_start : Nat := 144
abbrev sampling_stop : Nat := 158
abbrev reference_time : Nat := 172
abbrev measurement_start : Nat := 186
abbrev measurement_stop : Nat := 200
abbrev real_time : Nat := 216
abbrev live_time : Nat := 220
abbrev measurement_time : Nat := 224
abbrev dead_time : Nat := 228
abbrev nuclide_library : Nat := 232
abbrev lim_file : Nat := 246
abbrev channel_count : Nat := 260
abbrev format : Nat := 264
abbrev record_length : Nat := 268
abbrev FWHMPS : Nat := 272
abbrev FWHMAN : Nat := 276
abbrev THRESH : Nat := 280
abbrev BSTF : Nat := 284
abbrev ETOL : Nat := 288
abbrev LOCH : Nat := 292
abbrev ICA : Nat := 296
abbrev energy_file : Nat := 298
abbrev pef_file : Nat := 312
abbrev tef_file : Nat := 326
abbrev background_file : Nat := 340
abbrev PA1 : Nat := 356
abbrev PA2 : Nat := 360
abbrev PA3 : Nat := 364
abbrev PA4 : Nat := 368
abbrev PA5 : Nat := 372
abbrev PA6 : Nat := 376
abbrev print_out : Nat := 380
abbrev plot_out : Nat := 382
abbrev disk_out : Nat := 384
abbrev ex_print_out : Nat := 386
abbrev ex_disk_out : Nat := 388
abbrev PO1 : Nat := 392
abbrev PO2 : Nat := 396
abbrev PO3 : Nat := 400
abbrev PO4 : Nat := 404
abbrev PO5 : Nat := 408
abbrev PO6 : Nat := 412
abbrev complete : Nat := 416
abbrev analysed : Nat := 418
abbrev ST1 : Nat := 420
abbrev ST2 : Nat := 422
abbrev ST3 : Nat := 424
abbrev ST4 : Nat := 426
abbrev ST5 : Nat := 428
abbrev ST6 : Nat := 430

/-- The value of `sizeof(IO_Header)`. -/
abbrev size : Nat := 432

end IO_Header

/-! ## The block of main that fills the header (main.cpp 218-294) -/

/-- Lines 218-294 of `main`, statement by statement in source order, on the
memory `io` that starts at `&io`. `!strlen(io.lim_file)` is the test that the
first byte of the member is NUL; the three statements on `dead_time` are one
store of the value of `dead_time`. -/
def fill_header (has_defdetlimlib : Bool) (defdetlimlib : List Nat) (buffer : List Nat)
    (io : Mem) : Mem :=
  let io := extract_string buffer 0 IO_Header.spectrum_identifier io
  let io := extract_string buffer 5 IO_Header.sample_identifier io
  let io := extract_string buffer 46 IO_Header.project io
  let io := extract_string buffer 51 IO_Header.sample_location io
  let io := store_float io IO_Header.latitude (convert_float buffer 82)
  let io := poke io IO_Header.latitude_unit (rd buffer 86)
  let io := store_float io IO_Header.longitude (convert_float buffer 87)
  let io := poke io IO_Header.longitude_unit (rd buffer 91)
  let io := store_float io IO_Header.sample_height (convert_float buffer 92)
  let io := store_float io IO_Header.sample_weight (convert_float buffer 96)
  let io := store_float io IO_Header.sample_density (convert_float buffer 100)
  let io := store_float io IO_Header.sample_volume (convert_float buffer 104)
  let io := store_float io IO_Header.sample_quantity (convert_float buffer 108)
  let io := store_float io IO_Header.sample_uncertainty (convert_float buffer 112)
  let io := extract_string buffer 128 IO_Header.sampling_start io
  let io := extract_string buffer 141 IO_Header.sampling_stop io
  let io := extract_string buffer 154 IO_Header.reference_time io
  let io := extract_string buffer 167 IO_Header.measurement_start io
  let io := extract_string buffer 180 IO_Header.measurement_stop io
  let io := store_float io IO_Header.FWHMPS (convert_float buffer 245)
  let io := store_float io IO_Header.FWHMAN (convert_float buffer 249)
  let io := store_float io IO_Header.THRESH (convert_float buffer 253)
  let io := store_float io IO_Header.BSTF (convert_float buffer 257)
  let io := store_float io IO_Header.ETOL (convert_float buffer 261)
  let io := store_float io IO_Header.LOCH (convert_float buffer 265)
  let io := store_short io IO_Header.ICA (convert_short buffer 269)
  let io := store_int io IO_Header.real_time (convert_int buffer 193)
  let io := store_int io IO_Header.live_time (convert_int buffer 197)
  let io := store_int io IO_Header.measurement_time (convert_int buffer 201)
  let io := store_float io IO_Header.dead_time
    (dead_time (load_int io IO_Header.real_time) (load_int io IO_Header.live_time)).bits
  let io := extract_string buffer 116 IO_Header.sample_unit io
  let io := extract_string buffer 119 IO_Header.detector_identifier io
  let io := extract_string buffer 122 IO_Header.year io
  let io := extract_string buffer 125 IO_Header.beaker_identifier io
  let io := extract_string buffer 209 IO_Header.nuclide_library io
  let io := extract_string buffer 222 IO_Header.lim_file io
  let io := if peek io IO_Header.lim_file = 0 ∧ has_defdetlimlib = true
    then strcpy io IO_Header.lim_file defdetlimlib else io
  let io := extract_string buffer 271 IO_Header.energy_file io
  let io := extract_string buffer 284 IO_Header.pef_file io
  let io := extract_string buffer 297 IO_Header.tef_file io
  let io := extract_string buffer 310 IO_Header.background_file io
  let io := store_int io IO_Header.channel_count (convert_int buffer 235)
  let io := extract_string buffer 239 IO_Header.format io
  let io := store_short io IO_Header.record_length (convert_int buffer 243)
  let io := store_int io IO_Header.PA1 (convert_int buffer 323)
  let io := store_int io IO_Header.PA2 (convert_int buffer 327)
  let io := store_int io IO_Header.PA3 (convert_int buffer 331)
  let io := store_int io IO_Header.PA4 (convert_int buffer 335)
  let io := store_int io IO_Header.PA5 (convert_int buffer 339)
  let io := store_int io IO_Header.PA6 (convert_int buffer 343)
  let io := store_short io IO_Header.print_out (convert_short buffer 347)
  let io := store_short io IO_Header.plot_out (convert_short buffer 349)
  let io := store_short io IO_Header.disk_out (convert_short buffer 351)
  let io := store_short io IO_Header.ex_print_out (convert_short buffer 353)
  let io := store_short io IO_Header.ex_disk_out (convert_short buffer 355)
  let io := store_int io IO_Header.PO1 (convert_int buffer 357)
  let io := store_int io IO_Header.PO2 (convert_int buffer 361)
  let io := store_int io IO_Header.PO3 (convert_int buffer 365)
  let io := store_int io IO_Header.PO4 (convert_int buffer 369)
  let io := store_int io IO_Header.PO5 (convert_int buffer 373)
  let io := store_int io IO_Header.PO6 (convert_int buffer 377)
  let io := store_short io IO_Header.complete (convert_short buffer 381)
  let io := store_short io IO_Header.analysed (convert_short buffer 383)
  let io := store_short io IO_Header.ST1 (convert_int buffer 385)
  let io := store_short io IO_Header.ST2 (convert_int buffer 387)
  let io := store_short io IO_Header.ST3 (convert_int buffer 389)
  let io := store_short io IO_Header.ST4 (convert_int buffer 391)
  let io := store_short io IO_Header.ST5 (convert_int buffer 393)
  let io := store_short io IO_Header.ST6 (convert_int buffer 395)
  io

/-- The indices of the buffer that `strncpy` reads, `base` being the index of
`src[0]`: it stops after the first NUL. -/
def strncpy_reads (src : Nat → Nat) (base : Nat) : Nat → List Nat
  | 0 => []
  | n + 1 => base :: (if src 0 = 0 then [] else strncpy_reads (fun i => src (i + 1)) (base + 1) n)

/-- The indices of the buffer that `extract_string(buffer + src, dest)` reads:
the length byte, then what `strncpy` reads. -/
def extract_string_reads (buffer : List Nat) (src : Nat) : List Nat :=
  src :: strncpy_reads (fun i => rd buffer (src + 1 + i)) (src + 1) (rd buffer src)

/-- The indices of the buffer read by lines 218-294, in the order of the
statements; `convert<T>(buffer + o)` reads `sizeof(T)` bytes from `o`. -/
def fill_header_reads (buffer : List Nat) : List Nat :=
  List.flatten [
    extract_string_reads buffer 0,
    extract_string_reads buffer 5,
    extract_string_reads buffer 46,
    extract_string_reads buffer 51,
    List.range' 82 4,
    [86],
    List.range' 87 4,
    [91],
    List.range' 92 4,
    List.range' 96 4,
    List.range' 100 4,
    List.range' 104 4,
    List.range' 108 4,
    List.range' 112 4,
    extract_string_reads buffer 128,
    extract_string_reads buffer 141,
    extract_string_reads buffer 154,
    extract_string_reads buffer 167,
    extract_string_reads buffer 180,
    List.range' 245 4,
    List.range' 249 4,
    List.range' 253 4,
    List.range' 257 4,
    List.range' 261 4,
    List.range' 265 4,
    List.range' 269 2,
    List.range' 193 4,
    List.range' 197 4,
    List.range' 201 4,
    extract_string_reads buffer 116,
    extract_string_reads buffer 119,
    extract_string_reads buffer 122,
    extract_string_reads buffer 125,
    extract_string_reads buffer 209,
    extract_string_reads buffer 222,
    extract_string_reads buffer 271,
    extract_string_reads buffer 284,
    extract_string_reads buffer 297,
    extract_string_reads buffer 310,
    List.range' 235 4,
    extract_string_reads buffer 239,
    List.range' 243 4,
    List.range' 323 4,
    List.range' 327 4,
    List.range' 331 4,
    List.range' 335 4,
    List.range' 339 4,
    List.range' 343 4,
    List.range' 347 2,
    List.range' 349 2,
    List.range' 351 2,
    List.range' 353 2,
    List.range' 355 2,
    List.range' 357 4,
    List.range' 361 4,
    List.range' 365 4,
    List.range' 369 4,
    List.range' 373 4,
    List.range' 377 4,
    List.range' 381 2,
    List.range' 383 2,
    List.range' 385 4,
    List.range' 387 4,
    List.range' 389 4,
    List.range' 391 4,
    List.range' 393 4,
    List.range' 395 4]

/-! ## One iteration of the file loop (main.cpp 194-317) -/

/-- Line 196, `memset((void*)&io, 0, sizeof(io))`. The bytes of memory after
the structure keep what they hold. -/
def memset_io (m : Mem) : Mem := fill_zero 0 IO_Header.size m

/-- Line 197, `memset((void*)buffer, 0, sizeof(buffer))`: `buffer` is a `char*`,
so `sizeof(buffer)` is the size `psz` of a pointer (4 or 8) and only that many
bytes are cleared. The list is the whole allocation `new char[max_file_size + 1]`. -/
def memset_buffer (psz : Nat) (heap : List Nat) : List Nat :=
  List.replicate (min psz heap.length) 0 ++ heap.drop psz

/-- Line 208, `fio.read(buffer, file_sizes[i])`: the first `size` bytes of the
file overwrite the start of the buffer, the rest of the buffer keeps what it
holds; the read fails when the file has fewer than `size` bytes. -/
def read_file (heap file : List Nat) (size : Nat) : List Nat × Bool :=
  (file.take size ++ heap.drop (min size file.length), decide (size ≤ file.length))

/-- What one iteration of the loop does with a file. -/
inductive Outcome where
  | unable_to_open
  | unable_to_read
  | converted (io : Mem)
deriving DecidableEq

/-- Whether the iteration reached the writers with a filled header. -/
def Outcome.is_converted : Outcome → Bool
  | .converted _ => true
  | _ => false

/-- The header handed to the writers (0 when there is none). -/
def Outcome.header : Outcome → Mem
  | .converted io => io
  | _ => 0

/-- Lines 196-294: one iteration of the loop over the files. `heap` is the
buffer as the previous iterations left it, `m` the memory at `&io`, `file` the
bytes of the file (`none` when it cannot be opened) and `size` its size in the
directory listing. Returns the buffer and the outcome. -/
def process_file (psz : Nat) (has_defdetlimlib : Bool) (defdetlimlib : List Nat)
    (heap : List Nat) (m : Mem) (file : Option (List Nat)) (size : Nat) : List Nat × Outcome :=
  let io := memset_io m
  let heap := memset_buffer psz heap
  match file with
  | none => (heap, .unable_to_open)
  | some bytes =>
    let r := read_file heap bytes size
    if r.2 = true then
      (r.1, .converted (fill_header has_defdetlimlib defdetlimlib r.1 io))
    else (r.1, .unable_to_read)

/-! ## The loop over the files (main.cpp 194-317) -/

/-- The type of a member of `IO_Header`: `char[n]`, `char`, `int`, `short` or
`float`. -/
inductive CType where
  | chars (n : Nat)
  | char
  | int
  | short
  | float
deriving DecidableEq

/-- The value of `sizeof` for a member type. -/
def CType.size : CType → Nat
  | .chars n => n
  | .char => 1
  | .int => 4
  | .short => 2
  | .float => 4

/-- The alignment of a member type. -/
def CType.align : CType → Nat
  | .chars _ => 1
  | .char => 1
  | .int => 4
  | .short => 2
  | .float => 4

/-- The members of `IO_Header` in the order of their declaration (main.h 38-105),
each with its offset and its type. -/
def IO_Header.members : List (Nat × CType) := [
  (IO_Header.spectrum_identifier, .chars 6),
  (IO_Header.sample_identifier, .chars 42),
  (IO_Header.project, .chars 6),
  (IO_Header.sample_location, .chars 32),
  (IO_Header.latitude, .float),
  (IO_Header.latitude_unit, .char),
  (IO_Header.longitude, .float),
  (IO_Header.longitude_unit, .char),
  (IO_Header.sample_height, .float),
  (IO_Header.sample_weight, .float),
  (IO_Header.sample_density, .float),
  (IO_Header.sample_volume, .float),
  (IO_Header.sample_uncertainty, .float),
  (IO_Header.sample_quantity, .float),
  (IO_Header.sample_unit, .chars 4),
  (IO_Header.detector_identifier, .chars 4),
  (IO_Header.year, .chars 4),
  (IO_Header.beaker_identifier, .chars 4),
  (IO_Header.sampling_start, .chars 14),
  (IO_Header.sampling_stop, .chars 14),
  (IO_Header.reference_time, .chars 14),
  (IO_Header.measurement_start, .chars 14),
  (IO_Header.measurement_stop, .chars 14),
  (IO_Header.real_time, .int),
  (IO_Header.live_time, .int),
  (IO_Header.measurement_time, .int),
  (IO_Header.dead_time, .float),
  (IO_Header.nuclide_library, .chars 14),
  (IO_Header.lim_file, .chars 14),
  (IO_Header.channel_count, .int),
  (IO_Header.format, .chars 4),
  (IO_Header.record_length, .short),
  (IO_Header.FWHMPS, .float),
  (IO_Header.FWHMAN, .float),
  (IO_Header.THRESH, .float),
  (IO_Header.BSTF, .float),
  (IO_Header.ETOL, .float),
  (IO_Header.LOCH, .float),
  (IO_Header.ICA, .short),
  (IO_Header.energy_file, .chars 14),
  (IO_Header.pef_file, .chars 14),
  (IO_Header.tef_file, .chars 14),
  (IO_Header.background_file, .chars 14),
  (IO_Header.PA1, .int),
  (IO_Header.PA2, .int),
  (IO_Header.PA3, .int),
  (IO_Header.PA4, .int),
  (IO_Header.PA5, .int),
  (IO_Header.PA6, .int),
  (IO_Header.print_out, .short),
  (IO_Header.plot_out, .short),
  (IO_Header.disk_out, .short),
  (IO_Header.ex_print_out, .short),
  (IO_Header.ex_disk_out, .short),
  (IO_Header.PO1, .int),
  (IO_Header.PO2, .int),
  (IO_Header.PO3, .int),
  (IO_Header.PO4, .int),
  (IO_Header.PO5, .int),
  (IO_Header.PO6, .int),
  (IO_Header.complete, .short),
  (IO_Header.analysed, .short),
  (IO_Header.ST1, .short),
  (IO_Header.ST2, .short),
  (IO_Header.ST3, .short),
  (IO_Header.ST4, .short),
  (IO_Header.ST5, .short),
  (IO_Header.ST6, .short)]

/-- The offsets that natural alignment gives to members of the given types,
the first of them placed from the offset `pos` on: each member at the next
multiple of its alignment. -/
def layout : Nat → List CType → List Nat
  | _, [] => []
  | pos, t :: ts => (pos + (t.align - pos % t.align) % t.align) ::
      layout (pos + (t.align - pos % t.align) % t.align + t.size) ts

/-- The type of the member at an offset. -/
def IO_Header.type_of (a : Nat) : Option CType :=
  (IO_Header.members.find? (fun p => p.1 == a)).map Prod.snd

/-- The members in the order in which `generate_inp` writes them (lines 471-538),
one `out << io.member << endl;` each. -/
def generate_inp_order : List Nat := [
  IO_Header.spectrum_identifier,
  IO_Header.sample_identifier,
  IO_Header.project,
  IO_Header.sample_location,
  IO_Header.latitude,
  IO_Header.latitude_unit,
  IO_Header.longitude,
  IO_Header.longitude_unit,
  IO_Header.sample_height,
  IO_Header.sample_weight,
  IO_Header.sample_density,
  IO_Header.sample_volume,
  IO_Header.sample_quantity,
  IO_Header.sample_uncertainty,
  IO_Header.sample_unit,
  IO_Header.detector_identifier,
  IO_Header.year,
  IO_Header.beaker_identifier,
  IO_Header.sampling_start,
  IO_Header.sampling_stop,
  IO_Header.reference_time,
  IO_Header.measurement_start,
  IO_Header.measurement_stop,
  IO_Header.real_time,
  IO_Header.live_time,
  IO_Header.measurement_time,
  IO_Header.dead_time,
  IO_Header.nuclide_library,
  IO_Header.lim_file,
  IO_Header.channel_count,
  IO_Header.format,
  IO_Header.record_length,
  IO_Header.FWHMPS,
  IO_Header.FWHMAN,
  IO_Header.THRESH,
  IO_Header.BSTF,
  IO_Header.ETOL,
  IO_Header.LOCH,
  IO_Header.ICA,
  IO_Header.energy_file,
  IO_Header.pef_file,
  IO_Header.tef_file,
  IO_Header.background_file,
  IO_Header.PA1,
  IO_Header.PA2,
  IO_Header.PA3,
  IO_Header.PA4,
  IO_Header.PA5,
  IO_Header.PA6,
  IO_Header.print_out,
  IO_Header.plot_out,
  IO_Header.disk_out,
  IO_Header.ex_print_out,
  IO_Header.ex_disk_out,
  IO_Header.PO1,
  IO_Header.PO2,
  IO_Header.PO3,
  IO_Header.PO4,
  IO_Header.PO5,
  IO_Header.PO6,
  IO_Header.complete,
  IO_Header.analysed,
  IO_Header.ST1,
  IO_Header.ST2,
  IO_Header.ST3,
  IO_Header.ST4,
  IO_Header.ST5,
  IO_Header.ST6]

/-- What one `operator<<` of `generate_inp` inserts in the stream: the C string
of a `char` array, a `char`, the value of an `int` or a `short`, the bit pattern
of a `float`, or `endl`. -/
inductive Item where
  | text (s : List Nat)
  | chr (c : Nat)
  | num (v : Int)
  | real (bits : Nat)
  | endl
deriving DecidableEq

/-- The C string at address `a`, up to its first NUL wherever that is (the
memory `m` has no non-NUL byte at an address above `m`). -/
def c_str (m : Mem) (a : Nat) : List Nat := cstr m a (m + 1)

/-- The item `out << io.member` for the member at offset `a`, by the type of
the member. -/
def insert_member (io : Mem) (a : Nat) : Item :=
  match IO_Header.type_of a with
  | some (.chars _) => .text (c_str io a)
  | some .char => .chr (peek io a)
  | some .int => .num (load_int io a)
  | some .short => .num (load_short io a)
  | some .float => .real (load_float io a)
  | none => .text []

/-- The function `generate_inp(io, out)`: the items it inserts in `out`, a
member and `endl` for each of the lines 471-538. -/
def generate_inp (io : Mem) : List Item :=
  generate_inp_order.flatMap (fun a => [insert_member io a, Item.endl])

/-- The decimal digits of `n`, most significant first (`fuel` bounds their
number). -/
def digits : Nat → Nat → List Nat
  | 0, _ => []
  | fuel + 1, n => if n < 10 then [48 + n] else digits fuel (n / 10) ++ [48 + n % 10]

/-- The characters `operator<<` writes for an `int` or a `short`. -/
def show_int (v : Int) : List Nat :=
  (if v < 0 then [45] else []) ++ digits (v.natAbs + 1) v.natAbs

/-- The characters an item puts in the stream. `fmt` gives the characters that
`operator<<` writes for a `float` under `scientific` and `precision(14)`; they
depend on the C++ library and are left open. `endl` writes a newline. -/
def Item.chars (fmt : Nat → List Nat) : Item → List Nat
  | .text s => s
  | .chr c => [c]
  | .num v => show_int v
  | .real bits => fmt bits
  | .endl => [10]

/-- The characters `generate_inp` writes. -/
def inp_text (fmt : Nat → List Nat) (io : Mem) : List Nat :=
  (generate_inp io).flatMap (Item.chars fmt)

/-- The number of newline characters an item puts in the stream; a number is
written without any. -/
def Item.newlines : Item → Nat
  | .text s => s.count 10
  | .chr c => if c = 10 then 1 else 0
  | .num _ => 0
  | .real _ => 0
  | .endl => 1

/-- The number of lines `generate_inp` writes: the newline characters of its
output. -/
def inp_lines (io : Mem) : Nat := ((generate_inp io).map Item.newlines).sum

/-! ## Blocks of fill_header, for the proofs -/

/-- The statements of `fill_header` before the one that extracts `lim_file`
(lines 218-254). -/
def fill_header_head (buffer : List Nat) (io : Mem) : Mem :=
  let io := extract_string buffer 0 IO_Header.spectrum_identifier io
  let io := extract_string buffer 5 IO_Header.sample_identifier io
  let io := extract_string buffer 46 IO_Header.project io
  let io := extract_string buffer 51 IO_Header.sample_location io
  let io := store_float io IO_Header.latitude (convert_float buffer 82)
  let io := poke io IO_Header.latitude_unit (rd buffer 86)
  let io := store_float io IO_Header.longitude (convert_float buffer 87)
  let io := poke io IO_Header.longitude_unit (rd buffer 91)
  let io := store_float io IO_Header.sample_height (convert_float buffer 92)
  let io := store_float io IO_Header.sample_weight (convert_float buffer 96)
  let io := store_float io IO_Header.sample_density (convert_float buffer 100)
  let io := store_float io IO_Header.sample_volume (convert_float buffer 104)
  let io := store_float io IO_Header.sample_quantity (convert_float buffer 108)
  let io := store_float io IO_Header.sample_uncertainty (convert_float buffer 112)
  let io := extract_string buffer 128 IO_Header.sampling_start io
  let io := extract_string buffer 141 IO_Header.sampling_stop io
  let io := extract_string buffer 154 IO_Header.reference_time io
  let io := extract_string buffer 167 IO_Header.measurement_start io
  let io := extract_string buffer 180 IO_Header.measurement_stop io
  let io := store_float io IO_Header.FWHMPS (convert_float buffer 245)
  let io := store_float io IO_Header.FWHMAN (convert_float buffer 249)
  let io := store_float io IO_Header.THRESH (convert_float buffer 253)
  let io := store_float io IO_Header.BSTF (convert_float buffer 257)
  let io := store_float io IO_Header.ETOL (convert_float buffer 261)
  let io := store_float io IO_Header.LOCH (convert_float buffer 265)
  let io := store_short io IO_Header.ICA (convert_short buffer 269)
  let io := store_int io IO_Header.real_time (convert_int buffer 193)
  let io := store_int io IO_Header.live_time (convert_int buffer 197)
  let io := store_int io IO_Header.measurement_time (convert_int buffer 201)
  let io := store_float io IO_Header.dead_time
    (dead_time (load_int io IO_Header.real_time) (load_int io IO_Header.live_time)).bits
  let io := extract_string buffer 116 IO_Header.sample_unit io
  let io := extract_string buffer 119 IO_Header.detector_identifier io
  let io := extract_string buffer 122 IO_Header.year io
  let io := extract_string buffer 125 IO_Header.beaker_identifier io
  let io := extract_string buffer 209 IO_Header.nuclide_library io
  io

/-- Lines 256-257: `if(!strlen(io.lim_file) && has_defdetlimlib) strcpy(io.lim_file, ...)`. -/
def default_lim_file (has_defdetlimlib : Bool) (defdetlimlib : List Nat) (io : Mem) : Mem :=
  if peek io IO_Header.lim_file = 0 ∧ has_defdetlimlib = true
    then strcpy io IO_Header.lim_file defdetlimlib else io

/-- The statements of `fill_header` after the default of `lim_file`
(lines 258-294). -/
def fill_header_tail (buffer : List Nat) (io : Mem) : Mem :=
  let io := extract_string buffer 271 IO_Header.energy_file io
  let io := extract_string buffer 284 IO_Header.pef_file io
  let io := extract_string buffer 297 IO_Header.tef_file io
  let io := extract_string buffer 310 IO_Header.background_file io
  let io := store_int io IO_Header.channel_count (convert_int buffer 235)
  let io := extract_string buffer 239 IO_Header.format io
  let io := store_short io IO_Header.record_length (convert_int buffer 243)
  let io := store_int io IO_Header.PA1 (convert_int buffer 323)
  let io := store_int io IO_Header.PA2 (convert_int buffer 327)
  let io := store_int io IO_Header.PA3 (convert_int buffer 331)
  let io := store_int io IO_Header.PA4 (convert_int buffer 335)
  let io := store_int io IO_Header.PA5 (convert_int buffer 339)
  let io := store_int io IO_Header.PA6 (convert_int buffer 343)
  let io := store_short io IO_Header.print_out (convert_short buffer 347)
  let io := store_short io IO_Header.plot_out (convert_short buffer 349)
  let io := store_short io IO_Header.disk_out (convert_short buffer 351)
  let io := store_short io IO_Header.ex_print_out (convert_short buffer 353)
  let io := store_short io IO_Header.ex_disk_out (convert_short buffer 355)
  let io := store_int io IO_Header.PO1 (convert_int buffer 357)
  let io := store_int io IO_Header.PO2 (convert_int buffer 361)
  let io := store_int io IO_Header.PO3 (convert_int buffer 365)
  let io := store_int io IO_Header.PO4 (convert_int buffer 369)
  let io := store_int io IO_Header.PO5 (convert_int buffer 373)
  let io := store_int io IO_Header.PO6 (convert_int buffer 377)
  let io := store_short io IO_Header.complete (convert_short buffer 381)
  let io := store_short io IO_Header.analysed (convert_short buffer 383)
  let io := store_short io IO_Header.ST1 (convert_int buffer 385)
  let io := store_short io IO_Header.ST2 (convert_int buffer 387)
  let io := store_short io IO_Header.ST3 (convert_int buffer 389)
  let io := store_short io IO_Header.ST4 (convert_int buffer 391)
  let io := store_short io IO_Header.ST5 (convert_int buffer 393)
  let io := store_short io IO_Header.ST6 (convert_int buffer 395)
  io

/-! ## The text members -/

/-- A text member: the index `src` of its length byte in the buffer (the
argument of its `extract_string` call), the offset `dest` of the member in
`IO_Header`, and its capacity, the size of the `char` array minus the
terminator. -/
structure TextField where
  src : Nat
  dest : Nat
  capacity : Nat
deriving DecidableEq

/-- The 20 text members, in the order of their `extract_string` calls. -/
def text_fields : List TextField := [
  ⟨0, IO_Header.spectrum_identifier, 5⟩,
  ⟨5, IO_Header.sample_identifier, 41⟩,
  ⟨46, IO_Header.project, 5⟩,
  ⟨51, IO_Header.sample_location, 31⟩,
  ⟨128, IO_Header.sampling_start, 13⟩,
  ⟨141, IO_Header.sampling_stop, 13⟩,
  ⟨154, IO_Header.reference_time, 13⟩,
  ⟨167, IO_Header.measurement_start, 13⟩,
  ⟨180, IO_Header.measurement_stop, 13⟩,
  ⟨116, IO_Header.sample_unit, 3⟩,
  ⟨119, IO_Header.detector_identifier, 3⟩,
  ⟨122, IO_Header.year, 3⟩,
  ⟨125, IO_Header.beaker_identifier, 3⟩,
  ⟨209, IO_Header.nuclide_library, 13⟩,
  ⟨222, IO_Header.lim_file, 13⟩,
  ⟨271, IO_Header.energy_file, 13⟩,
  ⟨284, IO_Header.pef_file, 13⟩,
  ⟨297, IO_Header.tef_file, 13⟩,
  ⟨310, IO_Header.background_file, 13⟩,
  ⟨239, IO_Header.format, 3⟩]

/-- There is a NUL among the bytes `a .. a + cap` of memory. -/
def nul_within (m : Mem) (a cap : Nat) : Prop := ∃ k, k ≤ cap ∧ peek m (a + k) = 0

/-- The `n` bytes of memory from address `a` on are those of the number `v`,
least significant first. -/
def holds (m : Mem) (a n v : Nat) : Prop := ∀ i, i < n → peek m (a + i) = v / 256 ^ i % 256

/-! ## Reference functions used in the statements -/

/-- The first `n` values of `src`, as a list. -/
def src_list (src : Nat → Nat) (n : Nat) : List Nat := (List.range n).map src

/-- The declared data of the length-prefixed string at index `src` of the
buffer: the `n` bytes that follow the length byte `n`. -/
def declared (buffer : List Nat) (src : Nat) : List Nat :=
  src_list (fun i => rd buffer (src + 1 + i)) (rd buffer src)

/-- The test of the trimming loop: whitespace or NUL. -/
def is_pad (c : Nat) : Bool := isspace c || c == 0

/-- The bytes of `data` before its first NUL, without their trailing whitespace. -/
def extract_ref (data : List Nat) : List Nat :=
  (data.takeWhile (fun c => c != 0)).rdropWhile isspace

/-! ## Concrete inputs -/

/-- The 397-byte buffer of the end-to-end scenario: byte 4 and "ABCD" at
offset 0, `real_time = live_time = 1`, every other byte 0. -/
def buf_abcd : List Nat :=
  [4, 65, 66, 67, 68] ++ List.replicate 188 0 ++ [1, 0, 0, 0, 1, 0, 0, 0] ++ List.replicate 196 0

/-- The buffer `buf_abcd` with the 16-bit value 32 at offset 269 (`ICA`). The
length byte of `sample_unit`, at offset 116, is 0. -/
def buf_ica : List Nat :=
  [4, 65, 66, 67, 68] ++ List.replicate 188 0 ++ [1, 0, 0, 0, 1, 0, 0, 0] ++ List.replicate 68 0
    ++ [32, 0] ++ List.replicate 126 0

/-- What the buffer holds after a 400-byte file with `real_time = 120` and
`live_time = 100`: the 401 bytes of `new char[max_file_size + 1]`. -/
def stale_heap : List Nat :=
  [4, 65, 66, 67, 68] ++ List.replicate 188 0 ++ [120, 0, 0, 0, 100, 0, 0, 0] ++ List.replicate 200 0

/-- A 10-byte file: byte 4, "WXYZ" and five NUL bytes. -/
def short_file : List Nat := [4, 87, 88, 89, 90, 0, 0, 0, 0, 0]

/-- A 397-byte buffer whose first length byte, 6, exceeds the capacity 5 of
`spectrum_identifier`: the six data bytes are "ABCD", the byte 1 and "F"; the
byte 1 at offset 5 is also the length byte of `sample_identifier`, "F". -/
def buf_long_id : List Nat := [6, 65, 66, 67, 68, 1, 70] ++ List.replicate 390 0

/-- A 397-byte buffer with `real_time = live_time = 32` and every text field
but `spectrum_identifier` of declared length 0. -/
def buf_live : List Nat :=
  [4, 65, 66, 67, 68] ++ List.replicate 188 0 ++ [32, 0, 0, 0, 32, 0, 0, 0] ++ List.replicate 196 0

/-- The buffer `buf_live` with the four text fields at offsets 116, 119, 122
and 125 of declared length 1: "g", "D", "9" and "B". -/
def buf_live_units : List Nat :=
  [4, 65, 66, 67, 68] ++ List.replicate 111 0 ++ [1, 103, 0, 1, 68, 0, 1, 57, 0, 1, 66, 0]
    ++ List.replicate 65 0 ++ [32, 0, 0, 0, 32, 0, 0, 0] ++ List.replicate 196 0

/-- The buffer `buf_abcd` with the `sample_identifier` "A", newline, "B" (declared
length 3 at offset 5). -/
def buf_newline : List Nat :=
  [4, 65, 66, 67, 68, 3, 65, 10, 66] ++ List.replicate 184 0 ++ [1, 0, 0, 0, 1, 0, 0, 0]
    ++ List.replicate 196 0

/-- The buffer `buf_abcd` with `live_time = 0`. -/
def buf_live_zero : List Nat :=
  [4, 65, 66, 67, 68] ++ List.replicate 188 0 ++ [1, 0, 0, 0, 0, 0, 0, 0] ++ List.replicate 196 0

/-- The buffer `buf_abcd` with a `lim_file` of 12 spaces (declared length 12 at
offset 222). -/
def buf_blank_lim : List Nat :=
  [4, 65, 66, 67, 68] ++ List.replicate 188 0 ++ [1, 0, 0, 0, 1, 0, 0, 0] ++ List.replicate 21 0
    ++ [12] ++ List.replicate 12 32 ++ List.replicate 162 0

/-- A 407-byte buffer whose `format` field, at offset 239, declares the length
167 (its capacity is 3): the 167 data bytes, at indices 240..406, are letters
"A" (with the length bytes 1 of the four file fields at 271, 284, 297 and 310)
up to index 365 and spaces from index 366 to the last index, 406. -/
def buf_tail_a : List Nat :=
  List.replicate 239 0 ++ [167] ++ List.replicate 31 65 ++ [1] ++ List.replicate 12 65 ++ [1]
    ++ List.replicate 12 65 ++ [1] ++ List.replicate 12 65 ++ [1] ++ List.replicate 55 65
    ++ List.replicate 41 32

/-- The buffer `buf_tail_a` with the letter "A" at its last index, 406. -/
def buf_tail_b : List Nat :=
  List.replicate 239 0 ++ [167] ++ List.replicate 31 65 ++ [1] ++ List.replicate 12 65 ++ [1]
    ++ List.replicate 12 65 ++ [1] ++ List.replicate 12 65 ++ [1] ++ List.replicate 55 65
    ++ List.replicate 40 32 ++ [65]

/-! # Theorems -/

/-! ## Memory: a load after a store -/

theorem peek_lt (m : Mem) (a : Nat) : peek m a < 256 :=
  Nat.mod_lt _ (by norm_num)

theorem peek_decomp (a q d r x : Nat) (hd : d < 256) (hr : r < 256 ^ a) :
    peek (256 ^ a * 256 * q + 256 ^ a * d + r) x =
      if x < a then peek r x else if x = a then d else peek q (x - a - 1) := by
  have hB : 0 < 256 ^ a := Nat.pow_pos (by norm_num)
  unfold peek
  rcases Nat.lt_trichotomy x a with h | h | h
  · rw [if_pos h]
    obtain ⟨k, rfl⟩ : ∃ k, a = x + 1 + k := ⟨a - x - 1, by omega⟩
    have hx : 0 < 256 ^ x := Nat.pow_pos (by norm_num)
    have e : 256 ^ (x + 1 + k) * 256 * q + 256 ^ (x + 1 + k) * d + r
        = 256 ^ x * (256 * (256 ^ k * (256 * q + d))) + r := by
      rw [pow_add, pow_succ]; ring
    rw [e, Nat.mul_add_div hx, Nat.mul_add_mod]
  · subst h
    rw [if_neg (lt_irrefl _), if_pos rfl]
    have e : 256 ^ x * 256 * q + 256 ^ x * d + r = 256 ^ x * (256 * q + d) + r := by ring
    rw [e, Nat.mul_add_div hB, Nat.div_eq_of_lt hr, Nat.add_zero, Nat.mul_add_mod,
      Nat.mod_eq_of_lt hd]
  · rw [if_neg (by omega), if_neg (by omega)]
    obtain ⟨k, rfl⟩ : ∃ k, x = a + 1 + k := ⟨x - a - 1, by omega⟩
    have e1 : 256 ^ (a + 1 + k) = 256 ^ a * 256 * 256 ^ k := by rw [pow_add, pow_succ]
    have e2 : 256 ^ a * 256 * q + 256 ^ a * d + r = 256 ^ a * 256 * q + (256 ^ a * d + r) := by
      ring
    have h3 : 256 ^ a * d + r < 256 ^ a * 256 := by nlinarith
    have hk : a + 1 + k - a - 1 = k := by omega
    rw [e1, ← Nat.div_div_eq_div_mul, e2, Nat.mul_add_div (by positivity),
      Nat.div_eq_of_lt h3, Nat.add_zero, hk]

theorem mem_split (m : Mem) (a : Nat) :
    m = 256 ^ a * 256 * (m / 256 ^ a / 256) + 256 ^ a * peek m a + m % 256 ^ a := by
  unfold peek
  have h1 := Nat.div_add_mod m (256 ^ a)
  have h2 := Nat.div_add_mod (m / 256 ^ a) 256
  calc m = 256 ^ a * (m / 256 ^ a) + m % 256 ^ a := h1.symm
    _ = 256 ^ a * (256 * (m / 256 ^ a / 256) + m / 256 ^ a % 256) + m % 256 ^ a := by rw [h2]
    _ = _ := by ring

/-- A load after a store: the stored byte at the stored address, the old byte
elsewhere. -/
theorem peek_poke (m : Mem) (a v x : Nat) :
    peek (poke m a v) x = if x = a then v % 256 else peek m x := by
  have hB : 0 < 256 ^ a := Nat.pow_pos (by norm_num)
  have hr : m % 256 ^ a < 256 ^ a := Nat.mod_lt _ hB
  have hd : peek m a < 256 := peek_lt m a
  have hv : v % 256 < 256 := Nat.mod_lt _ (by norm_num)
  have hm := mem_split m a
  have hp : poke m a v
      = 256 ^ a * 256 * (m / 256 ^ a / 256) + 256 ^ a * (v % 256) + m % 256 ^ a := by
    unfold poke
    have : m - peek m a * 256 ^ a = 256 ^ a * 256 * (m / 256 ^ a / 256) + m % 256 ^ a := by
      apply Nat.sub_eq_of_eq_add
      rw [mul_comm (peek m a)]
      calc m = _ := hm
        _ = _ := by ring
    rw [this]; ring
  have h1 := peek_decomp a (m / 256 ^ a / 256) (v % 256) (m % 256 ^ a) x hv hr
  have h2 := peek_decomp a (m / 256 ^ a / 256) (peek m a) (m % 256 ^ a) x hd hr
  rw [← hm] at h2
  rw [hp, h1, h2]
  by_cases hxa : x = a
  · subst hxa; simp
  · simp [hxa]

theorem peek_poke_same (m : Mem) (a v : Nat) : peek (poke m a v) a = v % 256 := by
  rw [peek_poke, if_pos rfl]

theorem peek_poke_ne (m : Mem) (a v x : Nat) (h : x ≠ a) : peek (poke m a v) x = peek m x := by
  rw [peek_poke, if_neg h]

theorem peek_zero (a : Nat) : peek 0 a = 0 := by
  simp [peek]

theorem rd_lt (buffer : List Nat) (i : Nat) : rd buffer i < 256 :=
  Nat.mod_lt _ (by norm_num)

theorem peek_fill_zero (n : Nat) : ∀ (d : Nat) (m : Mem) (x : Nat),
    peek (fill_zero d n m) x = if d ≤ x ∧ x < d + n then 0 else peek m x := by
  induction n with
  | zero => intro d m x; rw [fill_zero, if_neg (by omega)]
  | succ n ih =>
    intro d m x
    rw [fill_zero, ih, peek_poke]
    by_cases h1 : x = d
    · subst h1; simp
    · by_cases h2 : d + 1 ≤ x ∧ x < d + 1 + n
      · rw [if_pos h2, if_pos ⟨by omega, by omega⟩]
      · rw [if_neg h2, if_neg h1]
        by_cases h3 : d ≤ x ∧ x < d + (n + 1)
        · exfalso; omega
        · rw [if_neg h3]

theorem peek_poke_list (vs : List Nat) : ∀ (a : Nat) (m : Mem) (x : Nat),
    peek (poke_list m a vs) x
      = if a ≤ x ∧ x < a + vs.length then vs.getD (x - a) 0 % 256 else peek m x := by
  induction vs with
  | nil => intro a m x; rw [poke_list, if_neg (by simp)]
  | cons v vs ih =>
    intro a m x
    rw [poke_list, ih, peek_poke]
    by_cases h1 : x = a
    · subst h1; simp
    · by_cases h2 : a + 1 ≤ x ∧ x < a + 1 + vs.length
      · obtain ⟨k, rfl⟩ : ∃ k, x = a + 1 + k := ⟨x - a - 1, by omega⟩
        rw [if_pos h2, if_pos ⟨by omega, by simp; omega⟩]
        have e1 : a + 1 + k - (a + 1) = k := by omega
        have e2 : a + 1 + k - a = k + 1 := by omega
        rw [e1, e2, List.getD_cons_succ]
      · rw [if_neg h2, if_neg h1, if_neg]
        simp only [List.length_cons]; omega

theorem src_list_succ (src : Nat → Nat) (n : Nat) :
    src_list src (n + 1) = src 0 :: src_list (fun i => src (i + 1)) n := by
  unfold src_list
  rw [List.range_succ_eq_map, List.map_cons, List.map_map]
  rfl

theorem src_list_length (src : Nat → Nat) (n : Nat) : (src_list src n).length = n := by
  simp [src_list]

/-- What `strncpy` leaves in memory: the bytes of the source before its first
NUL, NUL bytes up to `n` bytes, and the old bytes elsewhere. -/
theorem peek_strncpy (n : Nat) : ∀ (src : Nat → Nat) (d : Nat) (m : Mem) (x : Nat),
    (∀ i, src i < 256) →
    peek (strncpy src d n m) x
      = if d ≤ x ∧ x < d + n then ((src_list src n).takeWhile (fun c => c != 0)).getD (x - d) 0
        else peek m x := by
  induction n with
  | zero => intro src d m x _; rw [strncpy, if_neg (by omega)]
  | succ n ih =>
    intro src d m x hs
    rw [strncpy, src_list_succ]
    by_cases h0 : src 0 = 0
    · rw [if_pos h0, peek_fill_zero]
      simp [h0, List.takeWhile_cons]
    · rw [if_neg h0, ih _ _ _ _ (fun i => hs (i + 1)), peek_poke]
      have hne : (src 0 != 0) = true := by simpa using h0
      rw [List.takeWhile_cons, hne]
      simp only [if_true]
      by_cases h1 : x = d
      · subst h1
        rw [if_neg (by omega), if_pos rfl, if_pos ⟨le_refl _, by omega⟩]
        simp [Nat.mod_eq_of_lt (hs 0)]
      · by_cases h2 : d + 1 ≤ x ∧ x < d + 1 + n
        · obtain ⟨k, rfl⟩ : ∃ k, x = d + 1 + k := ⟨x - d - 1, by omega⟩
          rw [if_pos h2, if_pos ⟨by omega, by omega⟩]
          have e1 : d + 1 + k - (d + 1) = k := by omega
          have e2 : d + 1 + k - d = k + 1 := by omega
          rw [e1, e2, List.getD_cons_succ]
        · rw [if_neg h2, if_neg h1, if_neg]
          omega

/-! ## extract_string: the string it leaves at `dest` -/

theorem is_pad_false_iff (c : Nat) : is_pad c = false ↔ isspace c = false ∧ c ≠ 0 := by
  simp [is_pad]

theorem isspace_zero : isspace 0 = false := by decide

/-- The trimming loop: the final `len`, the memory, and what stopped it. -/
theorem trim_loop_spec (d : Nat) (k : Nat) : ∀ m : Mem,
    (trim_loop d k m).1 ≤ k ∧
    (∀ x, peek (trim_loop d k m).2 x
        = if d + (trim_loop d k m).1 < x ∧ x ≤ d + k then 0 else peek m x) ∧
    ((trim_loop d k m).1 ≠ 0 → is_pad (peek m (d + (trim_loop d k m).1)) = false) ∧
    (∀ j, (trim_loop d k m).1 < j → j ≤ k → is_pad (peek m (d + j)) = true) := by
  induction k with
  | zero =>
    intro m
    refine ⟨le_refl _, ?_, ?_, ?_⟩
    · intro x; rw [if_neg]; · rfl
      simp only [trim_loop]; omega
    · intro h; exact absurd rfl h
    · intro j h1 h2; simp only [trim_loop] at h1; omega
  | succ k ih =>
    intro m
    by_cases hp : is_pad (peek m (d + (k + 1))) = true
    · have e : trim_loop d (k + 1) m = trim_loop d k (poke m (d + (k + 1)) 0) := by
        have hp2 := hp
        unfold is_pad at hp2
        rw [trim_loop, if_pos hp2]
      obtain ⟨h1, h2, h3, h4⟩ := ih (poke m (d + (k + 1)) 0)
      rw [e]
      refine ⟨by omega, ?_, ?_, ?_⟩
      · intro x
        rw [h2, peek_poke]
        by_cases hx : x = d + (k + 1)
        · subst hx
          rw [if_neg (by omega), if_pos rfl, if_pos ⟨by omega, le_refl _⟩]
        · by_cases hx2 : d + (trim_loop d k (poke m (d + (k + 1)) 0)).1 < x ∧ x ≤ d + k
          · rw [if_pos hx2, if_pos ⟨hx2.1, by omega⟩]
          · rw [if_neg hx2, if_neg hx, if_neg (by omega)]
      · intro hne
        have := h3 hne
        rwa [peek_poke_ne _ _ _ _ (by omega)] at this
      · intro j hj1 hj2
        by_cases hj : j = k + 1
        · subst hj; exact hp
        · have := h4 j hj1 (by omega)
          rwa [peek_poke_ne _ _ _ _ (by omega)] at this
    · have hp2 := hp
      unfold is_pad at hp2
      have e : trim_loop d (k + 1) m = (k + 1, m) := by
        rw [trim_loop, if_neg hp2]
      rw [e]
      refine ⟨le_refl _, ?_, ?_, ?_⟩
      · intro x; rw [if_neg]; dsimp only; omega
      · intro _; simpa using hp
      · intro j h1 h2; dsimp only at h1; omega

/-- Reading a C string whose bytes and terminator are known. -/
theorem cstr_take : ∀ (L : Nat) (p : List Nat) (m : Mem) (a fuel : Nat),
    L ≤ p.length → (∀ c ∈ p, c ≠ 0) → (∀ i, i < L → peek m (a + i) = p.getD i 0) →
    peek m (a + L) = 0 → L < fuel → cstr m a fuel = p.take L := by
  intro L
  induction L with
  | zero =>
    intro p m a fuel _ _ _ h0 hf
    obtain ⟨f, rfl⟩ : ∃ f, fuel = f + 1 := ⟨fuel - 1, by omega⟩
    rw [cstr, if_pos (by simpa using h0)]
    simp
  | succ L ih =>
    intro p m a fuel hL hnz hb h0 hf
    obtain ⟨f, rfl⟩ : ∃ f, fuel = f + 1 := ⟨fuel - 1, by omega⟩
    match p, hL, hnz, hb with
    | [], hL, _, _ => simp at hL
    | c :: p, hL, hnz, hb =>
      have hc : peek m a = c := by simpa using hb 0 (by omega)
      have hcz : c ≠ 0 := hnz c (by simp)
      rw [cstr, if_neg (by rw [hc]; exact hcz), hc, List.take_succ_cons]
      congr 1
      apply ih p m (a + 1) f (by simpa using hL) (fun x hx => hnz x (by simp [hx]))
      · intro i hi
        have := hb (i + 1) (by omega)
        rw [List.getD_cons_succ] at this
        rw [← this]; congr 1; omega
      · rw [← h0]; congr 1; omega
      · omega

/-- Dropping from the right, by the index where the dropped run starts. -/
theorem rdropWhile_eq_take (q : Nat → Bool) : ∀ (p : List Nat) (L : Nat),
    L ≤ p.length → (L ≠ 0 → q (p.getD (L - 1) 0) = false) →
    (∀ i, L ≤ i → i < p.length → q (p.getD i 0) = true) → p.rdropWhile q = p.take L := by
  intro p
  induction p using List.reverseRecOn with
  | nil => intro L hL _ _; simp at hL; subst hL; simp
  | append_singleton p x ih =>
    intro L hL h1 h2
    rw [List.length_append, List.length_singleton] at hL
    by_cases hLe : L = p.length + 1
    · subst hLe
      have hx : q x = false := by
        have := h1 (by omega)
        simpa [List.getD_append_right] using this
      rw [List.rdropWhile_concat_neg _ _ _ (by simp [hx]), List.take_of_length_le (by simp)]
    · have hx : q x = true := by
        have := h2 p.length (by omega) (by simp)
        simpa [List.getD_append_right] using this
      rw [List.rdropWhile_concat_pos _ _ _ hx, ih L (by omega), List.take_append_of_le_length (by omega)]
      · intro hL0
        have := h1 hL0
        rwa [List.getD_append _ _ _ _ (by omega)] at this
      · intro i hi1 hi2
        have := h2 i hi1 (by simp; omega)
        rwa [List.getD_append _ _ _ _ hi2] at this

theorem getD_eq_zero_of_le (p : List Nat) (i : Nat) (h : p.length ≤ i) : p.getD i 0 = 0 := by
  simp [List.getD_eq_getElem?_getD, List.getElem?_eq_none h]

theorem getD_ne_zero_of_lt (p : List Nat) (hnz : ∀ c ∈ p, c ≠ 0) (i : Nat) (h : i < p.length) :
    p.getD i 0 ≠ 0 := by
  rw [List.getD_eq_getElem _ _ h]
  exact hnz _ (List.getElem_mem _)

theorem lt_length_of_getD_ne_zero (p : List Nat) (i : Nat) (h : p.getD i 0 ≠ 0) :
    i < p.length := by
  by_contra hc
  exact h (getD_eq_zero_of_le p i (by omega))

/-- The memory after the `strncpy` and the terminator of `extract_string`. -/
theorem peek_copied (buffer : List Nat) (src dest : Nat) (m : Mem) (x : Nat) :
    peek (poke (strncpy (fun i => rd buffer (src + 1 + i)) dest (rd buffer src) m)
        (dest + rd buffer src) 0) x
      = if dest ≤ x ∧ x ≤ dest + rd buffer src then
          ((declared buffer src).takeWhile (fun c => c != 0)).getD (x - dest) 0
        else peek m x := by
  have hlen : ((declared buffer src).takeWhile (fun c => c != 0)).length ≤ rd buffer src := by
    have := ( List.takeWhile_prefix (l := declared buffer src) (fun c => c != 0)).length_le
    rwa [declared, src_list_length] at this
  rw [peek_poke, peek_strncpy _ _ _ _ _ (fun i => rd_lt _ _)]
  by_cases h1 : x = dest + rd buffer src
  · subst h1
    rw [if_pos rfl, if_pos ⟨by omega, le_refl _⟩, getD_eq_zero_of_le _ _ (by omega)]
  · rw [if_neg h1]
    by_cases h2 : dest ≤ x ∧ x < dest + rd buffer src
    · rw [if_pos h2, if_pos ⟨h2.1, by omega⟩]; rfl
    · rw [if_neg h2, if_neg (by omega)]

/-- The string that `extract_string` leaves at `dest`: the declared data before
its first NUL, without its trailing whitespace. A declared length 0 gives the
empty string. -/
theorem cstr_extract_string (buffer : List Nat) (src dest : Nat) (m : Mem) (fuel : Nat)
    (hf : rd buffer src < fuel) :
    cstr (extract_string buffer src dest m) dest fuel = extract_ref (declared buffer src) := by
  have hn := rd_lt buffer src
  have hM := peek_copied buffer src dest m
  unfold extract_string extract_ref
  simp only []
  generalize hM2 : poke (strncpy (fun i => rd buffer (src + 1 + i)) dest (rd buffer src) m)
        (dest + rd buffer src) 0 = M2 at hM ⊢
  generalize hp : (declared buffer src).takeWhile (fun c => c != 0) = p at hM ⊢
  have hlen : p.length ≤ rd buffer src := by
    have := ( List.takeWhile_prefix (l := declared buffer src) (fun c => c != 0)).length_le
    rw [hp] at this
    rwa [declared, src_list_length] at this
  have hnz : ∀ c ∈ p, c ≠ 0 := by
    intro c hc
    rw [← hp] at hc
    simpa using List.mem_takeWhile_imp hc
  generalize hn0 : rd buffer src = n at *
  have hP : ∀ i, i ≤ n → peek M2 (dest + i) = p.getD i 0 := by
    intro i hi
    rw [hM, if_pos ⟨by omega, by omega⟩]; congr 1; omega
  obtain ⟨hj, hpk, hstop, hpad⟩ := trim_loop_spec dest ((n + 255) % 256) M2
  generalize hr : trim_loop dest ((n + 255) % 256) M2 = r at *
  -- the loop never writes at `dest` itself
  have hr0 : peek r.2 dest = p.getD 0 0 := by
    rw [hpk, if_neg (by omega)]
    simpa using hP 0 (by omega)
  by_cases hz : n = 0
  · -- declared length 0: the terminator is at `dest`
    subst hz
    have hp0 : p = [] := by
      have : p.length = 0 := by omega
      exact List.length_eq_zero.mp this
    subst hp0
    have hF : peek (if r.1 = 0 ∧ isspace (peek r.2 dest) = true then poke r.2 dest 0 else r.2) dest
        = 0 := by
      split
      · rw [peek_poke_same]
      · rw [hr0]; rfl
    rw [cstr_take 0 [] _ dest fuel (by simp) (by simp) (by intro i hi; omega) (by simpa using hF) hf]
    simp
  · have hk : (n + 255) % 256 = n - 1 := by omega
    rw [hk] at hj hpk hpad
    by_cases hj0 : r.1 = 0
    · -- the loop ran down to index 0
      have htail : ∀ i, 1 ≤ i → i < p.length → isspace (p.getD i 0) = true := by
        intro i h1 h2
        have h3 := hpad i (by omega) (by omega)
        rw [hP i (by omega)] at h3
        have h4 := getD_ne_zero_of_lt p hnz i h2
        simp only [is_pad, Bool.or_eq_true, beq_iff_eq] at h3
        rcases h3 with h3 | h3
        · exact h3
        · exact absurd h3 h4
      have hone : peek r.2 (dest + 1) = 0 := by
        by_cases h1 : n = 1
        · rw [hpk, if_neg (by omega), hP 1 (by omega), getD_eq_zero_of_le _ _ (by omega)]
        · rw [hpk, if_pos ⟨by omega, by omega⟩]
      by_cases hsp : isspace (p.getD 0 0) = true
      · rw [if_pos ⟨hj0, by rw [hr0]; exact hsp⟩]
        rw [cstr_take 0 p _ dest fuel (by omega) hnz (by intro i hi; omega)
          (by simpa using peek_poke_same r.2 dest 0) (by omega)]
        rw [rdropWhile_eq_take isspace p 0 (by omega) (by intro h; exact absurd rfl h)]
        intro i _ hi
        by_cases hi0 : i = 0
        · subst hi0; exact hsp
        · exact htail i (by omega) hi
      · rw [if_neg (by rw [hr0]; exact fun h => hsp h.2)]
        by_cases hpe : p = []
        · subst hpe
          rw [cstr_take 0 [] _ dest fuel (by simp) (by simp) (by intro i hi; omega)
            (by simpa using hr0) (by omega)]
          simp
        · have hpl : 1 ≤ p.length := by
            rcases p with _ | ⟨c, p⟩
            · exact absurd rfl hpe
            · simp
          rw [cstr_take 1 p _ dest fuel hpl hnz (by
              intro i hi
              have : i = 0 := by omega
              subst this; simpa using hr0) hone (by omega)]
          rw [rdropWhile_eq_take isspace p 1 hpl (by intro _; simpa using hsp) htail]
    · -- the loop stopped at a byte that is neither whitespace nor NUL
      rw [if_neg (fun h => hj0 h.1)]
      have hs := hstop hj0
      rw [hP r.1 (by omega), is_pad_false_iff] at hs
      have hjl : r.1 < p.length := lt_length_of_getD_ne_zero p r.1 hs.2
      have hend : peek r.2 (dest + (r.1 + 1)) = 0 := by
        by_cases h1 : r.1 + 1 ≤ n - 1
        · rw [hpk, if_pos ⟨by omega, by omega⟩]
        · rw [hpk, if_neg (by omega), hP _ (by omega), getD_eq_zero_of_le _ _ (by omega)]
      rw [cstr_take (r.1 + 1) p _ dest fuel (by omega) hnz (by
          intro i hi
          rw [hpk, if_neg (by omega)]
          exact hP i (by omega)) hend (by omega)]
      rw [rdropWhile_eq_take isspace p (r.1 + 1) (by omega) (by intro _; simpa using hs.1)]
      intro i hi1 hi2
      have h3 := hpad i (by omega) (by omega)
      rw [hP i (by omega)] at h3
      have h4 := getD_ne_zero_of_lt p hnz i hi2
      simp only [is_pad, Bool.or_eq_true, beq_iff_eq] at h3
      rcases h3 with h3 | h3
      · exact h3
      · exact absurd h3 h4

/-! ## The reference function `extract_ref` and the encoding of a source -/

theorem declared_length (buffer : List Nat) (src : Nat) :
    (declared buffer src).length = rd buffer src := by
  rw [declared, src_list_length]

theorem mem_declared_lt (buffer : List Nat) (src : Nat) : ∀ c ∈ declared buffer src, c < 256 := by
  intro c hc
  simp only [declared, src_list, List.mem_map] at hc
  obtain ⟨i, _, rfl⟩ := hc
  exact rd_lt _ _

theorem rd_append_right (pre rest : List Nat) (i : Nat) :
    rd (pre ++ rest) (pre.length + i) = rd rest i := by
  unfold rd
  rw [List.getD_append_right _ _ _ _ (by omega)]
  congr 2; omega

/-- The declared data of an encoded source `n :: s` (after any bytes `pre`,
before any bytes `post`) is `s`. -/
theorem declared_encode (pre s post : List Nat) (hlen : s.length ≤ 255)
    (hbytes : ∀ c ∈ s, c < 256) :
    declared (pre ++ s.length :: (s ++ post)) pre.length = s := by
  have h0 : rd (pre ++ s.length :: (s ++ post)) pre.length = s.length := by
    have := rd_append_right pre (s.length :: (s ++ post)) 0
    rw [Nat.add_zero] at this
    rw [this]
    simp only [rd, List.getD_cons_zero]
    omega
  unfold declared
  rw [h0]
  apply List.ext_getElem
  · rw [src_list_length]
  · intro i h1 h2
    simp only [src_list, List.getElem_map, List.getElem_range]
    rw [Nat.add_assoc, rd_append_right]
    have e : 1 + i = i + 1 := by omega
    rw [e]
    simp only [rd, List.getD_cons_succ]
    rw [List.getD_append _ _ _ _ h2, List.getD_eq_getElem _ _ h2]
    exact Nat.mod_eq_of_lt (hbytes _ (List.getElem_mem _))

theorem extract_ref_ne_zero (data : List Nat) : ∀ c ∈ extract_ref data, c ≠ 0 := by
  intro c hc
  have h1 : c ∈ data.takeWhile (fun c => c != 0) :=
    ( List.rdropWhile_prefix isspace _).subset hc
  simpa using List.mem_takeWhile_imp h1

theorem extract_ref_initial (data : List Nat) : extract_ref data <+: data :=
  ( List.rdropWhile_prefix isspace _).trans ( List.takeWhile_prefix _)

theorem extract_ref_length_le (data : List Nat) : (extract_ref data).length ≤ data.length :=
  (extract_ref_initial data).length_le

theorem takeWhile_eq_self (f : Nat → Bool) (l : List Nat) (h : ∀ c ∈ l, f c = true) :
    l.takeWhile f = l := by
  induction l with
  | nil => rfl
  | cons c l ih =>
    rw [List.takeWhile_cons, h c (by simp)]
    simp only [if_true]
    rw [ih (fun x hx => h x (by simp [hx]))]

theorem extract_ref_idem (data : List Nat) : extract_ref (extract_ref data) = extract_ref data := by
  have h : (extract_ref data).takeWhile (fun c => c != 0) = extract_ref data :=
    takeWhile_eq_self _ _ (fun c hc => by simpa using extract_ref_ne_zero data c hc)
  have e : extract_ref (extract_ref data)
      = ((extract_ref data).takeWhile (fun c => c != 0)).rdropWhile isspace := rfl
  rw [e, h]
  exact List.rdropWhile_idempotent _ _

/-- The result of `extract_ref` is empty or ends in a byte that is neither
whitespace nor NUL. -/
theorem extract_ref_last (data : List Nat) (h : extract_ref data ≠ []) :
    is_pad ((extract_ref data).getLast h) = false := by
  rw [is_pad_false_iff]
  constructor
  · have := List.rdropWhile_last_not isspace (data.takeWhile (fun c => c != 0)) h
    simpa using this
  · exact extract_ref_ne_zero data _ (List.getLast_mem h)

theorem rdropWhile_append_rtakeWhile (q : Nat → Bool) (l : List Nat) :
    l.rdropWhile q ++ l.rtakeWhile q = l := by
  unfold List.rdropWhile List.rtakeWhile
  rw [← List.reverse_append, List.takeWhile_append_dropWhile, List.reverse_reverse]

theorem rdropWhile_append_of_all (q : Nat → Bool) (a : List Nat) : ∀ b : List Nat,
    (∀ c ∈ b, q c = true) → (a ++ b).rdropWhile q = a.rdropWhile q := by
  intro b
  induction b using List.reverseRecOn with
  | nil => intro _; simp
  | append_singleton b x ih =>
    intro h
    rw [← List.append_assoc, List.rdropWhile_concat_pos _ _ _ (h x (by simp))]
    exact ih (fun c hc => h c (by simp [hc]))

/-- When every NUL of `s` lies in its trailing run of whitespace and NUL bytes,
`extract_ref` removes exactly that run. -/
theorem extract_ref_eq_rdropWhile (s : List Nat) (hnul : ∀ c ∈ s.rdropWhile is_pad, c ≠ 0) :
    extract_ref s = s.rdropWhile is_pad := by
  have hs := rdropWhile_append_rtakeWhile is_pad s
  generalize ht : s.rdropWhile is_pad = t at *
  generalize hr : s.rtakeWhile is_pad = r at *
  have hrp : ∀ c ∈ r, is_pad c = true := by
    intro c hc; rw [← hr] at hc; exact List.mem_rtakeWhile_imp hc
  have hlast : ∀ h : t ≠ [], ¬ (isspace (t.getLast h) = true) := by
    intro h
    have h1 : s.rdropWhile is_pad ≠ [] := by rw [ht]; exact h
    have h2 := List.rdropWhile_last_not is_pad s h1
    have h3 : (s.rdropWhile is_pad).getLast h1 = t.getLast h := by
      subst ht; rfl
    rw [h3] at h2
    intro h4
    apply h2
    simp [is_pad, h4]
  unfold extract_ref
  rw [← hs, List.takeWhile_append_of_pos (by intro c hc; simpa using hnul c hc)]
  rw [rdropWhile_append_of_all]
  · exact List.rdropWhile_eq_self_iff.mpr hlast
  · intro c hc
    have h1 := List.mem_takeWhile_imp hc
    have h2 := hrp c (( List.takeWhile_prefix _).subset hc)
    simp only [is_pad, Bool.or_eq_true, beq_iff_eq] at h2
    rcases h2 with h2 | h2
    · exact h2
    · simp [h2] at h1

/-! ## extract_string: the bytes it leaves alone -/

theorem peek_extract_string_aux (buffer : List Nat) (src dest : Nat) (m : Mem) (x : Nat) :
    peek (extract_string buffer src dest m) x = peek m x ∨
    (dest ≤ x ∧ x ≤ dest + rd buffer src) ∨
    (rd buffer src = 0 ∧ dest < x ∧ x ≤ dest + 255 ∧ peek (extract_string buffer src dest m) x = 0)
    := by
  have hn := rd_lt buffer src
  have hM := peek_copied buffer src dest m
  unfold extract_string
  simp only []
  generalize poke (strncpy (fun i => rd buffer (src + 1 + i)) dest (rd buffer src) m)
        (dest + rd buffer src) 0 = M2 at hM ⊢
  obtain ⟨hj, hpk, -, -⟩ := trim_loop_spec dest ((rd buffer src + 255) % 256) M2
  generalize trim_loop dest ((rd buffer src + 255) % 256) M2 = r at *
  by_cases hin : dest ≤ x ∧ x ≤ dest + rd buffer src
  · exact Or.inr (Or.inl hin)
  · have hx : x ≠ dest := by omega
    have hF : peek (if r.1 = 0 ∧ isspace (peek r.2 dest) = true then poke r.2 dest 0 else r.2) x
        = peek r.2 x := by
      split
      · rw [peek_poke_ne _ _ _ _ hx]
      · rfl
    rw [hF, hpk, hM, if_neg hin]
    by_cases hz : dest + r.1 < x ∧ x ≤ dest + (rd buffer src + 255) % 256
    · rw [if_pos hz]
      by_cases h0 : rd buffer src = 0
      · refine Or.inr (Or.inr ⟨h0, by omega, by omega, rfl⟩)
      · exfalso; omega
    · rw [if_neg hz]; exact Or.inl rfl

/-- No byte below `dest` changes. -/
theorem peek_extract_string_below (buffer : List Nat) (src dest : Nat) (m : Mem) (x : Nat)
    (h : x < dest) : peek (extract_string buffer src dest m) x = peek m x := by
  rcases peek_extract_string_aux buffer src dest m x with h1 | h1 | h1
  · exact h1
  · omega
  · omega

/-- No byte above `dest + 255` changes. -/
theorem peek_extract_string_far (buffer : List Nat) (src dest : Nat) (m : Mem) (x : Nat)
    (h : dest + 255 < x) : peek (extract_string buffer src dest m) x = peek m x := by
  have := rd_lt buffer src
  rcases peek_extract_string_aux buffer src dest m x with h1 | h1 | h1
  · exact h1
  · omega
  · omega

/-- With a declared length of at least 1, no byte above the terminator changes. -/
theorem peek_extract_string_above (buffer : List Nat) (src dest : Nat) (m : Mem) (x : Nat)
    (h1 : 1 ≤ rd buffer src) (h : dest + rd buffer src < x) :
    peek (extract_string buffer src dest m) x = peek m x := by
  rcases peek_extract_string_aux buffer src dest m x with h2 | h2 | h2
  · exact h2
  · omega
  · omega

/-- Outside the declared bytes and their terminator, a byte keeps its value or
becomes NUL. -/
theorem peek_extract_string_outside (buffer : List Nat) (src dest : Nat) (m : Mem) (x : Nat)
    (h : x < dest ∨ dest + rd buffer src < x) :
    peek (extract_string buffer src dest m) x = peek m x ∨
    peek (extract_string buffer src dest m) x = 0 := by
  rcases peek_extract_string_aux buffer src dest m x with h2 | h2 | h2
  · exact Or.inl h2
  · omega
  · exact Or.inr h2.2.2.2

/-- The terminator: the byte at `dest + n` is NUL, `n` being the declared length. -/
theorem peek_extract_string_nul (buffer : List Nat) (src dest : Nat) (m : Mem) :
    peek (extract_string buffer src dest m) (dest + rd buffer src) = 0 := by
  have hn := rd_lt buffer src
  have hM := peek_copied buffer src dest m
  unfold extract_string
  simp only []
  generalize poke (strncpy (fun i => rd buffer (src + 1 + i)) dest (rd buffer src) m)
        (dest + rd buffer src) 0 = M2 at hM ⊢
  obtain ⟨hj, hpk, -, -⟩ := trim_loop_spec dest ((rd buffer src + 255) % 256) M2
  generalize trim_loop dest ((rd buffer src + 255) % 256) M2 = r at *
  have hlen : ((declared buffer src).takeWhile (fun c => c != 0)).length ≤ rd buffer src := by
    have := ( List.takeWhile_prefix (l := declared buffer src) (fun c => c != 0)).length_le
    rwa [declared_length] at this
  have h2 : peek r.2 (dest + rd buffer src) = 0 := by
    rw [hpk, if_neg (by omega), hM, if_pos ⟨by omega, le_refl _⟩,
      getD_eq_zero_of_le _ _ (by omega)]
  split
  · rw [peek_poke]; split <;> simp [h2]
  · exact h2

/-! ## Loads and stores of the numeric members -/

theorem peek_store_le (n : Nat) : ∀ (m : Mem) (a v x : Nat),
    peek (store_le m a n v) x
      = if a ≤ x ∧ x < a + n then v / 256 ^ (x - a) % 256 else peek m x := by
  induction n with
  | zero => intro m a v x; rw [store_le, if_neg (by omega)]
  | succ n ih =>
    intro m a v x
    rw [store_le, ih, peek_poke]
    by_cases h1 : x = a
    · subst h1
      rw [if_neg (by omega), if_pos rfl, if_pos ⟨le_refl _, by omega⟩]
      simp
    · by_cases h2 : a + 1 ≤ x ∧ x < a + 1 + n
      · obtain ⟨k, rfl⟩ : ∃ k, x = a + 1 + k := ⟨x - a - 1, by omega⟩
        rw [if_pos h2, if_pos ⟨by omega, by omega⟩]
        have e1 : a + 1 + k - (a + 1) = k := by omega
        have e2 : a + 1 + k - a = k + 1 := by omega
        rw [e1, e2, Nat.div_div_eq_div_mul, pow_succ, Nat.mul_comm]
      · rw [if_neg h2, if_neg h1, if_neg (by omega)]

/-- A store of `n` bytes leaves the bytes outside `[a, a + n)` alone. -/
theorem peek_store_le_outside (n : Nat) (m : Mem) (a v x : Nat) (h : x < a ∨ a + n ≤ x) :
    peek (store_le m a n v) x = peek m x := by
  rw [peek_store_le, if_neg (by omega)]

theorem load_le_congr (n : Nat) : ∀ (m1 m2 : Mem) (a : Nat),
    (∀ x, a ≤ x → x < a + n → peek m1 x = peek m2 x) → load_le m1 a n = load_le m2 a n := by
  induction n with
  | zero => intro m1 m2 a _; rfl
  | succ n ih =>
    intro m1 m2 a h
    rw [load_le, load_le, h a (le_refl _) (by omega),
      ih m1 m2 (a + 1) (fun x h1 h2 => h x (by omega) (by omega))]

theorem load_le_store_le (n : Nat) : ∀ (m : Mem) (a v : Nat),
    load_le (store_le m a n v) a n = v % 256 ^ n := by
  induction n with
  | zero => intro m a v; simp [load_le, Nat.mod_one]
  | succ n ih =>
    intro m a v
    rw [load_le]
    have h1 : peek (store_le m a (n + 1) v) a = v % 256 := by
      rw [peek_store_le, if_pos ⟨le_refl _, by omega⟩]; simp
    have h2 : load_le (store_le m a (n + 1) v) (a + 1) n = v / 256 % 256 ^ n := by
      rw [store_le]; exact ih _ _ _
    rw [h1, h2, pow_succ, Nat.mul_comm (256 ^ n) 256, Nat.mod_mul]

theorem load_le_lt (n : Nat) : ∀ (m : Mem) (a : Nat), load_le m a n < 256 ^ n := by
  induction n with
  | zero => intro m a; simp [load_le]
  | succ n ih =>
    intro m a
    rw [load_le, pow_succ]
    have h1 := peek_lt m a
    have h2 := ih m (a + 1)
    omega

theorem le_value_lt (n : Nat) : ∀ (buffer : List Nat) (o : Nat), le_value buffer o n < 256 ^ n := by
  induction n with
  | zero => intro b o; simp [le_value]
  | succ n ih =>
    intro b o
    rw [le_value, pow_succ]
    have h1 := rd_lt b o
    have h2 := ih b (o + 1)
    omega

/-- The range of a two's complement reading. -/
theorem to_signed_range (w n : Nat) (hw : 1 ≤ w) :
    -(2 ^ (w - 1) : Int) ≤ to_signed w n ∧ to_signed w n < 2 ^ (w - 1) := by
  obtain ⟨k, rfl⟩ : ∃ k, w = k + 1 := ⟨w - 1, by omega⟩
  have hlt : n % 2 ^ (k + 1) < 2 ^ (k + 1) := Nat.mod_lt _ (Nat.pow_pos (by norm_num))
  have hp : (2 : Nat) ^ (k + 1) = 2 * 2 ^ k := by rw [pow_succ]; ring
  have hpi : (2 : Int) ^ (k + 1) = 2 * 2 ^ k := by rw [pow_succ]; ring
  have hc : ((2 ^ k : Nat) : Int) = (2 : Int) ^ k := by push_cast; rfl
  unfold to_signed
  simp only [Nat.add_sub_cancel]
  split
  · constructor
    · have : (0 : Int) ≤ (2 : Int) ^ k := by positivity
      omega
    · omega
  · constructor
    · omega
    · omega

/-- A value in the range of `w` bits is read back from its low `w` bits. -/
theorem to_signed_of_range (w : Nat) (v : Int) (hw : 1 ≤ w)
    (h1 : -(2 ^ (w - 1) : Int) ≤ v) (h2 : v < 2 ^ (w - 1)) :
    to_signed w (v % 2 ^ w).toNat = v := by
  obtain ⟨k, rfl⟩ : ∃ k, w = k + 1 := ⟨w - 1, by omega⟩
  simp only [Nat.add_sub_cancel] at h1 h2
  have hpi : (2 : Int) ^ (k + 1) = 2 * 2 ^ k := by rw [pow_succ]; ring
  have hp : (2 : Nat) ^ (k + 1) = 2 * 2 ^ k := by rw [pow_succ]; ring
  have hc : ((2 ^ k : Nat) : Int) = (2 : Int) ^ k := by push_cast; rfl
  have hpos : (0 : Int) < 2 ^ k := by positivity
  have hm0 : 0 ≤ v % 2 ^ (k + 1) := Int.emod_nonneg _ (by positivity)
  have hm1 : v % 2 ^ (k + 1) < 2 ^ (k + 1) := Int.emod_lt_of_pos _ (by positivity)
  have hcast : (((v % 2 ^ (k + 1)).toNat : Nat) : Int) = v % 2 ^ (k + 1) := Int.toNat_of_nonneg hm0
  have hlt : (v % 2 ^ (k + 1)).toNat < 2 ^ (k + 1) := by
    have : (((v % 2 ^ (k + 1)).toNat : Nat) : Int) < ((2 ^ (k + 1) : Nat) : Int) := by
      rw [hcast]; push_cast; exact hm1
    exact_mod_cast this
  unfold to_signed
  simp only [Nat.add_sub_cancel]
  rw [Nat.mod_eq_of_lt hlt, hcast]
  by_cases hv : 0 ≤ v
  · have e : v % 2 ^ (k + 1) = v := Int.emod_eq_of_lt hv (by omega)
    have hvn : (v % 2 ^ (k + 1)).toNat < 2 ^ k := by
      have : (((v % 2 ^ (k + 1)).toNat : Nat) : Int) < ((2 ^ k : Nat) : Int) := by
        rw [hcast, e, hc]; exact h2
      exact_mod_cast this
    rw [if_pos hvn, e]
  · have e : v % 2 ^ (k + 1) = v + 2 ^ (k + 1) := by
      have h3 : (v + 2 ^ (k + 1)) % 2 ^ (k + 1) = v + 2 ^ (k + 1) :=
        Int.emod_eq_of_lt (by omega) (by omega)
      rw [← h3, Int.add_emod_self]
    have hvn : ¬ (v % 2 ^ (k + 1)).toNat < 2 ^ k := by
      intro hcon
      have : (((v % 2 ^ (k + 1)).toNat : Nat) : Int) < ((2 ^ k : Nat) : Int) := by
        exact_mod_cast hcon
      rw [hcast, e, hc] at this
      omega
    rw [if_neg hvn, e]
    omega

/-- The value of an `int` member right after its assignment. -/
theorem load_int_store_int (m : Mem) (a : Nat) (v : Int)
    (h1 : -(2 ^ 31 : Int) ≤ v) (h2 : v < 2 ^ 31) : load_int (store_int m a v) a = v := by
  unfold load_int store_int
  rw [load_le_store_le]
  have e : (256 : Nat) ^ 4 = 2 ^ 32 := by norm_num
  have hm0 : 0 ≤ v % 2 ^ 32 := Int.emod_nonneg _ (by norm_num)
  have hm1 : v % 2 ^ 32 < 2 ^ 32 := Int.emod_lt_of_pos _ (by norm_num)
  have hlt : (v % 2 ^ 32).toNat < 2 ^ 32 := by omega
  rw [e, Nat.mod_eq_of_lt hlt]
  exact to_signed_of_range 32 v (by norm_num) h1 h2

/-- The value of a `short` member right after its assignment: the low 16 bits
of the assigned value. -/
theorem load_short_store_short (m : Mem) (a : Nat) (v : Int) :
    load_short (store_short m a v) a = to_signed 16 (v % 2 ^ 16).toNat := by
  unfold load_short store_short
  rw [load_le_store_le]
  have e : (256 : Nat) ^ 2 = 2 ^ 16 := by norm_num
  have hm0 : 0 ≤ v % 2 ^ 16 := Int.emod_nonneg _ (by norm_num)
  have hm1 : v % 2 ^ 16 < 2 ^ 16 := Int.emod_lt_of_pos _ (by norm_num)
  have hlt : (v % 2 ^ 16).toNat < 2 ^ 16 := by omega
  rw [e, Nat.mod_eq_of_lt hlt]

theorem convert_int_range (buffer : List Nat) (o : Nat) :
    -(2 ^ 31 : Int) ≤ convert_int buffer o ∧ convert_int buffer o < 2 ^ 31 :=
  to_signed_range 32 _ (by norm_num)

theorem convert_short_range (buffer : List Nat) (o : Nat) :
    -(2 ^ 15 : Int) ≤ convert_short buffer o ∧ convert_short buffer o < 2 ^ 15 :=
  to_signed_range 16 _ (by norm_num)

/-! ## fill_header: its blocks, and the bytes of `lim_file` -/

theorem fill_header_blocks (has_defdetlimlib : Bool) (defdetlimlib : List Nat)
    (buffer : List Nat) (io : Mem) :
    fill_header has_defdetlimlib defdetlimlib buffer io
      = fill_header_tail buffer (default_lim_file has_defdetlimlib defdetlimlib
          (extract_string buffer 222 IO_Header.lim_file (fill_header_head buffer io))) := rfl

theorem peek_store_int_below (m : Mem) (a : Nat) (v : Int) (x : Nat) (h : x < a) :
    peek (store_int m a v) x = peek m x :=
  peek_store_le_outside _ _ _ _ _ (Or.inl h)

theorem peek_store_short_below (m : Mem) (a : Nat) (v : Int) (x : Nat) (h : x < a) :
    peek (store_short m a v) x = peek m x :=
  peek_store_le_outside _ _ _ _ _ (Or.inl h)

theorem peek_store_float_below (m : Mem) (a : Nat) (v : Nat) (x : Nat) (h : x < a) :
    peek (store_float m a v) x = peek m x :=
  peek_store_le_outside _ _ _ _ _ (Or.inl h)

/-- The statements after the default of `lim_file` change no byte below
address 260, the end of `lim_file`. -/
theorem peek_fill_header_tail_below (buffer : List Nat) (io : Mem) (x : Nat) (hx : x < 260) :
    peek (fill_header_tail buffer io) x = peek io x := by
  unfold fill_header_tail
  simp (disch := exact lt_of_lt_of_le hx (by decide)) only [peek_store_int_below,
    peek_store_short_below, peek_store_float_below, peek_extract_string_below]

/-- Two memories that agree from `a` up to a NUL hold the same C string at `a`. -/
theorem cstr_congr (fuel : Nat) : ∀ (m1 m2 : Mem) (a B : Nat),
    (∀ x, a ≤ x → x < B → peek m1 x = peek m2 x) →
    (∃ k, a + k < B ∧ peek m2 (a + k) = 0) → cstr m1 a fuel = cstr m2 a fuel := by
  induction fuel with
  | zero => intro m1 m2 a B _ _; rfl
  | succ fuel ih =>
    intro m1 m2 a B h hk
    obtain ⟨k, hk1, hk2⟩ := hk
    have h0 : peek m1 a = peek m2 a := h a (le_refl _) (by omega)
    rw [cstr, cstr, h0]
    by_cases hz : peek m2 a = 0
    · rw [if_pos hz, if_pos hz]
    · rw [if_neg hz, if_neg hz]
      congr 1
      have hk0 : k ≠ 0 := by
        intro hk0; subst hk0; exact hz hk2
      apply ih m1 m2 (a + 1) B (fun x h1 h2 => h x (by omega) h2)
      refine ⟨k - 1, by omega, ?_⟩
      rw [← hk2]; congr 1; omega

theorem cstr_eq_nil_iff (m : Mem) (a fuel : Nat) (hf : 1 ≤ fuel) :
    cstr m a fuel = [] ↔ peek m a = 0 := by
  obtain ⟨f, rfl⟩ : ∃ f, fuel = f + 1 := ⟨fuel - 1, by omega⟩
  rw [cstr]
  by_cases hz : peek m a = 0
  · simp [hz]
  · simp [hz]

/-- The C string at `dest` after `strcpy(dest, src)`, for a source of bytes
none of which is NUL. -/
theorem cstr_strcpy (m : Mem) (dest : Nat) (src : List Nat) (fuel : Nat)
    (hb : ∀ c ∈ src, c < 256 ∧ c ≠ 0) (hf : src.length < fuel) :
    cstr (strcpy m dest src) dest fuel = src := by
  have ht : src.takeWhile (fun c => c % 256 != 0) = src := by
    apply takeWhile_eq_self
    intro c hc
    have := hb c hc
    rw [Nat.mod_eq_of_lt this.1]
    simpa using this.2
  unfold strcpy
  rw [ht]
  have h := cstr_take src.length src (poke_list m dest (src ++ [0])) dest fuel (le_refl _)
    (fun c hc => (hb c hc).2) ?_ ?_ hf
  · rw [h, List.take_length]
  · intro i hi
    rw [peek_poke_list, if_pos ⟨by omega, by simp; omega⟩]
    have e : dest + i - dest = i := by omega
    rw [e, List.getD_append _ _ _ _ hi, List.getD_eq_getElem _ _ hi]
    exact Nat.mod_eq_of_lt (hb _ (List.getElem_mem _)).1
  · rw [peek_poke_list, if_pos ⟨by omega, by simp⟩]
    have e : dest + src.length - dest = src.length := by omega
    rw [e, List.getD_append_right _ _ _ _ (le_refl _)]
    simp

theorem peek_strcpy_nul (m : Mem) (dest : Nat) (src : List Nat)
    (hb : ∀ c ∈ src, c < 256 ∧ c ≠ 0) : peek (strcpy m dest src) (dest + src.length) = 0 := by
  have ht : src.takeWhile (fun c => c % 256 != 0) = src := by
    apply takeWhile_eq_self
    intro c hc
    have := hb c hc
    rw [Nat.mod_eq_of_lt this.1]
    simpa using this.2
  unfold strcpy
  rw [ht, peek_poke_list, if_pos ⟨by omega, by simp⟩]
  have e : dest + src.length - dest = src.length := by omega
  rw [e, List.getD_append_right _ _ _ _ (le_refl _)]
  simp

/-! ## A terminator inside every text member -/

theorem cstr_length_le_of_nul (fuel : Nat) : ∀ (m : Mem) (a cap : Nat),
    nul_within m a cap → (cstr m a fuel).length ≤ cap := by
  induction fuel with
  | zero => intro m a cap _; simp [cstr]
  | succ fuel ih =>
    intro m a cap h
    obtain ⟨k, hk1, hk2⟩ := h
    rw [cstr]
    by_cases hz : peek m a = 0
    · rw [if_pos hz]; simp
    · rw [if_neg hz]
      have hk0 : k ≠ 0 := by
        intro hk0; subst hk0; exact hz hk2
      have := ih m (a + 1) (cap - 1) ⟨k - 1, by omega, by rw [← hk2]; congr 1; omega⟩
      simp only [List.length_cons]
      omega

theorem nul_store_le (n : Nat) (m : Mem) (a cap b v : Nat) (hdisj : a + cap < b ∨ b + n ≤ a)
    (h : nul_within m a cap) : nul_within (store_le m b n v) a cap := by
  obtain ⟨k, hk1, hk2⟩ := h
  exact ⟨k, hk1, by rw [peek_store_le_outside _ _ _ _ _ (by omega)]; exact hk2⟩

theorem nul_store_int {m : Mem} {a cap b : Nat} {v : Int} (hdisj : a + cap < b ∨ b + 4 ≤ a)
    (h : nul_within m a cap) : nul_within (store_int m b v) a cap :=
  nul_store_le 4 m a cap b _ hdisj h

theorem nul_store_short {m : Mem} {a cap b : Nat} {v : Int} (hdisj : a + cap < b ∨ b + 2 ≤ a)
    (h : nul_within m a cap) : nul_within (store_short m b v) a cap :=
  nul_store_le 2 m a cap b _ hdisj h

theorem nul_store_float {m : Mem} {a cap b v : Nat} (hdisj : a + cap < b ∨ b + 4 ≤ a)
    (h : nul_within m a cap) : nul_within (store_float m b v) a cap :=
  nul_store_le 4 m a cap b _ hdisj h

theorem nul_poke {m : Mem} {a cap b v : Nat} (hdisj : a + cap < b ∨ b + 1 ≤ a)
    (h : nul_within m a cap) : nul_within (poke m b v) a cap := by
  obtain ⟨k, hk1, hk2⟩ := h
  exact ⟨k, hk1, by rw [peek_poke_ne _ _ _ _ (by omega)]; exact hk2⟩

theorem nul_extract_string_self {buffer : List Nat} {src a cap : Nat} {m : Mem}
    (hn : rd buffer src ≤ cap) : nul_within (extract_string buffer src a m) a cap :=
  ⟨rd buffer src, hn, peek_extract_string_nul _ _ _ _⟩

theorem nul_extract_string_other {buffer : List Nat} {src dest a cap c : Nat} {m : Mem}
    (hn : rd buffer src ≤ c) (hdisj : a + cap < dest ∨ dest + c < a)
    (h : nul_within m a cap) : nul_within (extract_string buffer src dest m) a cap := by
  obtain ⟨k, hk1, hk2⟩ := h
  refine ⟨k, hk1, ?_⟩
  rcases peek_extract_string_outside buffer src dest m (a + k) (by omega) with h1 | h1
  · rw [h1]; exact hk2
  · exact h1

theorem strcpy_source_length (src : List Nat) :
    (src.takeWhile (fun c => c % 256 != 0)).length ≤ src.length :=
  ( List.takeWhile_prefix _).length_le

theorem nul_default_self {has_defdetlimlib : Bool} {defdetlimlib : List Nat} {m : Mem}
    {a cap : Nat} (hd : has_defdetlimlib = true → defdetlimlib.length ≤ cap)
    (h : nul_within m a cap) :
    nul_within (if peek m a = 0 ∧ has_defdetlimlib = true
      then strcpy m a defdetlimlib else m) a cap := by
  split
  · rename_i hc
    have hl := strcpy_source_length defdetlimlib
    refine ⟨(defdetlimlib.takeWhile (fun c => c % 256 != 0)).length, by have := hd hc.2; omega, ?_⟩
    unfold strcpy
    rw [peek_poke_list, if_pos ⟨by omega, by simp⟩]
    have e : ∀ n : Nat, a + n - a = n := fun n => by omega
    rw [e, List.getD_append_right _ _ _ _ (le_refl _)]
    simp
  · exact h

theorem nul_default_other {has_defdetlimlib : Bool} {defdetlimlib : List Nat} {m : Mem}
    {a cap b c : Nat} (hd : has_defdetlimlib = true → defdetlimlib.length ≤ c)
    (hdisj : a + cap < b ∨ b + c < a) (h : nul_within m a cap) :
    nul_within (if peek m b = 0 ∧ has_defdetlimlib = true
      then strcpy m b defdetlimlib else m) a cap := by
  split
  · rename_i hc
    have hl := strcpy_source_length defdetlimlib
    have := hd hc.2
    obtain ⟨k, hk1, hk2⟩ := h
    refine ⟨k, hk1, ?_⟩
    unfold strcpy
    rw [peek_poke_list, if_neg (by simp; omega)]
    exact hk2
  · exact h

/-! ## binary32: the rounding -/

theorem bit_length_zero (fuel : Nat) : bit_length fuel 0 = 0 := by
  cases fuel <;> simp [bit_length]

theorem bit_length_spec (fuel : Nat) : ∀ n : Nat, n ≤ fuel → 0 < n →
    1 ≤ bit_length fuel n ∧ 2 ^ (bit_length fuel n - 1) ≤ n ∧ n < 2 ^ bit_length fuel n := by
  induction fuel with
  | zero => intro n h1 h2; omega
  | succ fuel ih =>
    intro n h1 h2
    rw [bit_length, if_neg (by omega)]
    by_cases h : n / 2 = 0
    · have hn : n = 1 := by omega
      subst hn
      simp [bit_length_zero]
    · obtain ⟨hb1, hb2, hb3⟩ := ih (n / 2) (by omega) (by omega)
      refine ⟨by omega, ?_, ?_⟩
      · have e : bit_length fuel (n / 2) + 1 - 1 = (bit_length fuel (n / 2) - 1) + 1 := by omega
        rw [e, pow_succ]
        omega
      · rw [pow_succ]
        omega

theorem ilog2_spec (n : Nat) (h : 0 < n) : 2 ^ ilog2 n ≤ n ∧ n < 2 ^ (ilog2 n + 1) := by
  obtain ⟨h1, h2, h3⟩ := bit_length_spec n n (le_refl _) h
  unfold ilog2
  refine ⟨h2, ?_⟩
  have e : bit_length n n - 1 + 1 = bit_length n n := by omega
  rw [e]; exact h3

theorem round_scaled_pos (n d : Nat) (e : Int) (hd : 0 < d) : 0 < (round_scaled n d e).2 := by
  unfold round_scaled
  split
  · exact Nat.mul_pos hd (Nat.pow_pos (by norm_num))
  · exact hd

/-- Lowering the exponent by one doubles the scaled value. -/
theorem round_scaled_pred (n d : Nat) (e : Int) :
    (round_scaled n d (e - 1)).1 * (round_scaled n d e).2
      = 2 * (round_scaled n d e).1 * (round_scaled n d (e - 1)).2 := by
  unfold round_scaled
  by_cases h1 : 0 ≤ e - 1
  · have h2 : 0 ≤ e := by omega
    rw [if_pos h1, if_pos h2]
    have e1 : e.toNat = (e - 1).toNat + 1 := by omega
    simp only [e1, pow_succ]
    ring
  · rw [if_neg h1]
    by_cases h2 : 0 ≤ e
    · have h3 : e = 0 := by omega
      subst h3
      rw [if_pos (le_refl (0 : Int))]
      have e1 : (-(0 - 1 : Int)).toNat = 1 := rfl
      have e2 : (0 : Int).toNat = 0 := rfl
      simp only [e1, e2]
      ring
    · rw [if_neg h2]
      have e1 : (-(e - 1)).toNat = (-e).toNat + 1 := by omega
      simp only [e1, pow_succ]
      ring

/-- The first guess of the exponent is right or one too high. -/
theorem round_scaled_guess (n d : Nat) (hn : 0 < n) (hd : 0 < d) :
    2 ^ 22 * (round_scaled n d ((ilog2 n : Int) - (ilog2 d : Int) - 23)).2
        ≤ (round_scaled n d ((ilog2 n : Int) - (ilog2 d : Int) - 23)).1 ∧
    (round_scaled n d ((ilog2 n : Int) - (ilog2 d : Int) - 23)).1
        < 2 ^ 24 * (round_scaled n d ((ilog2 n : Int) - (ilog2 d : Int) - 23)).2 := by
  obtain ⟨hn1, hn2⟩ := ilog2_spec n hn
  obtain ⟨hd1, hd2⟩ := ilog2_spec d hd
  generalize ilog2 n = L at *
  generalize ilog2 d = D at *
  unfold round_scaled
  by_cases h : 0 ≤ (L : Int) - (D : Int) - 23
  · rw [if_pos h]
    obtain ⟨E, hE⟩ : ∃ E : Nat, L = D + 23 + E := ⟨L - D - 23, by omega⟩
    have hE2 : ((L : Int) - (D : Int) - 23).toNat = E := by omega
    rw [hE2]
    subst hE
    dsimp only
    have p1 : 2 ^ (D + 23 + E) = 2 ^ 22 * (2 ^ (D + 1) * 2 ^ E) := by
      rw [← pow_add, ← pow_add]; congr 1; omega
    have p2 : 2 ^ (D + 23 + E + 1) = 2 ^ 24 * (2 ^ D * 2 ^ E) := by
      rw [← pow_add, ← pow_add]; congr 1; omega
    have hE0 : 0 < 2 ^ E := Nat.pow_pos (by norm_num)
    constructor
    · calc 2 ^ 22 * (d * 2 ^ E) ≤ 2 ^ 22 * (2 ^ (D + 1) * 2 ^ E) := by
            apply Nat.mul_le_mul_left
            apply Nat.mul_le_mul_right
            omega
        _ = 2 ^ (D + 23 + E) := p1.symm
        _ ≤ n := hn1
    · calc n < 2 ^ (D + 23 + E + 1) := hn2
        _ = 2 ^ 24 * (2 ^ D * 2 ^ E) := p2
        _ ≤ 2 ^ 24 * (d * 2 ^ E) := by
            apply Nat.mul_le_mul_left
            apply Nat.mul_le_mul_right
            exact hd1
  · rw [if_neg h]
    obtain ⟨E, hE⟩ : ∃ E : Nat, D + 23 = L + E := ⟨D + 23 - L, by omega⟩
    have hE2 : (-((L : Int) - (D : Int) - 23)).toNat = E := by omega
    rw [hE2]
    dsimp only
    have p1 : 2 ^ L * 2 ^ E = 2 ^ 22 * 2 ^ (D + 1) := by
      rw [← pow_add, ← pow_add]; congr 1; omega
    have p2 : 2 ^ (L + 1) * 2 ^ E = 2 ^ 24 * 2 ^ D := by
      rw [← pow_add, ← pow_add]; congr 1; omega
    have hE0 : 0 < 2 ^ E := Nat.pow_pos (by norm_num)
    constructor
    · calc 2 ^ 22 * d ≤ 2 ^ 22 * 2 ^ (D + 1) := Nat.mul_le_mul_left _ (by omega)
        _ = 2 ^ L * 2 ^ E := p1.symm
        _ ≤ n * 2 ^ E := Nat.mul_le_mul_right _ hn1
    · calc n * 2 ^ E < 2 ^ (L + 1) * 2 ^ E := Nat.mul_lt_mul_of_pos_right hn2 hE0
        _ = 2 ^ 24 * 2 ^ D := p2
        _ ≤ 2 ^ 24 * d := Nat.mul_le_mul_left _ hd1

/-- The scaled value at the exponent that `round24` settles on, before the
rounding, lies in `[2^23, 2^24)`. -/
theorem round_scaled_normal (n d : Nat) (hn : 0 < n) (hd : 0 < d) (e0 e : Int)
    (he0 : e0 = (ilog2 n : Int) - (ilog2 d : Int) - 23)
    (he : e = if (round_scaled n d e0).1 / (round_scaled n d e0).2 < 2 ^ 23 then e0 - 1 else e0) :
    2 ^ 23 * (round_scaled n d e).2 ≤ (round_scaled n d e).1 ∧
    (round_scaled n d e).1 < 2 ^ 24 * (round_scaled n d e).2 := by
  have hg := round_scaled_guess n d hn hd
  rw [← he0] at hg
  have hp0 := round_scaled_pos n d e0 hd
  by_cases hlt : (round_scaled n d e0).1 / (round_scaled n d e0).2 < 2 ^ 23
  · rw [if_pos hlt] at he
    subst he
    have hp := round_scaled_pos n d (e0 - 1) hd
    have hrel := round_scaled_pred n d e0
    have hlt2 : (round_scaled n d e0).1 < 2 ^ 23 * (round_scaled n d e0).2 := by
      exact (Nat.div_lt_iff_lt_mul hp0).mp hlt
    generalize (round_scaled n d e0).1 = a0 at *
    generalize (round_scaled n d e0).2 = b0 at *
    generalize (round_scaled n d (e0 - 1)).1 = a at *
    generalize (round_scaled n d (e0 - 1)).2 = b at *
    constructor
    · apply Nat.le_of_mul_le_mul_right _ hp0
      calc 2 ^ 23 * b * b0 = 2 * (2 ^ 22 * b0) * b := by ring
        _ ≤ 2 * a0 * b := by
            apply Nat.mul_le_mul_right
            apply Nat.mul_le_mul_left
            exact hg.1
        _ = a * b0 := hrel.symm
    · apply Nat.lt_of_mul_lt_mul_right (a := b0)
      calc a * b0 = 2 * a0 * b := hrel
        _ < 2 * (2 ^ 23 * b0) * b := by
            apply Nat.mul_lt_mul_of_pos_right _ hp
            apply Nat.mul_lt_mul_of_pos_left hlt2 (by norm_num)
        _ = 2 ^ 24 * b * b0 := by ring
  · rw [if_neg hlt] at he
    subst he
    refine ⟨?_, hg.2⟩
    exact (Nat.le_div_iff_mul_le hp0).mp (Nat.le_of_not_lt hlt)

/-- The arithmetic of a rounding up to the next power of two. -/
theorem round_up_carry (P a b r a1 b1 : Nat) (hP : 1 ≤ P) (hb : 0 < b)
    (hdm : b * (2 * P - 1) + r = a) (hr : r < b) (hup : b ≤ 2 * r)
    (hrel : a * b1 = 2 * a1 * b) :
    2 * P * (P * b1) ≤ (2 * P + 1) * a1 ∧ 2 * P * a1 ≤ 2 * P * (P * b1) + a1 := by
  obtain ⟨Q, rfl⟩ : ∃ Q, P = Q + 1 := ⟨P - 1, by omega⟩
  have e0 : 2 * (Q + 1) - 1 = 2 * Q + 1 := by omega
  rw [e0] at hdm
  subst hdm
  constructor
  · apply Nat.le_of_mul_le_mul_right _ hb
    have h1 : (2 * (Q + 1) + 1) * a1 * b * 2 = (2 * (Q + 1) + 1) * ((b * (2 * Q + 1) + r) * b1) := by
      rw [hrel]; ring
    have h2 : 2 * (Q + 1) * ((Q + 1) * b1) * b * 2
        ≤ (2 * (Q + 1) + 1) * ((b * (2 * Q + 1) + r) * b1) := by
      have h3 : 2 * (Q + 1) * (Q + 1) * b * 2 ≤ (2 * (Q + 1) + 1) * (b * (2 * Q + 1) + r) := by
        nlinarith [Nat.zero_le (Q * b), Nat.zero_le (Q * r), Nat.zero_le (Q * Q * b)]
      calc 2 * (Q + 1) * ((Q + 1) * b1) * b * 2 = (2 * (Q + 1) * (Q + 1) * b * 2) * b1 := by ring
        _ ≤ ((2 * (Q + 1) + 1) * (b * (2 * Q + 1) + r)) * b1 := Nat.mul_le_mul_right _ h3
        _ = _ := by ring
    omega
  · apply Nat.le_of_mul_le_mul_right _ hb
    have h1 : 2 * (Q + 1) * a1 * b = (Q + 1) * ((b * (2 * Q + 1) + r) * b1) := by
      rw [hrel]; ring
    have h2 : (Q + 1) * ((b * (2 * Q + 1) + r) * b1)
        ≤ (2 * (Q + 1) * ((Q + 1) * b1) + a1) * b := by
      have h3 : (Q + 1) * (b * (2 * Q + 1) + r) ≤ 2 * (Q + 1) * (Q + 1) * b := by
        nlinarith [Nat.zero_le (Q * b), Nat.zero_le (Q * r), Nat.zero_le (Q * Q * b)]
      calc (Q + 1) * ((b * (2 * Q + 1) + r) * b1)
          = ((Q + 1) * (b * (2 * Q + 1) + r)) * b1 := by ring
        _ ≤ (2 * (Q + 1) * (Q + 1) * b) * b1 := Nat.mul_le_mul_right _ h3
        _ ≤ (2 * (Q + 1) * ((Q + 1) * b1) + a1) * b := by
            have : (2 * (Q + 1) * ((Q + 1) * b1) + a1) * b
                = (2 * (Q + 1) * (Q + 1) * b) * b1 + a1 * b := by ring
            omega
    omega

/-- The arithmetic of a rounding to a neighbour. -/
theorem round_near (P a b q c : Nat) (hN1 : P * b ≤ a)
    (h1 : 2 * c ≤ 2 * a + b) (h2 : 2 * a ≤ 2 * c + b) (_hq : c = q * b) :
    2 * P * c ≤ (2 * P + 1) * a ∧ 2 * P * a ≤ 2 * P * c + a := by
  constructor
  · nlinarith
  · nlinarith

/-- What `round24` returns: a mantissa of 24 bits, within a relative distance
`2^-24` of the exact value (both scaled to the exponent returned). -/
theorem round24_spec (n d : Nat) (hn : 0 < n) (hd : 0 < d) :
    2 ^ 23 ≤ (round24 n d).1 ∧ (round24 n d).1 < 2 ^ 24 ∧
    2 ^ 24 * ((round24 n d).1 * (round_scaled n d (round24 n d).2).2)
      ≤ (2 ^ 24 + 1) * (round_scaled n d (round24 n d).2).1 ∧
    2 ^ 24 * (round_scaled n d (round24 n d).2).1
      ≤ 2 ^ 24 * ((round24 n d).1 * (round_scaled n d (round24 n d).2).2)
        + (round_scaled n d (round24 n d).2).1 := by
  obtain ⟨hN1, hN2⟩ := round_scaled_normal n d hn hd _ _ rfl rfl
  unfold round24
  dsimp only
  generalize (if (round_scaled n d ((ilog2 n : Int) - (ilog2 d : Int) - 23)).1 /
      (round_scaled n d ((ilog2 n : Int) - (ilog2 d : Int) - 23)).2 < 2 ^ 23
    then (ilog2 n : Int) - (ilog2 d : Int) - 23 - 1 else (ilog2 n : Int) - (ilog2 d : Int) - 23)
    = e at *
  have hp := round_scaled_pos n d e hd
  have hdm := Nat.div_add_mod (round_scaled n d e).1 (round_scaled n d e).2
  have hml := Nat.mod_lt (round_scaled n d e).1 hp
  have hq1 : 2 ^ 23 ≤ (round_scaled n d e).1 / (round_scaled n d e).2 :=
    (Nat.le_div_iff_mul_le hp).mpr hN1
  have hq2 : (round_scaled n d e).1 / (round_scaled n d e).2 < 2 ^ 24 :=
    (Nat.div_lt_iff_lt_mul hp).mpr hN2
  have hrel := round_scaled_pred n d (e + 1)
  rw [show e + 1 - 1 = e by ring] at hrel
  have h24 : (2 : Nat) ^ 24 = 2 * 2 ^ 23 := by norm_num
  have hP : 1 ≤ (2 : Nat) ^ 23 := by norm_num
  rw [h24] at hN2 hq2 ⊢
  generalize (2 : Nat) ^ 23 = P at *
  generalize (round_scaled n d e).1 / (round_scaled n d e).2 = q at *
  generalize (round_scaled n d e).1 % (round_scaled n d e).2 = r at *
  by_cases hup : (round_scaled n d e).2 < 2 * r ∨ (2 * r = (round_scaled n d e).2 ∧ q % 2 = 1)
  · rw [if_pos hup]
    have hup2 : (round_scaled n d e).2 ≤ 2 * r := by omega
    by_cases hc : q + 1 = 2 * P
    · rw [if_pos hc]
      dsimp only
      have hq : q = 2 * P - 1 := by omega
      subst hq
      obtain ⟨g1, g2⟩ := round_up_carry P _ _ r _ _ hP hp hdm hml hup2 hrel
      exact ⟨le_refl _, by omega, g1, g2⟩
    · rw [if_neg hc]
      dsimp only
      have e1 : (q + 1) * (round_scaled n d e).2
          = (round_scaled n d e).2 * q + (round_scaled n d e).2 := by ring
      obtain ⟨g1, g2⟩ := round_near P _ _ (q + 1) ((q + 1) * (round_scaled n d e).2) hN1
        (by rw [e1]; omega)
        (by rw [e1]; omega) rfl
      exact ⟨by omega, by omega, g1, g2⟩
  · rw [if_neg hup]
    have hq24 : q ≠ 2 * P := by omega
    rw [if_neg hq24]
    dsimp only
    have e1 : q * (round_scaled n d e).2 = (round_scaled n d e).2 * q := Nat.mul_comm _ _
    obtain ⟨g1, g2⟩ := round_near P _ _ q (q * (round_scaled n d e).2) hN1 (by rw [e1]; omega)
      (by rw [e1]; omega) rfl
    exact ⟨hq1, hq2, g1, g2⟩

/-! ## binary32: the values as rational numbers -/

/-- The rational value of the pair that `round_scaled` returns. -/
theorem round_scaled_value (n d : Nat) (e : Int) (hd : 0 < d) :
    ((round_scaled n d e).1 : ℚ) / ((round_scaled n d e).2 : ℚ)
      = (n : ℚ) / (d : ℚ) * (2 : ℚ) ^ (-e) := by
  have hd0 : (d : ℚ) ≠ 0 := by exact_mod_cast (Nat.pos_iff_ne_zero.mp hd)
  unfold round_scaled
  by_cases h : 0 ≤ e
  · rw [if_pos h]
    obtain ⟨k, rfl⟩ : ∃ k : Nat, e = k := ⟨e.toNat, by omega⟩
    simp only [Int.toNat_ofNat, zpow_neg, zpow_natCast]
    push_cast
    field_simp
  · rw [if_neg h]
    obtain ⟨k, hk⟩ : ∃ k : Nat, -e = k := ⟨(-e).toNat, by omega⟩
    rw [hk]
    simp only [Int.toNat_ofNat, zpow_natCast]
    push_cast
    field_simp

/-- Sign factor of a `float`. -/
theorem sign_sq (s : Bool) : ((if s then -1 else 1 : ℚ)) * (if s then -1 else 1) = 1 := by
  cases s <;> simp

theorem abs_sign (s : Bool) : |(if s then -1 else 1 : ℚ)| = 1 := by
  cases s <;> simp

/-- The rounding of `F32.round`: the result is a finite number whose value is
within a relative distance `2^-24` of `(-1)^neg * n / d * 2^sh`. -/
theorem round_close (neg : Bool) (n d : Nat) (sh : Int) (hd : 0 < d) :
    ∃ m e, F32.round neg n d sh = F32.fin neg m e ∧ (n ≠ 0 → m ≠ 0) ∧
      |F32.to_rat (F32.fin neg m e) - (if neg then -1 else 1) * ((n : ℚ) / d * 2 ^ sh)|
        ≤ 1 / 2 ^ 24 * ((n : ℚ) / d * 2 ^ sh) := by
  unfold F32.round
  by_cases hn : n = 0
  · subst hn
    refine ⟨0, 0, by simp, by simp, ?_⟩
    simp [F32.to_rat]
  · rw [if_neg hn]
    have hn0 : 0 < n := Nat.pos_of_ne_zero hn
    obtain ⟨h1, h2, h3, h4⟩ := round24_spec n d hn0 hd
    have hv := round_scaled_value n d (round24 n d).2 hd
    have hp := round_scaled_pos n d (round24 n d).2 hd
    refine ⟨(round24 n d).1, (round24 n d).2 + sh, rfl, by omega, ?_⟩
    generalize (round24 n d).1 = mt at *
    generalize (round24 n d).2 = ex at *
    generalize (round_scaled n d ex).1 = a at *
    generalize (round_scaled n d ex).2 = b at *
    have hb : (0 : ℚ) < b := by exact_mod_cast hp
    have h2p : (0 : ℚ) < (2 : ℚ) ^ ex := zpow_pos (by norm_num) _
    have h2s : (0 : ℚ) < (2 : ℚ) ^ sh := zpow_pos (by norm_num) _
    have hX : (n : ℚ) / d = (a : ℚ) / b * 2 ^ ex := by
      rw [hv, mul_assoc, ← zpow_add₀ (by norm_num : (2 : ℚ) ≠ 0)]
      simp
    have h3q : (2 : ℚ) ^ 24 * (mt * b) ≤ (2 ^ 24 + 1) * a := by exact_mod_cast h3
    have h4q : (2 : ℚ) ^ 24 * a ≤ 2 ^ 24 * (mt * b) + a := by exact_mod_cast h4
    have herr : |(mt : ℚ) - a / b| ≤ 1 / 2 ^ 24 * (a / b) := by
      have ht : (a : ℚ) = a / b * b := (div_mul_cancel₀ _ (ne_of_gt hb)).symm
      generalize (a : ℚ) / b = t at ht ⊢
      have k3 : (2 : ℚ) ^ 24 * mt ≤ (2 ^ 24 + 1) * t := by
        have : (2 : ℚ) ^ 24 * mt * b ≤ (2 ^ 24 + 1) * t * b := by
          rw [ht] at h3q; linarith
        exact le_of_mul_le_mul_right this hb
      have k4 : (2 : ℚ) ^ 24 * t ≤ 2 ^ 24 * mt + t := by
        have : (2 : ℚ) ^ 24 * t * b ≤ (2 ^ 24 * mt + t) * b := by
          rw [ht] at h4q; linarith
        exact le_of_mul_le_mul_right this hb
      rw [abs_le]
      constructor
      · norm_num at k3 k4 ⊢; linarith
      · norm_num at k3 k4 ⊢; linarith
    simp only [F32.to_rat]
    rw [hX, zpow_add₀ (by norm_num : (2 : ℚ) ≠ 0)]
    have e1 : (if neg then -1 else 1 : ℚ) * (mt : ℚ) * ((2 : ℚ) ^ ex * 2 ^ sh)
        - (if neg then -1 else 1) * ((a : ℚ) / b * 2 ^ ex * 2 ^ sh)
        = (if neg then -1 else 1) * (((mt : ℚ) - a / b) * (2 ^ ex * 2 ^ sh)) := by ring
    rw [e1, abs_mul, abs_sign, one_mul, abs_mul, abs_of_pos (mul_pos h2p h2s)]
    calc |(mt : ℚ) - a / b| * (2 ^ ex * 2 ^ sh)
        ≤ 1 / 2 ^ 24 * (a / b) * (2 ^ ex * 2 ^ sh) :=
          mul_le_mul_of_nonneg_right herr (le_of_lt (mul_pos h2p h2s))
      _ = 1 / 2 ^ 24 * ((a : ℚ) / b * 2 ^ ex * 2 ^ sh) := by ring

theorem ilog2_one : ilog2 1 = 0 := by decide

/-- An integer below `2^24` is converted exactly. -/
theorem round24_nat_exact (n : Nat) (hn : 0 < n) (h : n < 2 ^ 24) :
    ((round24 n 1).1 : ℚ) * (2 : ℚ) ^ (round24 n 1).2 = n := by
  obtain ⟨hN1, hN2⟩ := round_scaled_normal n 1 hn (by norm_num) _ _ rfl rfl
  have hl : ilog2 n ≤ 23 := by
    by_contra hc
    have h1 := (ilog2_spec n hn).1
    have h2 : 2 ^ 24 ≤ 2 ^ ilog2 n := Nat.pow_le_pow_right (by norm_num) (by omega)
    omega
  have he : (if (round_scaled n 1 ((ilog2 n : Int) - (ilog2 1 : Int) - 23)).1 /
      (round_scaled n 1 ((ilog2 n : Int) - (ilog2 1 : Int) - 23)).2 < 2 ^ 23
    then (ilog2 n : Int) - (ilog2 1 : Int) - 23 - 1 else (ilog2 n : Int) - (ilog2 1 : Int) - 23)
      ≤ 0 := by
    rw [ilog2_one]
    split <;> omega
  unfold round24
  dsimp only
  generalize (if (round_scaled n 1 ((ilog2 n : Int) - (ilog2 1 : Int) - 23)).1 /
      (round_scaled n 1 ((ilog2 n : Int) - (ilog2 1 : Int) - 23)).2 < 2 ^ 23
    then (ilog2 n : Int) - (ilog2 1 : Int) - 23 - 1 else (ilog2 n : Int) - (ilog2 1 : Int) - 23)
    = e at *
  have hv := round_scaled_value n 1 e (by norm_num)
  have hb : (round_scaled n 1 e).2 = 1 := by
    unfold round_scaled
    by_cases h0 : 0 ≤ e
    · have : e = 0 := by omega
      subst this
      simp
    · rw [if_neg h0]
  rw [hb] at hN1 hN2 hv ⊢
  simp only [Nat.div_one, Nat.mod_one, Nat.mul_zero, Nat.cast_one, div_one] at hv ⊢
  have hc1 : ¬ (1 < 0 ∨ (0 = 1 ∧ (round_scaled n 1 e).1 % 2 = 1)) := by omega
  rw [if_neg hc1, if_neg (by omega)]
  dsimp only
  rw [hv, mul_assoc, ← zpow_add₀ (by norm_num : (2 : ℚ) ≠ 0)]
  simp

theorem round24_two_pow_24 : round24 (2 ^ 24) 1 = (2 ^ 23, 1) := by decide!

/-- The conversion `(float)x` is exact for `|x| ≤ 2^24`. -/
theorem of_int_exact (x : Int) (h : x.natAbs ≤ 2 ^ 24) :
    ∃ m e, F32.of_int x = F32.fin (decide (x < 0)) m e ∧ (x ≠ 0 → m ≠ 0) ∧
      F32.to_rat (F32.fin (decide (x < 0)) m e) = x := by
  unfold F32.of_int F32.round
  by_cases h0 : x.natAbs = 0
  · have hx : x = 0 := Int.natAbs_eq_zero.mp h0
    subst hx
    refine ⟨0, 0, by simp, by simp, by simp [F32.to_rat]⟩
  · rw [if_neg h0]
    have hpos : 0 < x.natAbs := Nat.pos_of_ne_zero h0
    have hm := (round24_spec x.natAbs 1 hpos (by norm_num)).1
    refine ⟨_, _, rfl, fun _ => by omega, ?_⟩
    have hval : ((round24 x.natAbs 1).1 : ℚ) * (2 : ℚ) ^ ((round24 x.natAbs 1).2 + 0)
        = (x.natAbs : ℚ) := by
      rw [add_zero]
      by_cases h24 : x.natAbs = 2 ^ 24
      · rw [h24, round24_two_pow_24]; norm_num
      · exact round24_nat_exact _ hpos (by omega)
    simp only [F32.to_rat]
    rw [mul_assoc, hval]
    have habs : (x.natAbs : ℚ) = |(x : ℚ)| := by
      have e := @Nat.cast_natAbs ℚ _ x
      rw [e, Int.cast_abs]
    rw [habs]
    by_cases hneg : x < 0
    · simp only [hneg, decide_True, if_true]
      rw [abs_of_neg (by exact_mod_cast hneg)]; ring
    · simp only [hneg, decide_False, if_false, Bool.false_eq_true]
      rw [abs_of_nonneg (by exact_mod_cast (not_lt.mp hneg))]; ring

theorem to_rat_fin (s : Bool) (m : Nat) (e : Int) :
    F32.to_rat (F32.fin s m e) = (if s then -1 else 1) * (m : ℚ) * (2 : ℚ) ^ e := rfl

theorem sign_xor (s t : Bool) :
    (if xor s t then -1 else 1 : ℚ) = (if s then -1 else 1) * (if t then -1 else 1) := by
  cases s <;> cases t <;> simp

theorem sign_inv (t : Bool) : ((if t then -1 else 1 : ℚ))⁻¹ = (if t then -1 else 1) := by
  cases t <;> norm_num

/-- Division of two finite numbers, the divisor not zero: a finite number
within a relative distance `2^-24` of the quotient. -/
theorem div_close (s : Bool) (m : Nat) (e : Int) (t : Bool) (k : Nat) (f : Int) (hk : k ≠ 0) :
    ∃ m1 e1, F32.div (F32.fin s m e) (F32.fin t k f) = F32.fin (xor s t) m1 e1 ∧
      |F32.to_rat (F32.fin (xor s t) m1 e1)
          - F32.to_rat (F32.fin s m e) / F32.to_rat (F32.fin t k f)|
        ≤ 1 / 2 ^ 24 * |F32.to_rat (F32.fin s m e) / F32.to_rat (F32.fin t k f)| := by
  obtain ⟨m1, e1, h1, -, h3⟩ := round_close (xor s t) m k (e - f) (Nat.pos_of_ne_zero hk)
  refine ⟨m1, e1, by rw [F32.div, if_neg hk]; exact h1, ?_⟩
  have hk0 : (k : ℚ) ≠ 0 := by exact_mod_cast hk
  have h2f : (2 : ℚ) ^ f ≠ 0 := zpow_ne_zero _ (by norm_num)
  have hq : F32.to_rat (F32.fin s m e) / F32.to_rat (F32.fin t k f)
      = (if xor s t then -1 else 1) * ((m : ℚ) / k * 2 ^ (e - f)) := by
    rw [to_rat_fin, to_rat_fin, zpow_sub₀ (by norm_num : (2 : ℚ) ≠ 0)]
    cases s <;> cases t <;> simp <;> field_simp
  have hnn : (0 : ℚ) ≤ (m : ℚ) / k * 2 ^ (e - f) :=
    mul_nonneg (div_nonneg (Nat.cast_nonneg _) (Nat.cast_nonneg _))
      (le_of_lt (zpow_pos (by norm_num) _))
  rw [hq, abs_mul, abs_sign, one_mul, abs_of_nonneg hnn]
  exact h3

/-- Multiplication of two finite numbers: a finite number within a relative
distance `2^-24` of the product. -/
theorem mul_close (s : Bool) (m : Nat) (e : Int) (t : Bool) (k : Nat) (f : Int) :
    ∃ m1 e1, F32.mul (F32.fin s m e) (F32.fin t k f) = F32.fin (xor s t) m1 e1 ∧
      |F32.to_rat (F32.fin (xor s t) m1 e1)
          - F32.to_rat (F32.fin s m e) * F32.to_rat (F32.fin t k f)|
        ≤ 1 / 2 ^ 24 * |F32.to_rat (F32.fin s m e) * F32.to_rat (F32.fin t k f)| := by
  obtain ⟨m1, e1, h1, -, h3⟩ := round_close (xor s t) (m * k) 1 (e + f) (by norm_num)
  refine ⟨m1, e1, by rw [F32.mul]; exact h1, ?_⟩
  have hq : F32.to_rat (F32.fin s m e) * F32.to_rat (F32.fin t k f)
      = (if xor s t then -1 else 1) * (((m * k : Nat) : ℚ) / (1 : Nat) * 2 ^ (e + f)) := by
    rw [to_rat_fin, to_rat_fin, sign_xor, zpow_add₀ (by norm_num : (2 : ℚ) ≠ 0)]
    push_cast
    ring
  have hnn : (0 : ℚ) ≤ ((m * k : Nat) : ℚ) / (1 : Nat) * 2 ^ (e + f) :=
    mul_nonneg (div_nonneg (Nat.cast_nonneg _) (Nat.cast_nonneg _))
      (le_of_lt (zpow_pos (by norm_num) _))
  rw [hq, abs_mul, abs_sign, one_mul, abs_of_nonneg hnn]
  exact h3

theorem scaled_value (s : Bool) (m : Nat) (e base : Int) (h : base ≤ e) :
    ((F32.scaled s m e base : Int) : ℚ) = F32.to_rat (F32.fin s m e) * (2 : ℚ) ^ (-base) := by
  obtain ⟨k, hk⟩ : ∃ k : Nat, e - base = k := ⟨(e - base).toNat, by omega⟩
  have he : e = k + base := by omega
  unfold F32.scaled
  rw [to_rat_fin, hk, he, zpow_add₀ (by norm_num : (2 : ℚ) ≠ 0), zpow_neg, zpow_natCast]
  have h2 : (2 : ℚ) ^ base ≠ 0 := zpow_ne_zero _ (by norm_num)
  simp only [Int.toNat_ofNat]
  cases s <;> simp <;> field_simp <;> ring

theorem sign_mul_natAbs (v : Int) :
    (if decide (v < 0) then -1 else 1 : ℚ) * (v.natAbs : ℚ) = v := by
  have e := @Nat.cast_natAbs ℚ _ v
  rw [e, Int.cast_abs]
  by_cases h : v < 0
  · simp only [h, decide_True, if_true]
    rw [abs_of_neg (by exact_mod_cast h)]; ring
  · simp only [h, decide_False, if_false, Bool.false_eq_true]
    rw [abs_of_nonneg (by exact_mod_cast (not_lt.mp h))]; ring

/-- Subtraction of two finite numbers: a finite number within a relative
distance `2^-24` of the difference. -/
theorem sub_close (s : Bool) (m : Nat) (e : Int) (t : Bool) (k : Nat) (f : Int) :
    ∃ s1 m1 e1, F32.sub (F32.fin s m e) (F32.fin t k f) = F32.fin s1 m1 e1 ∧
      |F32.to_rat (F32.fin s1 m1 e1)
          - (F32.to_rat (F32.fin s m e) - F32.to_rat (F32.fin t k f))|
        ≤ 1 / 2 ^ 24 * |F32.to_rat (F32.fin s m e) - F32.to_rat (F32.fin t k f)| := by
  rw [F32.sub]
  by_cases hz : m = 0 ∧ k = 0
  · rw [if_pos hz]
    refine ⟨_, _, _, rfl, ?_⟩
    obtain ⟨rfl, rfl⟩ := hz
    simp [to_rat_fin]
  · rw [if_neg hz]
    dsimp only
    have ha := scaled_value s m e (min e f) (min_le_left _ _)
    have hb := scaled_value t k f (min e f) (min_le_right _ _)
    generalize F32.to_rat (F32.fin s m e) = ta at *
    generalize F32.to_rat (F32.fin t k f) = tb at *
    generalize min e f = base at *
    have h2 : (0 : ℚ) < (2 : ℚ) ^ base := zpow_pos (by norm_num) _
    have hv : ((F32.scaled s m e base - F32.scaled t k f base : Int) : ℚ) * 2 ^ base
        = ta - tb := by
      push_cast
      rw [ha, hb, zpow_neg]
      field_simp
    generalize F32.scaled s m e base - F32.scaled t k f base = v at *
    by_cases hv0 : v = 0
    · rw [if_pos hv0]
      refine ⟨_, _, _, rfl, ?_⟩
      subst hv0
      simp only [Int.cast_zero, zero_mul] at hv
      rw [← hv]
      simp [to_rat_fin]
    · rw [if_neg hv0]
      have hsv := sign_mul_natAbs v
      by_cases hb0 : 0 ≤ base
      · rw [if_pos hb0]
        obtain ⟨m1, e1, h1, -, h3⟩ :=
          round_close (decide (v < 0)) (v.natAbs * 2 ^ base.toNat) 1 0 (by norm_num)
        refine ⟨_, m1, e1, h1, ?_⟩
        obtain ⟨B, rfl⟩ : ∃ B : Nat, base = B := ⟨base.toNat, by omega⟩
        simp only [Int.toNat_ofNat, zpow_natCast] at h3 hv
        have hX : (if decide (v < 0) = true then -1 else 1 : ℚ)
            * (((v.natAbs * 2 ^ B : Nat) : ℚ) / (1 : Nat) * 2 ^ (0 : Int)) = ta - tb := by
          rw [← hv, ← hsv]; push_cast; ring
        have hXabs : (((v.natAbs * 2 ^ B : Nat) : ℚ) / (1 : Nat) * 2 ^ (0 : Int)) = |ta - tb| := by
          rw [← hX, abs_mul, abs_sign, one_mul, abs_of_nonneg]
          positivity
        rw [hX] at h3
        rw [← hXabs]
        exact h3
      · rw [if_neg hb0]
        obtain ⟨m1, e1, h1, -, h3⟩ :=
          round_close (decide (v < 0)) v.natAbs (2 ^ (-base).toNat) 0
            (Nat.pow_pos (by norm_num))
        refine ⟨_, m1, e1, h1, ?_⟩
        obtain ⟨B, hB⟩ : ∃ B : Nat, -base = B := ⟨(-base).toNat, by omega⟩
        have hB2 : base = -(B : Int) := by omega
        subst hB2
        simp only [neg_neg, Int.toNat_ofNat, zpow_neg, zpow_natCast] at h3 hv
        have hX : (if decide (v < 0) = true then -1 else 1 : ℚ)
            * ((v.natAbs : ℚ) / ((2 ^ B : Nat) : ℚ) * 2 ^ (0 : Int)) = ta - tb := by
          rw [← hv, ← hsv]; push_cast; field_simp
        have hXabs : ((v.natAbs : ℚ) / ((2 ^ B : Nat) : ℚ) * 2 ^ (0 : Int)) = |ta - tb| := by
          rw [← hX, abs_mul, abs_sign, one_mul, abs_of_nonneg]
          positivity
        rw [hX] at h3
        rw [← hXabs]
        exact h3

/-- Three roundings in a row, each within a relative distance `u`, stay within
`4 * u` of the exact value. -/
theorem three_roundings (u T L tD tQ tR : ℚ) (hu : 0 ≤ u) (hu2 : 3 * u ^ 2 + u ^ 3 ≤ u)
    (hL : L ≠ 0) (h1 : |tD - T| ≤ u * |T|) (h2 : |tQ - tD / L| ≤ u * |tD / L|)
    (h3 : |tR - tQ * 100| ≤ u * |tQ * 100|) :
    |tR - T / L * 100| ≤ 4 * u * |T / L * 100| := by
  have hLpos : 0 < |L| := abs_pos.mpr hL
  have h1d : |tD / L - T / L| ≤ u * |T / L| := by
    rw [← sub_div, abs_div, abs_div, ← mul_div_assoc]
    exact div_le_div_of_nonneg_right h1 (le_of_lt hLpos)
  generalize tD / L = y at *
  generalize T / L = x at *
  have hX : 0 ≤ |x| := abs_nonneg _
  have hy : |y| ≤ (1 + u) * |x| := by
    have := abs_sub_abs_le_abs_sub y x
    linarith
  have hqy : |tQ - y| ≤ u * ((1 + u) * |x|) := le_trans h2 (mul_le_mul_of_nonneg_left hy hu)
  have hq : |tQ| ≤ (1 + u) * ((1 + u) * |x|) := by
    have := abs_sub_abs_le_abs_sub tQ y
    linarith
  have hqx : |tQ - x| ≤ u * ((1 + u) * |x|) + u * |x| := by
    have : tQ - x = (tQ - y) + (y - x) := by ring
    rw [this]
    exact le_trans (abs_add _ _) (add_le_add hqy h1d)
  have h3b : |tR - tQ * 100| ≤ u * (100 * ((1 + u) * ((1 + u) * |x|))) := by
    refine le_trans h3 (mul_le_mul_of_nonneg_left ?_ hu)
    rw [abs_mul]
    have : |(100 : ℚ)| = 100 := abs_of_pos (by norm_num)
    rw [this]
    linarith
  have hfin : |tR - x * 100| ≤ u * (100 * ((1 + u) * ((1 + u) * |x|)))
      + 100 * (u * ((1 + u) * |x|) + u * |x|) := by
    have : tR - x * 100 = (tR - tQ * 100) + (tQ - x) * 100 := by ring
    rw [this]
    refine le_trans (abs_add _ _) (add_le_add h3b ?_)
    rw [abs_mul]
    have : |(100 : ℚ)| = 100 := abs_of_pos (by norm_num)
    rw [this]
    linarith
  have habs : |x * 100| = 100 * |x| := by
    rw [abs_mul, abs_of_pos (by norm_num : (0 : ℚ) < 100)]; ring
  rw [habs]
  have key : u * (100 * ((1 + u) * ((1 + u) * |x|))) + 100 * (u * ((1 + u) * |x|) + u * |x|)
      = 100 * |x| * (3 * u + (3 * u ^ 2 + u ^ 3)) := by ring
  rw [key] at hfin
  have : 100 * |x| * (3 * u + (3 * u ^ 2 + u ^ 3)) ≤ 100 * |x| * (4 * u) := by
    apply mul_le_mul_of_nonneg_left _ (by positivity)
    linarith
  linarith

/-- The value of `dead_time` for a `live_time` that is not 0, both times at
most `2^24` in absolute value: a finite number, within a relative distance
`2^-22` of `((real_time - live_time) / live_time) * 100`. -/
theorem dead_time_close (real_time live_time : Int) (hl : live_time ≠ 0)
    (hr : real_time.natAbs ≤ 2 ^ 24) (hlv : live_time.natAbs ≤ 2 ^ 24) :
    (dead_time real_time live_time).is_finite = true ∧
    |F32.to_rat (dead_time real_time live_time)
        - ((real_time : ℚ) - live_time) / live_time * 100|
      ≤ 1 / 2 ^ 22 * |((real_time : ℚ) - live_time) / live_time * 100| := by
  obtain ⟨ma, ea, hA, -, hAv⟩ := of_int_exact real_time hr
  obtain ⟨mb, eb, hB, hBm, hBv⟩ := of_int_exact live_time hlv
  obtain ⟨mc, ec, hC, -, hCv⟩ := of_int_exact 100 (by decide)
  have hdec : decide ((100 : Int) < 0) = false := by decide
  rw [hdec] at hC hCv
  obtain ⟨sd, md, ed, hD, hDv⟩ :=
    sub_close (decide (real_time < 0)) ma ea (decide (live_time < 0)) mb eb
  obtain ⟨mq, eq, hQ, hQv⟩ :=
    div_close sd md ed (decide (live_time < 0)) mb eb (hBm hl)
  obtain ⟨mr, er, hR, hRv⟩ :=
    mul_close (xor sd (decide (live_time < 0))) mq eq false mc ec
  have hdt : dead_time real_time live_time
      = F32.fin (xor (xor sd (decide (live_time < 0))) false) mr er := by
    unfold dead_time
    rw [hA, hB, hC, hD, hQ, hR]
  rw [hdt]
  refine ⟨rfl, ?_⟩
  rw [hAv, hBv] at hDv
  rw [hBv] at hQv
  rw [hCv] at hRv
  have hL : (live_time : ℚ) ≠ 0 := by exact_mod_cast hl
  have h := three_roundings (1 / 2 ^ 24) _ _ _ _ _ (by norm_num) (by norm_num) hL hDv hQv
    (by simpa using hRv)
  have e : (4 : ℚ) * (1 / 2 ^ 24) = 1 / 2 ^ 22 := by norm_num
  rw [e] at h
  simpa using h

theorem of_int_fin (x : Int) :
    ∃ m e, F32.of_int x = F32.fin (decide (x < 0)) m e ∧ (x ≠ 0 → m ≠ 0) := by
  obtain ⟨m, e, h1, h2, -⟩ := round_close (decide (x < 0)) x.natAbs 1 0 (by norm_num)
  exact ⟨m, e, h1, fun hx => h2 (by simpa using hx)⟩

/-- For a `live_time` that is not 0, `dead_time` is a finite number. -/
theorem dead_time_finite (real_time live_time : Int) (hl : live_time ≠ 0) :
    (dead_time real_time live_time).is_finite = true := by
  obtain ⟨ma, ea, hA, -⟩ := of_int_fin real_time
  obtain ⟨mb, eb, hB, hBm⟩ := of_int_fin live_time
  obtain ⟨mc, ec, hC, -⟩ := of_int_fin 100
  obtain ⟨sd, md, ed, hD, -⟩ :=
    sub_close (decide (real_time < 0)) ma ea (decide (live_time < 0)) mb eb
  obtain ⟨mq, eq, hQ, -⟩ :=
    div_close sd md ed (decide (live_time < 0)) mb eb (hBm hl)
  obtain ⟨mr, er, hR, -⟩ :=
    mul_close (xor sd (decide (live_time < 0))) mq eq (decide ((100 : Int) < 0)) mc ec
  unfold dead_time
  rw [hA, hB, hC, hD, hQ, hR]
  rfl

/-! ## More on extract_string: blank data, sources that agree -/

theorem extract_ref_eq_nil (data : List Nat) (h : ∀ c ∈ data, is_pad c = true) :
    extract_ref data = [] := by
  unfold extract_ref
  rw [List.rdropWhile_eq_nil_iff]
  intro c hc
  have hmem : c ∈ data := ( List.takeWhile_prefix (fun c => c != 0)).subset hc
  have hnz := List.mem_takeWhile_imp hc
  have hp := h c hmem
  unfold is_pad at hp
  simp only [Bool.or_eq_true, beq_iff_eq] at hp
  rcases hp with hp | hp
  · exact hp
  · simp [hp] at hnz

theorem declared_congr (b1 b2 : List Nat) (s1 s2 : Nat) (hlen : rd b1 s1 = rd b2 s2)
    (hdata : ∀ i, i < rd b1 s1 → rd b1 (s1 + 1 + i) = rd b2 (s2 + 1 + i)) :
    declared b1 s1 = declared b2 s2 := by
  unfold declared src_list
  rw [← hlen]
  apply List.map_congr_left
  intro i hi
  exact hdata i (List.mem_range.mp hi)

theorem cstr_lim_file_default (defdetlimlib : List Nat) (buffer : List Nat) (m : Mem)
    (fuel : Nat) (hempty : extract_ref (declared buffer 222) = [])
    (hd : defdetlimlib.length ≤ 13) (hbytes : ∀ c ∈ defdetlimlib, c < 256 ∧ c ≠ 0)
    (hfuel : 256 ≤ fuel) :
    cstr (fill_header true defdetlimlib buffer m) IO_Header.lim_file fuel = defdetlimlib := by
  have hr : rd buffer 222 < fuel := by
    have := rd_lt buffer 222
    omega
  rw [fill_header_blocks]
  generalize hS : extract_string buffer 222 IO_Header.lim_file (fill_header_head buffer m) = S
  have hSt : cstr S IO_Header.lim_file fuel = [] := by
    rw [← hS, cstr_extract_string _ _ _ _ _ hr]; exact hempty
  have h0 : peek S IO_Header.lim_file = 0 :=
    (cstr_eq_nil_iff S IO_Header.lim_file fuel (by omega)).mp hSt
  unfold default_lim_file
  rw [if_pos ⟨h0, rfl⟩]
  rw [cstr_congr fuel _ (strcpy S IO_Header.lim_file defdetlimlib) _ 260
    (fun x _ h2 => peek_fill_header_tail_below buffer _ x h2)
    ⟨defdetlimlib.length, by show 246 + _ < 260; omega, peek_strcpy_nul _ _ _ hbytes⟩]
  exact cstr_strcpy _ _ _ _ hbytes (by omega)

/-! ## Narrowing stores, and the buffer bytes a statement depends on -/

theorem to_signed_mod (w n : Nat) : to_signed w (n % 2 ^ w) = to_signed w n := by
  unfold to_signed
  rw [Nat.mod_mod]

theorem store_short_convert_int (m : Mem) (a : Nat) (buffer : List Nat) (o : Nat) :
    store_short m a (convert_int buffer o) = store_short m a (convert_short buffer o) := by
  unfold store_short convert_int convert_short to_signed
  have h4 : le_value buffer o 4 % 2 ^ 16 = le_value buffer o 2 % 2 ^ 16 := by
    simp only [le_value]
    omega
  congr 1
  split_ifs <;> omega

theorem convert_short_eq (buffer : List Nat) (o : Nat) :
    convert_short buffer o = to_signed 16 (rd buffer o + 256 * rd buffer (o + 1)) := by
  simp [convert_short, le_value]

theorem load_short_store_convert (m : Mem) (a : Nat) (buffer : List Nat) (o : Nat) :
    load_short (store_short m a (convert_int buffer o)) a
      = to_signed 16 (rd buffer o + 256 * rd buffer (o + 1)) := by
  rw [store_short_convert_int, load_short_store_short, ← convert_short_eq]
  exact to_signed_of_range 16 _ (by decide) (convert_short_range buffer o).1
    (convert_short_range buffer o).2

theorem load_short_store_le (n : Nat) (m : Mem) (b v a : Nat) (h : a + 2 ≤ b ∨ b + n ≤ a) :
    load_short (store_le m b n v) a = load_short m a := by
  unfold load_short
  rw [load_le_congr 2 _ m a (fun x h1 h2 => peek_store_le_outside n m b v x (by omega))]

theorem load_short_store_int (m : Mem) (b : Nat) (v : Int) (a : Nat)
    (h : a + 2 ≤ b ∨ b + 4 ≤ a) : load_short (store_int m b v) a = load_short m a :=
  load_short_store_le 4 m b _ a h

theorem load_short_store_short_ne (m : Mem) (b : Nat) (v : Int) (a : Nat)
    (h : a + 2 ≤ b ∨ b + 2 ≤ a) : load_short (store_short m b v) a = load_short m a :=
  load_short_store_le 2 m b _ a h

theorem strncpy_congr (n : Nat) : ∀ (f g : Nat → Nat) (d : Nat) (m : Mem),
    (∀ i, i < n → f i = g i) → strncpy f d n m = strncpy g d n m := by
  induction n with
  | zero => intro f g d m _; rfl
  | succ n ih =>
    intro f g d m h
    unfold strncpy
    rw [h 0 (by omega)]
    split_ifs
    · rfl
    · exact ih _ _ _ _ (fun i hi => h (i + 1) (by omega))

theorem extract_string_congr (b1 b2 : List Nat) (src dest : Nat) (m : Mem)
    (h0 : rd b1 src = rd b2 src)
    (h : ∀ i, i < rd b1 src → rd b1 (src + 1 + i) = rd b2 (src + 1 + i)) :
    extract_string b1 src dest m = extract_string b2 src dest m := by
  unfold extract_string
  rw [← h0]
  dsimp only
  rw [strncpy_congr (rd b1 src) _ (fun i => rd b2 (src + 1 + i)) dest m h]

theorem le_value_congr (n : Nat) : ∀ (b1 b2 : List Nat) (o : Nat),
    (∀ i, i < n → rd b1 (o + i) = rd b2 (o + i)) → le_value b1 o n = le_value b2 o n := by
  induction n with
  | zero => intro b1 b2 o _; rfl
  | succ n ih =>
    intro b1 b2 o h
    unfold le_value
    rw [show rd b1 o = rd b2 o from h 0 (by omega),
      ih b1 b2 (o + 1) (fun i hi => by
        have := h (i + 1) (by omega)
        rwa [show o + (i + 1) = o + 1 + i by omega] at this)]

set_option maxRecDepth 100000 in
theorem fill_header_congr (has_defdetlimlib : Bool) (defdetlimlib : List Nat)
    (b1 b2 : List Nat) (m : Mem) (hagree : ∀ i, i < 397 → rd b1 i = rd b2 i)
    (hfit : ∀ f ∈ text_fields, f.src + rd b1 f.src < 397) :
    fill_header has_defdetlimlib defdetlimlib b1 m
      = fill_header has_defdetlimlib defdetlimlib b2 m := by
  simp only [text_fields, List.forall_mem_cons, List.not_mem_nil, false_implies, implies_true,
    and_true] at hfit
  obtain ⟨h1, h2, h3, h4, h5, h6, h7, h8, h9, h10, h11, h12, h13, h14, h15, h16, h17, h18,
    h19, h20⟩ := hfit
  have hE : ∀ (s d : Nat) (io : Mem), s + rd b1 s < 397 →
      extract_string b1 s d io = extract_string b2 s d io := fun s d io hs =>
    extract_string_congr b1 b2 s d io (hagree s (by omega)) (fun i hi => hagree _ (by omega))
  have hF : ∀ o, o + 4 ≤ 397 → convert_float b1 o = convert_float b2 o := fun o ho =>
    le_value_congr 4 b1 b2 o (fun i hi => hagree _ (by omega))
  have hI : ∀ o, o + 4 ≤ 397 → convert_int b1 o = convert_int b2 o := fun o ho => by
    unfold convert_int
    rw [le_value_congr 4 b1 b2 o (fun i hi => hagree _ (by omega))]
  have hS : ∀ o, o + 2 ≤ 397 → convert_short b1 o = convert_short b2 o := fun o ho => by
    unfold convert_short
    rw [le_value_congr 2 b1 b2 o (fun i hi => hagree _ (by omega))]
  unfold fill_header
  simp (disch := first | assumption | decide) only [store_short_convert_int, hE, hF, hI, hS,
    hagree 86 (by decide), hagree 91 (by decide)]

/-! ## IO_Header: the offsets of the members -/

/-- The offsets given to the members are those of natural alignment, and the
last member ends at `sizeof(IO_Header)`. -/
theorem layout_members :
    layout 0 (IO_Header.members.map Prod.snd) = IO_Header.members.map Prod.fst ∧
    IO_Header.ST6 + CType.size CType.short = IO_Header.size := by
  decide

/-! ## generate_inp: the newlines it writes -/

theorem digits_ge (fuel : Nat) : ∀ n, ∀ c ∈ digits fuel n, 48 ≤ c := by
  induction fuel with
  | zero => intro n c hc; simp [digits] at hc
  | succ fuel ih =>
    intro n c hc
    unfold digits at hc
    split_ifs at hc
    · simp only [List.mem_singleton] at hc; omega
    · rcases List.mem_append.mp hc with h | h
      · exact ih _ c h
      · simp only [List.mem_singleton] at h; omega

theorem show_int_no_newline (v : Int) : 10 ∉ show_int v := by
  unfold show_int
  intro h
  rcases List.mem_append.mp h with h | h
  · split_ifs at h <;> simp at h
  · have := digits_ge _ _ 10 h
    omega

theorem count_chars (fmt : Nat → List Nat) (hfmt : ∀ bits, 10 ∉ fmt bits) (it : Item) :
    (it.chars fmt).count 10 = it.newlines := by
  cases it with
  | text s => rfl
  | chr c =>
    by_cases hc : c = 10
    · subst hc; rfl
    · simp only [Item.chars, Item.newlines, if_neg hc]
      exact List.count_eq_zero.mpr (by simpa using fun h => hc h.symm)
  | num v => exact List.count_eq_zero.mpr (show_int_no_newline v)
  | real bits => exact List.count_eq_zero.mpr (hfmt bits)
  | endl => rfl

theorem count_flatMap_chars (fmt : Nat → List Nat) (hfmt : ∀ bits, 10 ∉ fmt bits) :
    ∀ items : List Item,
      (items.flatMap (Item.chars fmt)).count 10 = (items.map Item.newlines).sum := by
  intro items
  induction items with
  | nil => rfl
  | cons it rest ih =>
    rw [List.flatMap_cons, List.count_append, List.map_cons, List.sum_cons, ih,
      count_chars fmt hfmt it]

theorem sum_newlines (io : Mem) : ∀ order : List Nat,
    (∀ a ∈ order, (insert_member io a).newlines = 0) →
    ((order.flatMap (fun a => [insert_member io a, Item.endl])).map Item.newlines).sum
      = order.length := by
  intro order
  induction order with
  | nil => intro _; rfl
  | cons a rest ih =>
    intro h
    have h0 := h a (List.mem_cons_self a rest)
    have hr := ih (fun b hb => h b (List.mem_cons_of_mem a hb))
    simp only [List.flatMap_cons, List.cons_append, List.nil_append, List.map_cons,
      List.sum_cons, List.length_cons, hr, h0]
    show 0 + (1 + rest.length) = rest.length + 1
    omega

theorem length_members (io : Mem) : ∀ order : List Nat,
    (order.flatMap (fun a => [insert_member io a, Item.endl])).length = 2 * order.length := by
  intro order
  induction order with
  | nil => rfl
  | cons a rest ih =>
    simp only [List.flatMap_cons, List.cons_append, List.nil_append, List.length_cons, ih]
    omega

/-! ## A numeric member through the statements that follow its assignment -/

/-- Outside the declared bytes and their terminator, a byte that is not
whitespace keeps its value. -/
theorem peek_extract_string_keep (buffer : List Nat) (src dest : Nat) (m : Mem) (x : Nat)
    (h : x < dest ∨ dest + rd buffer src < x) (hs : isspace (peek m x) = false) :
    peek (extract_string buffer src dest m) x = peek m x := by
  have hn := rd_lt buffer src
  have hM := peek_copied buffer src dest m
  unfold extract_string
  simp only []
  generalize poke (strncpy (fun i => rd buffer (src + 1 + i)) dest (rd buffer src) m)
        (dest + rd buffer src) 0 = M2 at hM ⊢
  obtain ⟨hj, hpk, -, hpad⟩ := trim_loop_spec dest ((rd buffer src + 255) % 256) M2
  generalize trim_loop dest ((rd buffer src + 255) % 256) M2 = r at *
  have hin : ¬ (dest ≤ x ∧ x ≤ dest + rd buffer src) := by omega
  have hx : x ≠ dest := by omega
  have hF : peek (if r.1 = 0 ∧ isspace (peek r.2 dest) = true then poke r.2 dest 0 else r.2) x
      = peek r.2 x := by
    split
    · rw [peek_poke_ne _ _ _ _ hx]
    · rfl
  have hMx : peek M2 x = peek m x := by rw [hM, if_neg hin]
  rw [hF, hpk]
  by_cases hz : dest + r.1 < x ∧ x ≤ dest + (rd buffer src + 255) % 256
  · rw [if_pos hz]
    have hp := hpad (x - dest) (by omega) (by omega)
    rw [show dest + (x - dest) = x by omega, hMx] at hp
    unfold is_pad at hp
    rw [hs] at hp
    simp only [Bool.false_or, beq_iff_eq] at hp
    exact hp.symm
  · rw [if_neg hz]; exact hMx

theorem holds_store_le {m : Mem} {a n v b k w : Nat} (hdisj : a + n ≤ b ∨ b + k ≤ a)
    (h : holds m a n v) : holds (store_le m b k w) a n v := by
  intro i hi
  rw [peek_store_le_outside k m b w (a + i) (by omega)]
  exact h i hi

theorem holds_store_int {m : Mem} {a n v b : Nat} {w : Int} (hdisj : a + n ≤ b ∨ b + 4 ≤ a)
    (h : holds m a n v) : holds (store_int m b w) a n v :=
  holds_store_le hdisj h

theorem holds_store_short {m : Mem} {a n v b : Nat} {w : Int} (hdisj : a + n ≤ b ∨ b + 2 ≤ a)
    (h : holds m a n v) : holds (store_short m b w) a n v :=
  holds_store_le hdisj h

theorem holds_store_float {m : Mem} {a n v b w : Nat} (hdisj : a + n ≤ b ∨ b + 4 ≤ a)
    (h : holds m a n v) : holds (store_float m b w) a n v :=
  holds_store_le hdisj h

theorem holds_store_float_self {m : Mem} {a v w : Nat} (h : w = v) :
    holds (store_float m a w) a 4 v := by
  subst h
  intro i hi
  unfold store_float
  rw [peek_store_le, if_pos ⟨by omega, by omega⟩, show a + i - a = i by omega]

theorem holds_extract_string_below {buffer : List Nat} {src dest : Nat} {m : Mem} {a n v : Nat}
    (hd : a + n ≤ dest) (h : holds m a n v) :
    holds (extract_string buffer src dest m) a n v := by
  intro i hi
  rw [peek_extract_string_below buffer src dest m (a + i) (by omega)]
  exact h i hi

theorem holds_extract_string_above {buffer : List Nat} {src dest : Nat} {m : Mem} {a n v : Nat}
    (hd : dest + rd buffer src < a) (hs : ∀ i, i < n → isspace (v / 256 ^ i % 256) = false)
    (h : holds m a n v) : holds (extract_string buffer src dest m) a n v := by
  intro i hi
  rw [peek_extract_string_keep buffer src dest m (a + i) (Or.inr (by omega))
    (by rw [h i hi]; exact hs i hi)]
  exact h i hi

theorem holds_default {has_defdetlimlib : Bool} {defdetlimlib : List Nat} {m : Mem}
    {a n v b : Nat} (hd : a + n ≤ b) (h : holds m a n v) :
    holds (if peek m b = 0 ∧ has_defdetlimlib = true then strcpy m b defdetlimlib else m)
      a n v := by
  split
  · intro i hi
    unfold strcpy
    rw [peek_poke_list, if_neg (by omega)]
    exact h i hi
  · exact h

theorem load_le_of_holds (m : Mem) (a v : Nat) : ∀ n, holds m a n v →
    load_le m a n = v % 256 ^ n := by
  intro n h
  rw [← load_le_store_le n m a v]
  exact load_le_congr n _ _ a (fun x h1 h2 => by
    rw [peek_store_le, if_pos ⟨h1, h2⟩]
    have := h (x - a) (by omega)
    rwa [show a + (x - a) = x by omega] at this)

theorem load_int_store_le (n : Nat) (m : Mem) (b v a : Nat) (h : a + 4 ≤ b ∨ b + n ≤ a) :
    load_int (store_le m b n v) a = load_int m a := by
  unfold load_int
  rw [load_le_congr 4 _ m a (fun x h1 h2 => peek_store_le_outside n m b v x (by omega))]

theorem load_int_store_int_ne (m : Mem) (b : Nat) (v : Int) (a : Nat)
    (h : a + 4 ≤ b ∨ b + 4 ≤ a) : load_int (store_int m b v) a = load_int m a :=
  load_int_store_le 4 m b _ a h

theorem load_int_store_convert (m : Mem) (a : Nat) (buffer : List Nat) (o : Nat) :
    load_int (store_int m a (convert_int buffer o)) a = convert_int buffer o :=
  load_int_store_int m a _ (convert_int_range buffer o).1 (convert_int_range buffer o).2

set_option maxRecDepth 100000 in
/-- The `dead_time` of the filled header is the value computed at lines 247-249
from the `real_time` and `live_time` of the buffer, when the four text fields
decoded next (offsets 116, 119, 122, 125) end below the member and no byte of
the value is a whitespace character. -/
theorem dead_time_stored (has_defdetlimlib : Bool) (defdetlimlib : List Nat)
    (buffer : List Nat) (m : Mem)
    (h1 : IO_Header.sample_unit + rd buffer 116 < IO_Header.dead_time)
    (h2 : IO_Header.detector_identifier + rd buffer 119 < IO_Header.dead_time)
    (h3 : IO_Header.year + rd buffer 122 < IO_Header.dead_time)
    (h4 : IO_Header.beaker_identifier + rd buffer 125 < IO_Header.dead_time)
    (hs : ∀ i, i < 4 → isspace
      ((dead_time (convert_int buffer 193) (convert_int buffer 197)).bits / 256 ^ i % 256)
        = false) :
    holds (fill_header has_defdetlimlib defdetlimlib buffer m) IO_Header.dead_time 4
      (dead_time (convert_int buffer 193) (convert_int buffer 197)).bits := by
  unfold fill_header
  dsimp only
  repeat with_reducible (first
    | refine holds_store_int (by decide) ?_
    | refine holds_store_short (by decide) ?_
    | refine holds_store_float (by decide) ?_
    | refine holds_extract_string_below (by decide) ?_
    | refine holds_extract_string_above (by assumption) hs ?_
    | refine holds_default (by decide) ?_)
  refine holds_store_float_self ?_
  simp (disch := decide) only [load_int_store_int_ne, load_int_store_convert]

/-! ## dead_time with a live_time of 0 -/

theorem sub_zero_fin (s : Bool) (m : Nat) (e : Int) (hm : m ≠ 0) :
    ∃ m1 e1, F32.sub (F32.fin s m e) (F32.fin false 0 0) = F32.fin s m1 e1 ∧ m1 ≠ 0 := by
  have hpos : 0 < m * 2 ^ (e - min e 0).toNat := Nat.mul_pos (Nat.pos_of_ne_zero hm) (by positivity)
  have hv : F32.scaled s m e (min e 0) - F32.scaled false 0 0 (min e 0)
      = if s then -((m * 2 ^ (e - min e 0).toNat : Nat) : Int)
        else ((m * 2 ^ (e - min e 0).toNat : Nat) : Int) := by
    simp [F32.scaled]
  have hne : (if s then -((m * 2 ^ (e - min e 0).toNat : Nat) : Int)
        else ((m * 2 ^ (e - min e 0).toNat : Nat) : Int)) ≠ 0 := by
    split_ifs <;> omega
  have hsg : decide ((if s then -((m * 2 ^ (e - min e 0).toNat : Nat) : Int)
        else ((m * 2 ^ (e - min e 0).toNat : Nat) : Int)) < 0) = s := by
    cases s
    · simp only [Bool.false_eq_true, if_false, decide_eq_false_iff_not]; omega
    · simp only [if_true, decide_eq_true_eq]; omega
  have hna : (if s then -((m * 2 ^ (e - min e 0).toNat : Nat) : Int)
        else ((m * 2 ^ (e - min e 0).toNat : Nat) : Int)).natAbs ≠ 0 := by
    rwa [Ne, Int.natAbs_eq_zero]
  generalize (if s then -((m * 2 ^ (e - min e 0).toNat : Nat) : Int)
        else ((m * 2 ^ (e - min e 0).toNat : Nat) : Int)) = V at hv hne hsg hna
  unfold F32.sub
  simp only [hm, false_and, if_false]
  rw [hv, if_neg hne, hsg]
  by_cases hb : 0 ≤ min e 0
  · rw [if_pos hb]
    obtain ⟨m1, e1, hr, hnz, -⟩ := round_close s (V.natAbs * 2 ^ (min e 0).toNat) 1 0
      (by norm_num)
    exact ⟨m1, e1, hr, hnz (Nat.mul_ne_zero hna (by positivity))⟩
  · rw [if_neg hb]
    obtain ⟨m1, e1, hr, hnz, -⟩ := round_close s V.natAbs (2 ^ (-(min e 0)).toNat) 0
      (by positivity)
    exact ⟨m1, e1, hr, hnz hna⟩

/-- With a `live_time` of 0, `dead_time` is NaN for a `real_time` of 0 and an
infinity with the sign of `real_time` otherwise. -/
theorem dead_time_zero (real_time : Int) :
    dead_time real_time 0
      = if real_time = 0 then F32.nan else F32.inf (decide (real_time < 0)) := by
  by_cases h : real_time = 0
  · subst h
    rw [if_pos rfl]
    decide!
  · rw [if_neg h]
    obtain ⟨ma, ea, hA, hAm⟩ := of_int_fin real_time
    obtain ⟨mc, ec, hC, hCm⟩ := of_int_fin 100
    have hB : F32.of_int 0 = F32.fin false 0 0 := by decide
    obtain ⟨m1, e1, hD, hDm⟩ := sub_zero_fin (decide (real_time < 0)) ma ea (hAm h)
    unfold dead_time
    rw [hA, hB, hC, hD]
    simp [F32.div, F32.mul, hDm, hCm]

theorem dead_time_zero_bits (real_time : Int) :
    (dead_time real_time 0).bits = 0xFFC00000 ∨ (dead_time real_time 0).bits = 0x7F800000 ∨
    (dead_time real_time 0).bits = 0xFF800000 := by
  rw [dead_time_zero]
  by_cases h : real_time = 0
  · rw [if_pos h]; exact Or.inl rfl
  · rw [if_neg h]
    by_cases hn : real_time < 0
    · right; right; simp [F32.bits, hn]
    · right; left; simp [F32.bits, hn]

/-! ## Claims about extract_string -/

/-- C1, as amended. Length-prefixed string round trip: for every string `s` of
`n ≤ 255` bytes in which no NUL is followed by a byte that is neither whitespace
nor NUL (every NUL lies in the trailing run), decoding the bytes (length byte
`n`, then the `n` bytes of `s`) with `extract_string` yields `s` without its
trailing run of whitespace and NUL bytes, whatever the destination, its
capacity and the bytes around the source; what remains is a prefix of `s`, so
interior whitespace is kept. -/
theorem c1_round_trip (pre s post : List Nat) (dest : Nat) (m : Mem) (fuel : Nat)
    (hlen : s.length ≤ 255) (hbytes : ∀ c ∈ s, c < 256)
    (hnul : ∀ c ∈ s.rdropWhile is_pad, c ≠ 0) (hfuel : 256 ≤ fuel) :
    cstr (extract_string (pre ++ s.length :: (s ++ post)) pre.length dest m) dest fuel
      = s.rdropWhile is_pad := by
  have hd := declared_encode pre s post hlen hbytes
  have hr : rd (pre ++ s.length :: (s ++ post)) pre.length < fuel := by
    have := rd_lt (pre ++ s.length :: (s ++ post)) pre.length
    omega
  rw [cstr_extract_string _ _ _ _ _ hr, hd]
  exact extract_ref_eq_rdropWhile s hnul

/-- Witness of C1: byte 4 followed by "ABCD" decodes to "ABCD". -/
theorem c1_round_trip_witness :
    cstr (extract_string [4, 65, 66, 67, 68] 0 0 0) 0 256 = [65, 66, 67, 68] :=
  c1_round_trip [] [65, 66, 67, 68] [] 0 0 256 (by decide) (by decide) (by decide) (by decide)

/-- Counterexample to C1 as stated: the 5 bytes "AB\0CD" have no trailing
whitespace or NUL, yet they decode to "AB". -/
theorem c1_interior_nul_counterexample :
    cstr (extract_string [5, 65, 66, 0, 67, 68] 0 0 0) 0 256 = [65, 66] ∧
    List.rdropWhile is_pad [65, 66, 0, 67, 68] = [65, 66, 0, 67, 68] := by
  decide

/-- C8. Trimmed-text invariant: for every source, the string produced by
`extract_string` is empty or ends in a byte that is neither whitespace nor NUL. -/
theorem c8_trimmed_text (buffer : List Nat) (src dest : Nat) (m : Mem) (fuel : Nat)
    (hfuel : 256 ≤ fuel) :
    ∀ c, (cstr (extract_string buffer src dest m) dest fuel).getLast? = some c →
      isspace c = false ∧ c ≠ 0 := by
  have hr : rd buffer src < fuel := by
    have := rd_lt buffer src
    omega
  rw [cstr_extract_string _ _ _ _ _ hr]
  intro c hc
  have hne : extract_ref (declared buffer src) ≠ [] := by
    intro h0; rw [h0] at hc; simp at hc
  have hl := extract_ref_last (declared buffer src) hne
  rw [List.getLast?_eq_getLast _ hne] at hc
  injection hc with hc
  rw [hc] at hl
  exact (is_pad_false_iff c).mp hl

/-- Witness of C8: the source 3, "A", space, space gives "A". -/
theorem c8_trimmed_text_witness :
    (256 ≤ 256) ∧ ∀ c, (cstr (extract_string [3, 65, 32, 32] 0 0 0) 0 256).getLast? = some c →
      isspace c = false ∧ c ≠ 0 :=
  ⟨by decide, c8_trimmed_text [3, 65, 32, 32] 0 0 0 256 (by decide)⟩

/-- C9. Trimming idempotence: for every source, re-encoding the string `t` that
`extract_string` returns as (length byte `|t|`, the bytes of `t`) and applying
`extract_string` again returns `t`. -/
theorem c9_idempotent (buffer : List Nat) (src dest : Nat) (m : Mem) (dest2 : Nat) (m2 : Mem)
    (fuel : Nat) (hfuel : 256 ≤ fuel) :
    cstr (extract_string
        ((cstr (extract_string buffer src dest m) dest fuel).length
          :: cstr (extract_string buffer src dest m) dest fuel) 0 dest2 m2) dest2 fuel
      = cstr (extract_string buffer src dest m) dest fuel := by
  have hr : rd buffer src < fuel := by
    have := rd_lt buffer src
    omega
  rw [cstr_extract_string _ _ _ _ _ hr]
  generalize ht : extract_ref (declared buffer src) = t
  have hlen : t.length ≤ 255 := by
    have h1 := extract_ref_length_le (declared buffer src)
    rw [declared_length, ht] at h1
    have := rd_lt buffer src
    omega
  have hb : ∀ c ∈ t, c < 256 := by
    intro c hc
    rw [← ht] at hc
    exact mem_declared_lt buffer src c ((extract_ref_initial _).subset hc)
  have hd := declared_encode [] t [] hlen hb
  simp only [List.nil_append, List.append_nil, List.length_nil] at hd
  have hr2 : rd (t.length :: t) 0 < fuel := by
    have := rd_lt (t.length :: t) 0
    omega
  rw [cstr_extract_string _ _ _ _ _ hr2, hd, ← ht]
  exact extract_ref_idem _

/-- Witness of C9: the source 4, "A B " gives "A B", and "A B" encoded again
gives "A B". -/
theorem c9_idempotent_witness :
    cstr (extract_string [4, 65, 32, 66, 32] 0 0 0) 0 256 = [65, 32, 66] ∧
    cstr (extract_string
        ((cstr (extract_string [4, 65, 32, 66, 32] 0 0 0) 0 256).length
          :: cstr (extract_string [4, 65, 32, 66, 32] 0 0 0) 0 256) 0 7 0) 7 256
      = cstr (extract_string [4, 65, 32, 66, 32] 0 0 0) 0 256 :=
  ⟨by decide, c9_idempotent [4, 65, 32, 66, 32] 0 0 0 7 0 256 (by decide)⟩

/-- C6, as amended. `extract_string` has no FieldTooLong failure: for every
field capacity and every source whose length byte `n` is at least that
capacity, it returns a string all the same, the declared data before its first
NUL without its trailing whitespace, and puts the terminator `n` bytes after
the start of the field, past its end. -/
theorem c6_no_field_too_long (buffer : List Nat) (src dest : Nat) (m : Mem)
    (capacity fuel : Nat) (hcap : capacity ≤ rd buffer src) (hfuel : 256 ≤ fuel) :
    cstr (extract_string buffer src dest m) dest fuel = extract_ref (declared buffer src) ∧
    peek (extract_string buffer src dest m) (dest + rd buffer src) = 0 ∧
    dest + capacity ≤ dest + rd buffer src := by
  have hr : rd buffer src < fuel := by
    have := rd_lt buffer src
    omega
  exact ⟨cstr_extract_string _ _ _ _ _ hr, peek_extract_string_nul _ _ _ _, by omega⟩

/-- Witness of C6: a length byte 7 and "ABCDEFG" for a field of capacity 5. -/
theorem c6_no_field_too_long_witness :
    5 ≤ rd [7, 65, 66, 67, 68, 69, 70, 71] 0 ∧
    cstr (extract_string [7, 65, 66, 67, 68, 69, 70, 71] 0 0 0) 0 256
      = extract_ref (declared [7, 65, 66, 67, 68, 69, 70, 71] 0) ∧
    peek (extract_string [7, 65, 66, 67, 68, 69, 70, 71] 0 0 0) (0 + rd [7, 65, 66, 67, 68, 69, 70, 71] 0) = 0 ∧
    0 + 5 ≤ 0 + rd [7, 65, 66, 67, 68, 69, 70, 71] 0 :=
  ⟨by decide, c6_no_field_too_long [7, 65, 66, 67, 68, 69, 70, 71] 0 0 0 5 256 (by decide) (by decide)⟩

/-- Counterexample to C6 as stated: a length byte of 200 at offset 0, where
`spectrum_identifier` has capacity 5, followed by 200 letters "A": the call
returns the 200 letters as the string of the field. -/
theorem c6_length_200_counterexample :
    rd (200 :: List.replicate 200 65) 0 = 200 ∧
    cstr (extract_string (200 :: List.replicate 200 65) 0 IO_Header.spectrum_identifier 0)
      IO_Header.spectrum_identifier 256 = List.replicate 200 65 := by
  decide!

/-! ## Claims about the loop over the files -/

/-- C4, as amended. There is no TruncatedRecord failure: for every file shorter
than 397 bytes that is opened and read in full, the iteration fills a header
all the same, from the buffer that holds the bytes of the file followed by what
the buffer held before (the bytes of earlier files, the first `sizeof(char*)`
of them cleared). -/
theorem c4_no_truncated_record (psz : Nat) (has_defdetlimlib : Bool) (defdetlimlib : List Nat)
    (heap : List Nat) (m : Mem) (bytes : List Nat) (size : Nat)
    (_hshort : size < 397) (hread : size ≤ bytes.length) :
    process_file psz has_defdetlimlib defdetlimlib heap m (some bytes) size
      = (bytes.take size ++ (memset_buffer psz heap).drop size,
         Outcome.converted (fill_header has_defdetlimlib defdetlimlib
           (bytes.take size ++ (memset_buffer psz heap).drop size) (memset_io m))) := by
  unfold process_file read_file
  simp only [decide_eq_true_eq, if_pos hread, Nat.min_eq_left hread]

/-- Witness of C4: the 10-byte file `short_file` after a 400-byte file. -/
theorem c4_no_truncated_record_witness :
    (10 < 397 ∧ 10 ≤ short_file.length) ∧
    process_file 4 false [] stale_heap 0 (some short_file) 10
      = (short_file.take 10 ++ (memset_buffer 4 stale_heap).drop 10,
         Outcome.converted (fill_header false []
           (short_file.take 10 ++ (memset_buffer 4 stale_heap).drop 10) (memset_io 0))) :=
  ⟨by decide, c4_no_truncated_record 4 false [] stale_heap 0 short_file 10 (by decide) (by decide)⟩

set_option maxRecDepth 100000 in
/-- Counterexample to C4 as stated: a file of 10 bytes, processed after a file
of 400 bytes. The iteration does not fail; it hands a header to the writers,
with the identifier "WXYZ" of the short file and the `real_time` 120 and
`live_time` 100 that the earlier file left in the buffer. -/
theorem c4_short_file_counterexample :
    short_file.length = 10 ∧
    (process_file 4 false [] stale_heap 0 (some short_file) 10).2.is_converted = true ∧
    cstr (process_file 4 false [] stale_heap 0 (some short_file) 10).2.header
      IO_Header.spectrum_identifier 256 = [87, 88, 89, 90] ∧
    load_int (process_file 4 false [] stale_heap 0 (some short_file) 10).2.header
      IO_Header.real_time = 120 ∧
    load_int (process_file 4 false [] stale_heap 0 (some short_file) 10).2.header
      IO_Header.live_time = 100 := by
  decide!

set_option maxRecDepth 100000 in
/-- C5, evaluated at the failing input: on the 397-byte buffer of the
end-to-end scenario the header is filled, with `spectrum_identifier` "ABCD" and
`dead_time` 0.0, but the reads go up to index 398: `convert<int>(buffer + 395)`
for the 16-bit `ST6` copies the four bytes 395..398. -/
theorem c5_reads_past_the_end :
    buf_abcd.length = 397 ∧
    cstr (fill_header false [] buf_abcd (memset_io 0)) IO_Header.spectrum_identifier 256
      = [65, 66, 67, 68] ∧
    load_float (fill_header false [] buf_abcd (memset_io 0)) IO_Header.dead_time
      = (F32.fin false 0 0).bits ∧
    397 ∈ fill_header_reads buf_abcd ∧ 398 ∈ fill_header_reads buf_abcd := by
  decide!

set_option maxRecDepth 100000 in
/-- C10, evaluated at the failing input: the buffer holds the 16-bit value 32
at offset 269 and `convert<short>` reads it as 32, but in the filled header
`ICA` is 0. The length byte of `sample_unit` is 0, and the trimming loop of its
`extract_string`, entered with `len = 255`, clears the whitespace byte 32 of
`ICA`. -/
theorem c10_ica_cleared :
    buf_ica.length = 397 ∧ rd buf_ica 116 = 0 ∧
    convert_short buf_ica 269 = 32 ∧
    to_signed 16 (rd buf_ica 269 + 2 ^ 8 * rd buf_ica 270) = 32 ∧
    load_short (fill_header false [] buf_ica (memset_io 0)) IO_Header.ICA = 0 := by
  decide!

/-! ## Claims about the filled header -/

/-- C3, as amended. Fallback substitution: for every buffer whose declared
length at offset 222 is at most 13 and every default string `d` of at most 13
bytes, the `lim_file` of the header is `d` verbatim when the string decoded at
offset 222 is empty and a default is supplied, and the decoded string when it
is not empty or no default is supplied. -/
theorem c3_fallback (has_defdetlimlib : Bool) (defdetlimlib : List Nat) (buffer : List Nat)
    (m : Mem) (fuel : Nat) (hlen : rd buffer 222 ≤ 13)
    (hd : has_defdetlimlib = true → defdetlimlib.length ≤ 13)
    (hbytes : has_defdetlimlib = true → ∀ c ∈ defdetlimlib, c < 256 ∧ c ≠ 0)
    (hfuel : 256 ≤ fuel) :
    cstr (fill_header has_defdetlimlib defdetlimlib buffer m) IO_Header.lim_file fuel
      = if cstr (extract_string buffer 222 IO_Header.lim_file m) IO_Header.lim_file fuel = []
            ∧ has_defdetlimlib = true
          then defdetlimlib
          else cstr (extract_string buffer 222 IO_Header.lim_file m) IO_Header.lim_file fuel := by
  have hr : rd buffer 222 < fuel := by omega
  rw [fill_header_blocks, cstr_extract_string _ _ _ m _ hr]
  generalize hS : extract_string buffer 222 IO_Header.lim_file (fill_header_head buffer m) = S
  have hSt : cstr S IO_Header.lim_file fuel = extract_ref (declared buffer 222) := by
    rw [← hS]; exact cstr_extract_string _ _ _ _ _ hr
  have hSn : peek S (IO_Header.lim_file + rd buffer 222) = 0 := by
    rw [← hS]; exact peek_extract_string_nul _ _ _ _
  have hnil := cstr_eq_nil_iff S IO_Header.lim_file fuel (by omega)
  rw [hSt] at hnil
  have hframe : ∀ io : Mem, (∃ k, IO_Header.lim_file + k < 260 ∧ peek io (IO_Header.lim_file + k) = 0) →
      cstr (fill_header_tail buffer io) IO_Header.lim_file fuel = cstr io IO_Header.lim_file fuel :=
    fun io hk => cstr_congr fuel _ _ _ 260
      (fun x _ h2 => peek_fill_header_tail_below buffer io x h2) hk
  unfold default_lim_file
  by_cases hc : peek S IO_Header.lim_file = 0 ∧ has_defdetlimlib = true
  · have hb := hbytes hc.2
    have hl := hd hc.2
    rw [if_pos hc, if_pos ⟨hnil.mpr hc.1, hc.2⟩,
      hframe _ ⟨defdetlimlib.length, by show 246 + _ < 260; omega, peek_strcpy_nul _ _ _ hb⟩]
    exact cstr_strcpy _ _ _ _ hb (by omega)
  · rw [if_neg hc, if_neg (fun h => hc ⟨hnil.mp h.1, h.2⟩),
      hframe _ ⟨rd buffer 222, by show 246 + _ < 260; omega, hSn⟩]
    exact hSt

set_option maxRecDepth 100000 in
/-- Witness of C3: a declared length 0 at offset 222 with the default
"MDA01.LIB" gives the `lim_file` "MDA01.LIB". -/
theorem c3_fallback_witness :
    rd buf_abcd 222 = 0 ∧
    cstr (fill_header true [77, 68, 65, 48, 49, 46, 76, 73, 66] buf_abcd (memset_io 0))
      IO_Header.lim_file 256 = [77, 68, 65, 48, 49, 46, 76, 73, 66] :=
  ⟨by decide!, (c3_fallback true [77, 68, 65, 48, 49, 46, 76, 73, 66] buf_abcd (memset_io 0) 256
    (by decide!) (fun _ => by decide) (fun _ => by decide) (by decide)).trans (by decide!)⟩

set_option maxRecDepth 100000 in
/-- Counterexample to C3 as stated: with a declared length 0 at offset 222 and
the 16-byte default "ABCDEFGHIJKLMNOP", the `lim_file` of the header is
"ABCDEFGHIJKLMN": `strcpy` writes past the 14 bytes of the member, and the
assignment of `channel_count`, the next member, puts a NUL after the 14th byte. -/
theorem c3_long_default_counterexample :
    rd buf_abcd 222 = 0 ∧
    cstr (fill_header true [65, 66, 67, 68, 69, 70, 71, 72, 73, 74, 75, 76, 77, 78, 79, 80]
      buf_abcd (memset_io 0)) IO_Header.lim_file 256
      = [65, 66, 67, 68, 69, 70, 71, 72, 73, 74, 75, 76, 77, 78] := by
  decide!

set_option maxRecDepth 100000 in
/-- C7, as amended. Capacity bound: for every buffer in which the declared
length of every text field is at most the capacity of the field, and every
fallback string of at most 13 bytes (or none), no text field of the filled
header is longer than its capacity (`spectrum_identifier` 5, `sample_identifier`
41, `project` 5, `sample_location` 31, the unit, identifier, year and format
fields 3, the timestamp, file and library fields, `lim_file` included, 13). -/
theorem c7_capacity (has_defdetlimlib : Bool) (defdetlimlib : List Nat) (buffer : List Nat)
    (m : Mem) (fuel : Nat)
    (hfit : ∀ f ∈ text_fields, rd buffer f.src ≤ f.capacity)
    (hd : has_defdetlimlib = true → defdetlimlib.length ≤ 13) :
    ∀ f ∈ text_fields,
      (cstr (fill_header has_defdetlimlib defdetlimlib buffer m) f.dest fuel).length
        ≤ f.capacity := by
  simp only [text_fields, List.forall_mem_cons, List.not_mem_nil, false_implies, implies_true,
    and_true] at hfit
  obtain ⟨h1, h2, h3, h4, h5, h6, h7, h8, h9, h10, h11, h12, h13, h14, h15, h16, h17, h18,
    h19, h20⟩ := hfit
  intro f hf
  simp only [text_fields, List.mem_cons, List.mem_singleton, List.not_mem_nil, or_false] at hf
  rcases hf with rfl | rfl | rfl | rfl | rfl | rfl | rfl | rfl | rfl | rfl | rfl | rfl | rfl |
    rfl | rfl | rfl | rfl | rfl | rfl | rfl
  all_goals
    apply cstr_length_le_of_nul
    unfold fill_header
    dsimp only
    repeat with_reducible (first
      | exact nul_extract_string_self (by assumption)
      | refine nul_store_int (by decide) ?_
      | refine nul_store_short (by decide) ?_
      | refine nul_store_float (by decide) ?_
      | refine nul_poke (by decide) ?_
      | refine nul_extract_string_other (by assumption) (by decide) ?_
      | refine nul_default_self hd ?_
      | refine nul_default_other hd (by decide) ?_)

set_option maxRecDepth 100000 in
/-- Witness of C7: the buffer of the end-to-end scenario with the default
"MDA01.LIB". -/
theorem c7_capacity_witness :
    (∀ f ∈ text_fields, rd buf_abcd f.src ≤ f.capacity) ∧
    ∀ f ∈ text_fields,
      (cstr (fill_header true [77, 68, 65, 48, 49, 46, 76, 73, 66] buf_abcd (memset_io 0))
        f.dest 256).length ≤ f.capacity :=
  ⟨by decide!, c7_capacity true [77, 68, 65, 48, 49, 46, 76, 73, 66] buf_abcd (memset_io 0) 256
    (by decide!) (fun _ => by decide)⟩

set_option maxRecDepth 100000 in
/-- Counterexample to C7 as stated, two buffers of 397 bytes. With the 14-byte
fallback "ABCDEFGHIJKLMN" and a declared length 0 at offset 222, `lim_file` has
14 bytes, over its capacity 13. With the length byte 6 at offset 0,
`spectrum_identifier` has 7 bytes, over its capacity 5: its terminator falls on
the first byte of `sample_identifier`, which the next call overwrites. -/
theorem c7_over_capacity_counterexample :
    (buf_abcd.length = 397 ∧
      (cstr (fill_header true [65, 66, 67, 68, 69, 70, 71, 72, 73, 74, 75, 76, 77, 78] buf_abcd
        (memset_io 0)) IO_Header.lim_file 256).length = 14) ∧
    (buf_long_id.length = 397 ∧
      cstr (fill_header false [] buf_long_id (memset_io 0)) IO_Header.spectrum_identifier 256
        = [65, 66, 67, 68, 1, 70, 70]) := by
  decide!

/-! ## Claims about dead_time -/

/-- C2. Dead-time formula: for every decoded `real_time` and `live_time` with
`live_time ≠ 0`, `dead_time` is `((real_time - live_time) / live_time) * 100`
evaluated in `float` arithmetic, operation by operation; it is a finite number,
and when both times are at most `2^24` in absolute value (so that their
conversion to `float` is exact) it is within a relative distance `2^-22` of the
exact quotient. In particular `real_time = 120`, `live_time = 100` gives
exactly 20.0 (bit pattern `0x41A00000`) and `real_time = live_time = 1` gives
0.0. -/
theorem c2_dead_time (real_time live_time : Int) (hlive : live_time ≠ 0) :
    dead_time real_time live_time
      = F32.mul (F32.div (F32.sub (F32.of_int real_time) (F32.of_int live_time))
          (F32.of_int live_time)) (F32.of_int 100) ∧
    (dead_time real_time live_time).is_finite = true ∧
    (real_time.natAbs ≤ 2 ^ 24 → live_time.natAbs ≤ 2 ^ 24 →
      |F32.to_rat (dead_time real_time live_time)
          - ((real_time : ℚ) - live_time) / live_time * 100|
        ≤ 1 / 2 ^ 22 * |((real_time : ℚ) - live_time) / live_time * 100|) ∧
    (F32.to_rat (dead_time 120 100) = 20 ∧ (dead_time 120 100).bits = 0x41A00000) ∧
    (F32.to_rat (dead_time 1 1) = 0 ∧ (dead_time 1 1).bits = 0) := by
  refine ⟨rfl, dead_time_finite _ _ hlive,
    fun h1 h2 => (dead_time_close _ _ hlive h1 h2).2, ⟨?_, by decide!⟩, ⟨?_, by decide!⟩⟩
  · rw [show dead_time 120 100 = F32.fin false 10485760 (-19) by decide!]
    norm_num [F32.to_rat]
  · rw [show dead_time 1 1 = F32.fin false 0 0 by decide!]
    norm_num [F32.to_rat]

set_option maxRecDepth 100000 in
/-- Witness of C2: `real_time = 120` and `live_time = 100`; a buffer that
holds them fills the header with the `dead_time` 20.0. -/
theorem c2_dead_time_witness :
    ((100 : Int) ≠ 0) ∧
    (convert_int stale_heap 193 = 120 ∧ convert_int stale_heap 197 = 100 ∧
      load_float (fill_header false [] stale_heap (memset_io 0)) IO_Header.dead_time
        = (dead_time 120 100).bits) ∧
    (dead_time 120 100).is_finite = true ∧
    |F32.to_rat (dead_time 120 100) - (((120 : Int) : ℚ) - (100 : Int)) / (100 : Int) * 100|
      ≤ 1 / 2 ^ 22 * |(((120 : Int) : ℚ) - (100 : Int)) / (100 : Int) * 100| :=
  ⟨by decide, by decide!, (c2_dead_time 120 100 (by decide)).2.1,
    (c2_dead_time 120 100 (by decide)).2.2.1 (by decide) (by decide)⟩

/-! ## Claims about extract_string as a function of the declared bytes -/

/-- C13. Trimming reads only the declared bytes: for every two sources that
agree on the length byte `n` and on the `n` bytes that follow it,
`extract_string` returns the same string, whatever bytes lie beyond the declared
length in either source and whatever the two destinations hold, `n = 0`
included. -/
theorem c13_declared_bytes_only (b1 b2 : List Nat) (s1 s2 d1 d2 : Nat) (m1 m2 : Mem)
    (fuel : Nat) (hlen : rd b1 s1 = rd b2 s2)
    (hdata : ∀ i, i < rd b1 s1 → rd b1 (s1 + 1 + i) = rd b2 (s2 + 1 + i))
    (hfuel : 256 ≤ fuel) :
    cstr (extract_string b1 s1 d1 m1) d1 fuel = cstr (extract_string b2 s2 d2 m2) d2 fuel := by
  have h1 : rd b1 s1 < fuel := by
    have := rd_lt b1 s1
    omega
  have h2 : rd b2 s2 < fuel := by
    have := rd_lt b2 s2
    omega
  rw [cstr_extract_string _ _ _ _ _ h1, cstr_extract_string _ _ _ _ _ h2,
    declared_congr b1 b2 s1 s2 hlen hdata]

/-- Witness of C13, two pairs of sources. The sources 2, "A ", "xyz" and (at
index 1) 2, "A ", "B" give the same string "A" in two destinations that hold
different bytes; the sources 0, "A" and 0, "B" both give the empty string. -/
theorem c13_declared_bytes_only_witness :
    (cstr (extract_string [2, 65, 32, 120, 121, 122] 0 0 0) 0 256 = [65] ∧
      cstr (extract_string [2, 65, 32, 120, 121, 122] 0 0 0) 0 256
        = cstr (extract_string [9, 2, 65, 32, 66] 1 3 (256 ^ 7 - 1)) 3 256) ∧
    cstr (extract_string [0, 65] 0 0 0) 0 256
      = cstr (extract_string [0, 66] 0 3 (256 ^ 7 - 1)) 3 256 :=
  ⟨⟨by decide, c13_declared_bytes_only [2, 65, 32, 120, 121, 122] [9, 2, 65, 32, 66] 0 1 0 3 0
      (256 ^ 7 - 1) 256 (by decide) (by decide) (by decide)⟩,
    c13_declared_bytes_only [0, 65] [0, 66] 0 0 0 3 0 (256 ^ 7 - 1) 256 (by decide) (by decide)
      (by decide)⟩

/-- C17. Blank fields decode to empty: for every declared length `n ≥ 1` and
every data of `n` bytes that are all whitespace or NUL, `extract_string` returns
the empty string. At offset 222 the blank `lim_file` passes the test of line 256,
and with a default of at most 13 bytes the `lim_file` of the header is the
default. -/
theorem c17_blank_is_empty (buffer : List Nat) (src dest : Nat) (m : Mem) (fuel : Nat)
    (_hn : 1 ≤ rd buffer src) (hblank : ∀ c ∈ declared buffer src, is_pad c = true)
    (hfuel : 256 ≤ fuel) :
    cstr (extract_string buffer src dest m) dest fuel = [] ∧
    (src = 222 → ∀ (defdetlimlib : List Nat) (io : Mem), defdetlimlib.length ≤ 13 →
      (∀ c ∈ defdetlimlib, c < 256 ∧ c ≠ 0) →
      cstr (fill_header true defdetlimlib buffer io) IO_Header.lim_file fuel = defdetlimlib) := by
  have hr : rd buffer src < fuel := by
    have := rd_lt buffer src
    omega
  refine ⟨?_, ?_⟩
  · rw [cstr_extract_string _ _ _ _ _ hr]
    exact extract_ref_eq_nil _ hblank
  · intro hs defdetlimlib io hd hbytes
    subst hs
    exact cstr_lim_file_default defdetlimlib buffer io fuel (extract_ref_eq_nil _ hblank) hd
      hbytes hfuel

set_option maxRecDepth 100000 in
/-- Witness of C17: a `lim_file` of 12 spaces at offset 222 decodes to the empty
string, and with the default "MDA01.LIB" the `lim_file` of the header is
"MDA01.LIB". -/
theorem c17_blank_is_empty_witness :
    (rd buf_blank_lim 222 = 12 ∧ ∀ c ∈ declared buf_blank_lim 222, c = 32) ∧
    cstr (extract_string buf_blank_lim 222 IO_Header.lim_file (memset_io 0))
      IO_Header.lim_file 256 = [] ∧
    cstr (fill_header true [77, 68, 65, 48, 49, 46, 76, 73, 66] buf_blank_lim (memset_io 0))
      IO_Header.lim_file 256 = [77, 68, 65, 48, 49, 46, 76, 73, 66] :=
  ⟨by decide!,
    (c17_blank_is_empty buf_blank_lim 222 IO_Header.lim_file (memset_io 0) 256 (by decide!)
      (by decide!) (by decide)).1,
    (c17_blank_is_empty buf_blank_lim 222 IO_Header.lim_file (memset_io 0) 256 (by decide!)
      (by decide!) (by decide)).2 rfl [77, 68, 65, 48, 49, 46, 76, 73, 66] (memset_io 0)
      (by decide) (by decide)⟩

/-- C18. Reference definition of `extract_string`: for every declared length
`n ≥ 1` and every `n` data bytes, the returned string is the part of the data
before its first NUL byte (the whole data when it has none) without its
trailing whitespace; hence it is a prefix of the declared data. -/
theorem c18_reference (buffer : List Nat) (src dest : Nat) (m : Mem) (fuel : Nat)
    (_hn : 1 ≤ rd buffer src) (hfuel : 256 ≤ fuel) :
    cstr (extract_string buffer src dest m) dest fuel
      = ((declared buffer src).takeWhile (fun c => c != 0)).rdropWhile isspace ∧
    ((∀ c ∈ declared buffer src, c ≠ 0) →
      cstr (extract_string buffer src dest m) dest fuel
        = (declared buffer src).rdropWhile isspace) ∧
    cstr (extract_string buffer src dest m) dest fuel <+: declared buffer src := by
  have hr : rd buffer src < fuel := by
    have := rd_lt buffer src
    omega
  rw [cstr_extract_string _ _ _ _ _ hr]
  refine ⟨rfl, ?_, extract_ref_initial _⟩
  intro hnz
  unfold extract_ref
  rw [takeWhile_eq_self _ _ (fun c hc => by simpa using hnz c hc)]

/-- Witness of C18: the length 5 data "AB\0CD" gives "AB". -/
theorem c18_reference_witness :
    rd [5, 65, 66, 0, 67, 68] 0 = 5 ∧
    cstr (extract_string [5, 65, 66, 0, 67, 68] 0 0 0) 0 256 = [65, 66] :=
  ⟨by decide, (c18_reference [5, 65, 66, 0, 67, 68] 0 0 0 256 (by decide) (by decide)).1.trans
    (by decide)⟩

/-! ## Claims about the 16-bit members read through `convert<int>` -/

set_option maxRecDepth 100000 in
/-- C11, as amended. 16-bit fields read through a 32-bit read: for every buffer,
in the filled header `record_length` is the signed little-endian 16-bit value
of the two bytes at offset 243, and `ST1` .. `ST6` those of the two bytes at
offsets 385, 387, 389, 391, 393 and 395; the two bytes that follow, which
`convert<int>` also reads, have no part in them. And for every buffer in which
no declared string reaches index 397 (offset plus declared length below 397 for
every text field, as when every declared length is within the capacity), the
header depends on no byte at an index from 397 on: a buffer with the same bytes
below index 397 fills the same header. -/
theorem c11_short_through_int (has_defdetlimlib : Bool) (defdetlimlib : List Nat)
    (buffer : List Nat) (m : Mem) :
    (load_short (fill_header has_defdetlimlib defdetlimlib buffer m) IO_Header.record_length
        = to_signed 16 (rd buffer 243 + 256 * rd buffer 244) ∧
      load_short (fill_header has_defdetlimlib defdetlimlib buffer m) IO_Header.ST1
        = to_signed 16 (rd buffer 385 + 256 * rd buffer 386) ∧
      load_short (fill_header has_defdetlimlib defdetlimlib buffer m) IO_Header.ST2
        = to_signed 16 (rd buffer 387 + 256 * rd buffer 388) ∧
      load_short (fill_header has_defdetlimlib defdetlimlib buffer m) IO_Header.ST3
        = to_signed 16 (rd buffer 389 + 256 * rd buffer 390) ∧
      load_short (fill_header has_defdetlimlib defdetlimlib buffer m) IO_Header.ST4
        = to_signed 16 (rd buffer 391 + 256 * rd buffer 392) ∧
      load_short (fill_header has_defdetlimlib defdetlimlib buffer m) IO_Header.ST5
        = to_signed 16 (rd buffer 393 + 256 * rd buffer 394) ∧
      load_short (fill_header has_defdetlimlib defdetlimlib buffer m) IO_Header.ST6
        = to_signed 16 (rd buffer 395 + 256 * rd buffer 396)) ∧
    (∀ other : List Nat, (∀ i, i < 397 → rd buffer i = rd other i) →
      (∀ f ∈ text_fields, f.src + rd buffer f.src < 397) →
      fill_header has_defdetlimlib defdetlimlib buffer m
        = fill_header has_defdetlimlib defdetlimlib other m) := by
  refine ⟨?_, fun other hagree hfit =>
    fill_header_congr has_defdetlimlib defdetlimlib buffer other m hagree hfit⟩
  unfold fill_header
  dsimp only
  refine ⟨?_, ?_, ?_, ?_, ?_, ?_, ?_⟩ <;>
    simp (disch := decide) only [load_short_store_int, load_short_store_short_ne,
      load_short_store_convert]

set_option maxRecDepth 100000 in
/-- Witness of C11: the buffer of the end-to-end scenario and the same bytes
followed by three bytes 7 fill the same header. -/
theorem c11_short_through_int_witness :
    ((∀ i, i < 397 → rd buf_abcd i = rd (buf_abcd ++ [7, 7, 7]) i) ∧
      rd (buf_abcd ++ [7, 7, 7]) 397 = 7) ∧
    fill_header false [] buf_abcd (memset_io 0)
      = fill_header false [] (buf_abcd ++ [7, 7, 7]) (memset_io 0) :=
  ⟨by decide!, (c11_short_through_int false [] buf_abcd (memset_io 0)).2 (buf_abcd ++ [7, 7, 7])
    (by decide!) (by decide!)⟩

set_option maxRecDepth 100000 in
/-- Counterexample to C11 as stated: two buffers of 407 bytes that differ at
index 406 only, and two different headers. The field `format` declares 167
bytes, so its `extract_string` copies the bytes 240..406 over the members from
`format` to `ST6` and trims from the last of them down. With a space at index
406 the trimming clears the spaces copied from 366..406, among them the two
padding bytes after `ex_disk_out`: the string at `background_file`, which has
run over `PA1` .. `ex_disk_out`, ends there, after 50 bytes. With a letter at
index 406 nothing is trimmed, the two padding bytes stay spaces and the string
goes on. -/
theorem c11_format_overflow_counterexample :
    (buf_tail_a.length = 407 ∧ buf_tail_b.length = 407 ∧
      ∀ i, i < 406 → rd buf_tail_a i = rd buf_tail_b i) ∧
    cstr (fill_header false [] buf_tail_a (memset_io 0)) IO_Header.background_file 256
      = List.replicate 50 65 ∧
    cstr (fill_header false [] buf_tail_b (memset_io 0)) IO_Header.background_file 52
      = List.replicate 50 65 ++ [32, 32] := by
  decide!

/-! ## Claims about what a header owes to other files and other fields -/

set_option maxRecDepth 100000 in
/-- C15, evaluated at the failing input: two buffers of 397 bytes with the same
bytes at offsets 193..200, `real_time = live_time = 32`. In `buf_live_units` the
four text fields decoded after them (offsets 116, 119, 122, 125) have declared
length 1, and the header has `live_time = 32`. In `buf_live` they have declared
length 0, and the header has `live_time = 0` and `real_time = 0`: the trimming
loop of `extract_string`, entered with `len = 255` for a declared length 0,
clears the whitespace byte 32 of each. -/
theorem c15_live_time_cleared :
    (buf_live.length = 397 ∧ buf_live_units.length = 397 ∧
      ∀ i, 193 ≤ i → i < 201 → rd buf_live i = rd buf_live_units i) ∧
    (convert_int buf_live 193 = 32 ∧ convert_int buf_live 197 = 32 ∧ rd buf_live 116 = 0) ∧
    load_int (fill_header false [] buf_live_units (memset_io 0)) IO_Header.live_time = 32 ∧
    load_int (fill_header false [] buf_live (memset_io 0)) IO_Header.live_time = 0 ∧
    load_int (fill_header false [] buf_live (memset_io 0)) IO_Header.real_time = 0 := by
  decide!

/-! ## Claims about generate_inp -/

set_option maxRecDepth 100000 in
/-- C16, as amended. One field per line in a fixed order: `generate_inp` writes
68 members, every member of `IO_Header` exactly once, each followed by `endl`,
in the fixed order that starts with `spectrum_identifier`, has `dead_time` in
place 27 directly after `measurement_time` and `lim_file` in place 29, and ends
with `ST6`. For every header in which no text member and neither unit character
holds a newline character, the output has exactly 68 lines, whatever characters
(other than a newline) the library writes for a `float`. -/
theorem c16_one_field_per_line :
    (generate_inp_order.length = 68 ∧ IO_Header.members.length = 68 ∧
      generate_inp_order.Perm (IO_Header.members.map Prod.fst) ∧ generate_inp_order.Nodup ∧
      generate_inp_order[0]? = some IO_Header.spectrum_identifier ∧
      generate_inp_order[25]? = some IO_Header.measurement_time ∧
      generate_inp_order[26]? = some IO_Header.dead_time ∧
      generate_inp_order[28]? = some IO_Header.lim_file ∧
      generate_inp_order[67]? = some IO_Header.ST6) ∧
    (∀ (io : Mem) (fmt : Nat → List Nat), (∀ bits, 10 ∉ fmt bits) →
      (∀ a ∈ generate_inp_order, (insert_member io a).newlines = 0) →
      (generate_inp io).length = 2 * 68 ∧ inp_lines io = 68 ∧
      (inp_text fmt io).count 10 = 68) := by
  refine ⟨by decide!, fun io fmt hfmt hclean => ?_⟩
  have hl : inp_lines io = 68 := sum_newlines io generate_inp_order hclean
  refine ⟨?_, hl, ?_⟩
  · exact length_members io generate_inp_order
  · unfold inp_text
    rw [count_flatMap_chars fmt hfmt]
    exact hl

set_option maxRecDepth 100000 in
/-- Witness of C16: the header of the end-to-end scenario is written in 68
lines. -/
theorem c16_one_field_per_line_witness :
    (∀ a ∈ generate_inp_order,
      (insert_member (fill_header false [] buf_abcd (memset_io 0)) a).newlines = 0) ∧
    (generate_inp (fill_header false [] buf_abcd (memset_io 0))).length = 2 * 68 ∧
    inp_lines (fill_header false [] buf_abcd (memset_io 0)) = 68 ∧
    (inp_text (fun _ => [48]) (fill_header false [] buf_abcd (memset_io 0))).count 10 = 68 :=
  ⟨by decide!, c16_one_field_per_line.2 (fill_header false [] buf_abcd (memset_io 0))
    (fun _ => [48]) (fun _ => by simp) (by decide!)⟩

set_option maxRecDepth 100000 in
/-- Counterexample to C16 as stated: a 397-byte buffer whose `sample_identifier`
is the three bytes "A", newline, "B". The string is decoded as it is, the second
member written is "A", newline, "B", and the output has 69 lines. -/
theorem c16_newline_counterexample :
    buf_newline.length = 397 ∧
    cstr (fill_header false [] buf_newline (memset_io 0)) IO_Header.sample_identifier 256
      = [65, 10, 66] ∧
    (generate_inp (fill_header false [] buf_newline (memset_io 0)))[2]?
      = some (Item.text [65, 10, 66]) ∧
    inp_lines (fill_header false [] buf_newline (memset_io 0)) = 69 := by
  decide!

/-! ## Claims about dead_time with a live_time of 0 -/

/-- C12. Division by zero in dead-time is not an error: for every decoded
`real_time`, with `live_time = 0` the three statements of lines 247-249 give a
value all the same, and it is not a finite number: NaN for `real_time = 0`, the
infinity with the sign of `real_time` otherwise. A header is filled, and for a
buffer whose declared lengths are within the capacities its `dead_time` holds
the bits of that value. -/
theorem c12_division_by_zero (real_time : Int) :
    dead_time real_time 0
      = (if real_time = 0 then F32.nan else F32.inf (decide (real_time < 0))) ∧
    (dead_time real_time 0).is_finite = false ∧
    (∀ (has_defdetlimlib : Bool) (defdetlimlib buffer : List Nat) (m : Mem),
      convert_int buffer 193 = real_time → convert_int buffer 197 = 0 →
      (∀ f ∈ text_fields, rd buffer f.src ≤ f.capacity) →
      load_float (fill_header has_defdetlimlib defdetlimlib buffer m) IO_Header.dead_time
        = (dead_time real_time 0).bits) := by
  refine ⟨dead_time_zero real_time, ?_, ?_⟩
  · rw [dead_time_zero]
    split <;> rfl
  · intro has_defdetlimlib defdetlimlib buffer m hreal hlive hfit
    have h1 := hfit ⟨116, IO_Header.sample_unit, 3⟩ (by decide)
    have h2 := hfit ⟨119, IO_Header.detector_identifier, 3⟩ (by decide)
    have h3 := hfit ⟨122, IO_Header.year, 3⟩ (by decide)
    have h4 := hfit ⟨125, IO_Header.beaker_identifier, 3⟩ (by decide)
    dsimp only at h1 h2 h3 h4
    have hs : ∀ i, i < 4 → isspace ((dead_time real_time 0).bits / 256 ^ i % 256) = false := by
      intro i hi
      rcases dead_time_zero_bits real_time with hb | hb | hb <;> rw [hb] <;>
        interval_cases i <;> decide
    have hlt : (dead_time real_time 0).bits < 256 ^ 4 := by
      rcases dead_time_zero_bits real_time with hb | hb | hb <;> rw [hb] <;> decide
    have hh := dead_time_stored has_defdetlimlib defdetlimlib buffer m
      (by show 128 + _ < 228; omega) (by show 132 + _ < 228; omega)
      (by show 136 + _ < 228; omega) (by show 140 + _ < 228; omega)
      (by rw [hreal, hlive]; exact hs)
    rw [hreal, hlive] at hh
    unfold load_float
    rw [load_le_of_holds _ _ _ 4 hh, Nat.mod_eq_of_lt hlt]

set_option maxRecDepth 100000 in
/-- Witness of C12: the buffer of the end-to-end scenario with `real_time = 1`
and `live_time = 0` fills a header whose `dead_time` is `+infinity`, bit pattern
`0x7F800000`. -/
theorem c12_division_by_zero_witness :
    (convert_int buf_live_zero 193 = 1 ∧ convert_int buf_live_zero 197 = 0) ∧
    load_float (fill_header false [] buf_live_zero (memset_io 0)) IO_Header.dead_time
      = 0x7F800000 ∧
    dead_time 1 0 = F32.inf false :=
  ⟨by decide!, ((c12_division_by_zero 1).2.2 false [] buf_live_zero (memset_io 0) (by decide!)
    (by decide!) (by decide!)).trans (by decide!), (c12_division_by_zero 1).1⟩

end Dat2Inp
